import Mathlib

/-!
# Verification of the escape-vim level tooling

A shallow embedding, in Lean 4, of the core of `tools/level_builder.py` and
`tools/validate_levels.py`:

* the grid compiler (`generate_maze`),
* the patrol route planner (`generate_patrol_route`),
* the two route walkers (`validate_route` in the builder, `validate_spy` in the
  validator),
* the Vim-literal serializer (`format_vim_value` with its two escape helpers),
* the Vim-literal parser (`parse_vim_dict`),
* the level validator helpers (`measure_maze`, `get_char_at`, `validate_level`).

Python strings are embedded as `List Char` (sequences of Unicode code points,
which is exactly Python's string model).  Python integers are `Int`.  Python
floats are embedded by their canonical `str()` rendering, a `List Char`
(Python guarantees `eval(str(x)) == x` for finite floats, so the rendering
determines the float; the parser model carries the rendered text through
unchanged).  `while` loops are given an explicit fuel parameter and return
`Option` — `none` means the loop did not finish within the supplied fuel, so a
function that returns `some` for every sufficiently large fuel terminates and
one that returns `none` for all fuels diverges.  Python file I/O and the
`eval` builtin are at the boundary of the embedding: the parser's final
`eval` step is modelled by `pyEvalValue`, a recursive-descent evaluator of the
Python literal grammar (the specification itself, §4.5/§9, describes this step
as "a generic structural evaluator" over bracket/brace/comma syntax and directs
that a faithful reimplementation be exactly such a recursive-descent grammar).
-/

set_option maxHeartbeats 1000000

namespace EscapeVim

/-! ## Basic character-list utilities shared by both tools -/

/-- The wall glyph `█` of `WALL_CHAR` in both tools. -/
def wallChar : Char := '█'

/-- The floor glyph (space) of `FLOOR_CHAR`. -/
def floorChar : Char := ' '

/-- Python whitespace, as stripped by `str.lstrip()` with no argument. -/
def isPyWs (c : Char) : Bool :=
  c = ' ' ∨ c = '\t' ∨ c = '\n' ∨ c = '\x0d' ∨ c = '\x0b' ∨ c = '\x0c'

/-- `str.lstrip()`: drop leading Python whitespace. -/
def pyLstrip (s : List Char) : List Char := s.dropWhile isPyWs

/-- `str.rstrip('\n')`: drop every trailing newline character. -/
def stripNl (s : List Char) : List Char :=
  (s.reverse.dropWhile (· = '\n')).reverse

/-- `str.split('\n')`: the list of lines, keeping empty pieces, so a string
with `n` newline characters yields `n + 1` pieces. -/
def splitNl : List Char → List (List Char)
  | [] => [[]]
  | c :: rest =>
    if c = '\n' then [] :: splitNl rest
    else
      match splitNl rest with
      | [] => [[c]]
      | l :: ls => (c :: l) :: ls

theorem splitNl_ne_nil (s : List Char) : splitNl s ≠ [] := by
  induction s with
  | nil => simp [splitNl]
  | cons c rest ih =>
    simp only [splitNl]
    split
    · simp
    · cases h : splitNl rest <;> simp

/-- `'\n'.join`: interleave a newline between the pieces. -/
def joinNl : List (List Char) → List Char
  | [] => []
  | [l] => l
  | l :: ls => l ++ '\n' :: joinNl ls

theorem joinNl_splitNl (s : List Char) : joinNl (splitNl s) = s := by
  induction s with
  | nil => simp [splitNl, joinNl]
  | cons c rest ih =>
    simp only [splitNl]
    split
    · rename_i hc
      subst hc
      cases h : splitNl rest with
      | nil => exact absurd h (splitNl_ne_nil rest)
      | cons l ls =>
        rw [h] at ih
        simp [joinNl]
        cases ls <;> simpa [joinNl] using ih
    · cases h : splitNl rest with
      | nil => exact absurd h (splitNl_ne_nil rest)
      | cons l ls =>
        rw [h] at ih
        cases ls <;> simpa [joinNl] using ih

/-- Python `range(a, b)` over integers (empty when `b ≤ a`). -/
def intRange (a b : Int) : List Int :=
  (List.range (b - a).toNat).map (fun k : Nat => a + (k : Int))

theorem mem_intRange {a b x : Int} : x ∈ intRange a b ↔ a ≤ x ∧ x < b := by
  unfold intRange
  rw [List.mem_map]
  constructor
  · rintro ⟨k, hk, rfl⟩
    rw [List.mem_range] at hk
    omega
  · rintro ⟨h1, h2⟩
    refine ⟨(x - a).toNat, ?_, by omega⟩
    rw [List.mem_range]
    omega

/-! ## The grid compiler: `generate_maze` (`tools/level_builder.py`)

The Python grid is a list of rows, each a list of characters, mutated in
place by `grid[r][c] = ch`; we embed it as `List (List Char)` with a
functional update `gridSet` (out-of-range updates are no-ops; every update
`generate_maze` performs is in range once both dimensions are at least 1,
which the level format guarantees — a 0-dimension config would make the
Python border loop raise `IndexError`, a case outside the embedding). -/

/-- The grid type: a list of rows of characters. -/
abbrev Grid := List (List Char)

/-- `grid[r][c] = ch` as a functional update. -/
def gridSet (g : Grid) (r c : Nat) (ch : Char) : Grid :=
  g.set r ((g.getD r []).set c ch)

/-- Read `grid[r][c]`. -/
def cell (g : Grid) (r c : Nat) : Option Char := (g[r]?).bind (fun row => row[c]?)

theorem getD_row_of_lt (g : Grid) (r : Nat) (h : r < g.length) :
    g[r]? = some (g.getD r []) := by
  rw [List.getElem?_eq_getElem h, List.getD_eq_getElem?_getD, List.getElem?_eq_getElem h]
  rfl

theorem cell_gridSet (g : Grid) (r c : Nat) (ch : Char) (r' c' : Nat) :
    cell (gridSet g r c ch) r' c' =
      if r = r' ∧ c = c' ∧ r < g.length ∧ c < (g.getD r []).length then some ch
      else cell g r' c' := by
  unfold cell gridSet
  by_cases hr : r = r'
  · subst hr
    by_cases hrl : r < g.length
    · rw [List.getElem?_set, if_pos rfl, if_pos hrl, getD_row_of_lt g r hrl]
      simp only [Option.some_bind, List.getElem?_set]
      by_cases hc : c = c'
      · subst hc
        by_cases hcl : c < (g.getD r []).length
        · have hcl' : c < g[r].length := by
            rw [List.getD_eq_getElem?_getD, List.getElem?_eq_getElem hrl] at hcl
            simpa using hcl
          simp [hrl, hcl, hcl']
        · rw [if_pos rfl, if_neg hcl, if_neg (by tauto),
            List.getElem?_eq_none (by omega)]
      · rw [if_neg hc, if_neg (by tauto)]
    · rw [List.getElem?_set, if_pos rfl, if_neg hrl,
        List.getElem?_eq_none (by omega), if_neg (by tauto)]
  · rw [List.getElem?_set, if_neg hr, if_neg (by tauto)]

theorem length_gridSet (g : Grid) (r c : Nat) (ch : Char) :
    (gridSet g r c ch).length = g.length := by
  simp [gridSet]

theorem getD_gridSet_length (g : Grid) (r c : Nat) (ch : Char) (i : Nat) :
    ((gridSet g r c ch).getD i []).length = (g.getD i []).length := by
  unfold gridSet
  by_cases hi : r = i
  · subst hi
    by_cases hl : r < g.length
    · rw [List.getD_eq_getElem?_getD, List.getElem?_set, if_pos rfl, if_pos hl]
      simp [List.getD_eq_getElem?_getD]
    · rw [List.getD_eq_getElem?_getD, List.getElem?_set, if_pos rfl, if_neg hl,
        List.getD_eq_getElem?_getD, List.getElem?_eq_none (by omega)]
  · rw [List.getD_eq_getElem?_getD, List.getElem?_set, if_neg hi,
      ← List.getD_eq_getElem?_getD]

/-- The grid has `R` rows, each of length `C`. -/
def dimsOk (R C : Nat) (g : Grid) : Prop :=
  g.length = R ∧ ∀ i, i < R → (g.getD i []).length = C

/-- `wall` rect spec `[top, left, height, width]`, `hline` `[row, colStart, colEnd]`,
`vline` `[col, rowStart, rowEnd]`, all 1-indexed inclusive, from the YAML config. -/
inductive WallSpec where
  | rect (top left height width : Int)
  | hline (row colStart colEnd : Int)
  | vline (col rowStart rowEnd : Int)
deriving DecidableEq

/-- Opening specs: `hline`, `vline`, `point`, 1-indexed. -/
inductive OpeningSpec where
  | hline (row colStart colEnd : Int)
  | vline (col rowStart rowEnd : Int)
  | point (row col : Int)
deriving DecidableEq

/-- The slice of the YAML level config that `generate_maze` reads. -/
structure MazeConfig where
  rows : Int
  cols : Int
  walls : List WallSpec
  openings : List OpeningSpec
  exit? : Option (Int × Int)

/-- Initial grid: `[[FLOOR_CHAR for _ in range(cols)] for _ in range(rows)]`. -/
def initGrid (rows cols : Int) : Grid :=
  (List.range rows.toNat).map (fun _ => List.replicate cols.toNat floorChar)

/-- The two border loops of `generate_maze`. -/
def paintBorder (rows cols : Int) (g : Grid) : Grid :=
  let g1 := (List.range cols.toNat).foldl
    (fun g c => gridSet (gridSet g 0 c wallChar) (rows - 1).toNat c wallChar) g
  (List.range rows.toNat).foldl
    (fun g r => gridSet (gridSet g r 0 wallChar) r (cols - 1).toNat wallChar) g1

/-- Apply one wall spec: paint `WALL_CHAR`, silently skipping out-of-range cells. -/
def applyWall (rows cols : Int) (g : Grid) (w : WallSpec) : Grid :=
  match w with
  | .rect top left height width =>
    (intRange (top - 1) (top - 1 + height)).foldl (fun g r =>
      (intRange (left - 1) (left - 1 + width)).foldl (fun g c =>
        if 0 ≤ r ∧ r < rows ∧ 0 ≤ c ∧ c < cols then gridSet g r.toNat c.toNat wallChar else g) g) g
  | .hline row colStart colEnd =>
    (intRange (colStart - 1) (colEnd - 1 + 1)).foldl (fun g c =>
      if 0 ≤ row - 1 ∧ row - 1 < rows ∧ 0 ≤ c ∧ c < cols then
        gridSet g (row - 1).toNat c.toNat wallChar else g) g
  | .vline col rowStart rowEnd =>
    (intRange (rowStart - 1) (rowEnd - 1 + 1)).foldl (fun g r =>
      if 0 ≤ r ∧ r < rows ∧ 0 ≤ col - 1 ∧ col - 1 < cols then
        gridSet g r.toNat (col - 1).toNat wallChar else g) g

/-- Apply one opening spec: paint `FLOOR_CHAR` over anything, skipping
out-of-range cells. -/
def applyOpening (rows cols : Int) (g : Grid) (o : OpeningSpec) : Grid :=
  match o with
  | .hline row colStart colEnd =>
    (intRange (colStart - 1) (colEnd - 1 + 1)).foldl (fun g c =>
      if 0 ≤ row - 1 ∧ row - 1 < rows ∧ 0 ≤ c ∧ c < cols then
        gridSet g (row - 1).toNat c.toNat floorChar else g) g
  | .vline col rowStart rowEnd =>
    (intRange (rowStart - 1) (rowEnd - 1 + 1)).foldl (fun g r =>
      if 0 ≤ r ∧ r < rows ∧ 0 ≤ col - 1 ∧ col - 1 < cols then
        gridSet g r.toNat (col - 1).toNat floorChar else g) g
  | .point row col =>
    if 0 ≤ row - 1 ∧ row - 1 < rows ∧ 0 ≤ col - 1 ∧ col - 1 < cols then
      gridSet g (row - 1).toNat (col - 1).toNat floorChar else g

/-- Stamp the exit marker `Q` if an exit position is configured and in bounds. -/
def applyExit (rows cols : Int) (g : Grid) (exit? : Option (Int × Int)) : Grid :=
  match exit? with
  | none => g
  | some (er, ec) =>
    if 0 ≤ er - 1 ∧ er - 1 < rows ∧ 0 ≤ ec - 1 ∧ ec - 1 < cols then
      gridSet g (er - 1).toNat (ec - 1).toNat 'Q' else g

/-- `generate_maze`: floors, border, walls in order, openings in order, exit.
The Python function's final `''.join(row)` turns each row of characters into a
string; under the `List Char` embedding of strings it is the identity, so the
grid itself is returned. -/
def generate_maze (cfg : MazeConfig) : Grid :=
  applyExit cfg.rows cfg.cols
    (cfg.openings.foldl (applyOpening cfg.rows cfg.cols)
      (cfg.walls.foldl (applyWall cfg.rows cfg.cols)
        (paintBorder cfg.rows cfg.cols (initGrid cfg.rows cfg.cols))))
    cfg.exit?

/-! ### Border invariant machinery -/

theorem foldl_preserves {α : Type} (P : Grid → Prop) (f : Grid → α → Grid)
    (l : List α) (g : Grid) (hg : P g)
    (h : ∀ g' a, a ∈ l → P g' → P (f g' a)) : P (l.foldl f g) := by
  induction l generalizing g with
  | nil => exact hg
  | cons b t ih =>
    exact ih (f g b) (h g b (List.mem_cons_self b t) hg)
      (fun g' a ha hp => h g' a (List.mem_cons_of_mem _ ha) hp)

theorem cell_gridSet_self (g : Grid) (r c : Nat) (ch : Char)
    (h1 : r < g.length) (h2 : c < (g.getD r []).length) :
    cell (gridSet g r c ch) r c = some ch := by
  rw [cell_gridSet, if_pos ⟨rfl, rfl, h1, h2⟩]

theorem cell_gridSet_preserve (g : Grid) (a b r c : Nat) (ch : Char)
    (h : cell g r c = some ch) : cell (gridSet g a b ch) r c = some ch := by
  rw [cell_gridSet]
  split
  · rfl
  · exact h

theorem dimsOk_gridSet {R C : Nat} {g : Grid} (h : dimsOk R C g) (r c : Nat) (ch : Char) :
    dimsOk R C (gridSet g r c ch) := by
  refine ⟨by rw [length_gridSet]; exact h.1, fun i hi => ?_⟩
  rw [getD_gridSet_length]
  exact h.2 i hi

theorem dimsOk_initGrid (rows cols : Int) :
    dimsOk rows.toNat cols.toNat (initGrid rows cols) := by
  constructor
  · simp [initGrid]
  · intro i hi
    unfold initGrid
    rw [List.getD_eq_getElem?_getD, List.getElem?_map]
    simp [List.getElem?_range hi]

theorem foldl_sets {α : Type} (f : Grid → α → Grid) (l : List α) (g : Grid) (r c : Nat)
    (Q : Grid → Prop) (hQ : Q g)
    (hQstep : ∀ g' a, a ∈ l → Q g' → Q (f g' a))
    (hpres : ∀ g' a, a ∈ l → cell g' r c = some wallChar →
      cell (f g' a) r c = some wallChar)
    (a : α) (ha : a ∈ l)
    (hset : ∀ g', Q g' → cell (f g' a) r c = some wallChar) :
    cell (l.foldl f g) r c = some wallChar := by
  induction l generalizing g with
  | nil => cases ha
  | cons b t ih =>
    rcases List.mem_cons.mp ha with heq | hat
    · subst heq
      exact foldl_preserves (fun g' => cell g' r c = some wallChar) f t (f g a)
        (hset g hQ)
        (fun g' x hx hEq => hpres g' x (List.mem_cons_of_mem _ hx) hEq)
    · exact ih (f g b) (hQstep g b (List.mem_cons_self b t) hQ)
        (fun g' x hx hq => hQstep g' x (List.mem_cons_of_mem _ hx) hq)
        (fun g' x hx hEq => hpres g' x (List.mem_cons_of_mem _ hx) hEq)
        hat

/-- A 0-indexed border position of an `rows × cols` grid. -/
def isBorderCell (rows cols : Int) (r c : Nat) : Prop :=
  r = 0 ∨ (r : Int) = rows - 1 ∨ c = 0 ∨ (c : Int) = cols - 1

instance (rows cols : Int) (r c : Nat) : Decidable (isBorderCell rows cols r c) := by
  unfold isBorderCell; infer_instance

/-- The 0-indexed cells an opening spec paints (its loop cells that pass the
in-bounds guard). -/
def openingPaints (rows cols : Int) (o : OpeningSpec) (r c : Nat) : Prop :=
  match o with
  | .hline row colStart colEnd =>
      (r : Int) = row - 1 ∧ colStart - 1 ≤ (c : Int) ∧ (c : Int) ≤ colEnd - 1 ∧
        (r : Int) < rows ∧ (c : Int) < cols
  | .vline col rowStart rowEnd =>
      (c : Int) = col - 1 ∧ rowStart - 1 ≤ (r : Int) ∧ (r : Int) ≤ rowEnd - 1 ∧
        (r : Int) < rows ∧ (c : Int) < cols
  | .point row col =>
      (r : Int) = row - 1 ∧ (c : Int) = col - 1 ∧ (r : Int) < rows ∧ (c : Int) < cols

instance (rows cols : Int) (o : OpeningSpec) (r c : Nat) :
    Decidable (openingPaints rows cols o r c) := by
  unfold openingPaints; cases o <;> infer_instance

theorem cell_paintBorder (rows cols : Int) (g : Grid)
    (hg : dimsOk rows.toNat cols.toNat g)
    (h1 : 1 ≤ rows) (h2 : 1 ≤ cols) (r c : Nat)
    (hr : (r : Int) < rows) (hc : (c : Int) < cols)
    (hb : isBorderCell rows cols r c) :
    cell (paintBorder rows cols g) r c = some wallChar := by
  unfold paintBorder
  have hrN : r < rows.toNat := by omega
  have hcN : c < cols.toNat := by omega
  set Q : Grid → Prop := dimsOk rows.toNat cols.toNat with hQdef
  have hQstep2 : ∀ (g' : Grid) (i : Nat), Q g' →
      Q (gridSet (gridSet g' i 0 wallChar) i (cols - 1).toNat wallChar) :=
    fun g' i hq => dimsOk_gridSet (dimsOk_gridSet hq i 0 wallChar) i _ wallChar
  have hQstep1 : ∀ (g' : Grid) (i : Nat), Q g' →
      Q (gridSet (gridSet g' 0 i wallChar) (rows - 1).toNat i wallChar) :=
    fun g' i hq => dimsOk_gridSet (dimsOk_gridSet hq 0 i wallChar) _ i wallChar
  rcases em (c = 0 ∨ (c : Int) = cols - 1) with hcb | hcnb
  · -- the second loop writes the first and last column of every row
    have hQ1 : Q ((List.range cols.toNat).foldl
        (fun g c => gridSet (gridSet g 0 c wallChar) (rows - 1).toNat c wallChar) g) :=
      foldl_preserves Q _ _ g hg (fun g' a _ hq => hQstep1 g' a hq)
    refine foldl_sets _ _ _ r c Q hQ1 (fun g' a _ hq => hQstep2 g' a hq)
      (fun g' a _ hEq => cell_gridSet_preserve _ _ _ _ _ _
        (cell_gridSet_preserve _ _ _ _ _ _ hEq)) r (List.mem_range.mpr hrN) ?_
    intro g' hq
    rcases hcb with rfl | hce
    · apply cell_gridSet_preserve
      apply cell_gridSet_self
      · rw [hq.1]; exact hrN
      · rw [hq.2 r hrN]; omega
    · have hcv : c = (cols - 1).toNat := by omega
      subst hcv
      apply cell_gridSet_self
      · rw [length_gridSet, hq.1]; exact hrN
      · rw [getD_gridSet_length, hq.2 r hrN]; omega
  · -- a border cell not in the first or last column is in the first or last row,
    -- written by the first loop and preserved by the second
    have hrb : r = 0 ∨ (r : Int) = rows - 1 := by
      rcases hb with h | h | h | h
      · exact Or.inl h
      · exact Or.inr h
      · exact absurd (Or.inl h) hcnb
      · exact absurd (Or.inr h) hcnb
    have hcell1 : cell ((List.range cols.toNat).foldl
        (fun g c => gridSet (gridSet g 0 c wallChar) (rows - 1).toNat c wallChar) g)
        r c = some wallChar := by
      refine foldl_sets _ _ _ r c Q hg (fun g' a _ hq => hQstep1 g' a hq)
        (fun g' a _ hEq => cell_gridSet_preserve _ _ _ _ _ _
          (cell_gridSet_preserve _ _ _ _ _ _ hEq)) c (List.mem_range.mpr hcN) ?_
      intro g' hq
      rcases hrb with rfl | hre
      · apply cell_gridSet_preserve
        apply cell_gridSet_self
        · rw [hq.1]; omega
        · rw [hq.2 0 (by omega)]; exact hcN
      · have hrv : r = (rows - 1).toNat := by omega
        subst hrv
        apply cell_gridSet_self
        · rw [length_gridSet, hq.1]; omega
        · rw [getD_gridSet_length, hq.2 _ (by omega)]; exact hcN
    exact foldl_preserves (fun g' => cell g' r c = some wallChar) _ _ _ hcell1
      (fun g' a _ hEq => cell_gridSet_preserve _ _ _ _ _ _
        (cell_gridSet_preserve _ _ _ _ _ _ hEq))

theorem cell_applyWall_preserve (rows cols : Int) (g : Grid) (w : WallSpec) (r c : Nat)
    (h : cell g r c = some wallChar) :
    cell (applyWall rows cols g w) r c = some wallChar := by
  cases w with
  | rect top left height width =>
    refine foldl_preserves (fun g' => cell g' r c = some wallChar) _ _ _ h ?_
    intro g' a _ hp
    refine foldl_preserves (fun g' => cell g' r c = some wallChar) _ _ _ hp ?_
    intro g'' b _ hp'
    split
    · exact cell_gridSet_preserve _ _ _ _ _ _ hp'
    · exact hp'
  | hline row colStart colEnd =>
    refine foldl_preserves (fun g' => cell g' r c = some wallChar) _ _ _ h ?_
    intro g' a _ hp
    split
    · exact cell_gridSet_preserve _ _ _ _ _ _ hp
    · exact hp
  | vline col rowStart rowEnd =>
    refine foldl_preserves (fun g' => cell g' r c = some wallChar) _ _ _ h ?_
    intro g' a _ hp
    split
    · exact cell_gridSet_preserve _ _ _ _ _ _ hp
    · exact hp

theorem cell_applyOpening_preserve (rows cols : Int) (g : Grid) (o : OpeningSpec)
    (r c : Nat) (hnp : ¬ openingPaints rows cols o r c) (v : Option Char)
    (h : cell g r c = v) : cell (applyOpening rows cols g o) r c = v := by
  cases o with
  | hline row colStart colEnd =>
    refine foldl_preserves (fun g' => cell g' r c = v) _ _ _ h ?_
    intro g' a ha hp
    rw [mem_intRange] at ha
    split
    · rename_i hguard
      rw [cell_gridSet]
      rw [if_neg ?_]
      · exact hp
      · rintro ⟨hru, hcu, -, -⟩
        exact hnp ⟨by omega, by omega, by omega, by omega, by omega⟩
    · exact hp
  | vline col rowStart rowEnd =>
    refine foldl_preserves (fun g' => cell g' r c = v) _ _ _ h ?_
    intro g' a ha hp
    rw [mem_intRange] at ha
    split
    · rename_i hguard
      rw [cell_gridSet]
      rw [if_neg ?_]
      · exact hp
      · rintro ⟨hru, hcu, -, -⟩
        exact hnp ⟨by omega, by omega, by omega, by omega, by omega⟩
    · exact hp
  | point row col =>
    simp only [applyOpening]
    split
    · rename_i hguard
      rw [cell_gridSet]
      rw [if_neg ?_]
      · exact h
      · rintro ⟨hru, hcu, -, -⟩
        exact hnp ⟨by omega, by omega, by omega, by omega⟩
    · exact h

/--
C2.  For dimensions `rows ≥ 1`, `cols ≥ 1` and any list of wall specs, if no
opening spec paints a border cell and the exit position (when present and in
bounds) is not a border cell, then every cell of row 0, row `rows-1`,
column 0 and column `cols-1` of `generate_maze`'s output holds the wall
marker `█`.
-/
theorem c2_border_invariant (cfg : MazeConfig)
    (h1 : 1 ≤ cfg.rows) (h2 : 1 ≤ cfg.cols)
    (hop : ∀ o ∈ cfg.openings, ∀ r c : Nat, openingPaints cfg.rows cfg.cols o r c →
      ¬ isBorderCell cfg.rows cfg.cols r c)
    (hex : ∀ er ec : Int, cfg.exit? = some (er, ec) →
      0 ≤ er - 1 → er - 1 < cfg.rows → 0 ≤ ec - 1 → ec - 1 < cfg.cols →
      ¬ isBorderCell cfg.rows cfg.cols (er - 1).toNat (ec - 1).toNat)
    (r c : Nat) (hr : (r : Int) < cfg.rows) (hc : (c : Int) < cfg.cols)
    (hb : isBorderCell cfg.rows cfg.cols r c) :
    cell (generate_maze cfg) r c = some wallChar := by
  unfold generate_maze
  have hborder := cell_paintBorder cfg.rows cfg.cols _
    (dimsOk_initGrid cfg.rows cfg.cols) h1 h2 r c hr hc hb
  have hwalls : cell (cfg.walls.foldl (applyWall cfg.rows cfg.cols)
      (paintBorder cfg.rows cfg.cols (initGrid cfg.rows cfg.cols))) r c =
      some wallChar :=
    foldl_preserves (fun g' => cell g' r c = some wallChar) _ _ _ hborder
      (fun g' w _ hp => cell_applyWall_preserve cfg.rows cfg.cols g' w r c hp)
  have hopen : cell (cfg.openings.foldl (applyOpening cfg.rows cfg.cols)
      (cfg.walls.foldl (applyWall cfg.rows cfg.cols)
        (paintBorder cfg.rows cfg.cols (initGrid cfg.rows cfg.cols)))) r c =
      some wallChar :=
    foldl_preserves (fun g' => cell g' r c = some wallChar) _ _ _ hwalls
      (fun g' o ho hp => cell_applyOpening_preserve cfg.rows cfg.cols g' o r c
        (fun hpaint => hop o ho r c hpaint hb) _ hp)
  cases hxe : cfg.exit? with
  | none => simp only [applyExit, hxe]; exact hopen
  | some p =>
    obtain ⟨er, ec⟩ := p
    simp only [applyExit, hxe]
    split
    · rename_i hguard
      rw [cell_gridSet, if_neg ?_]
      · exact hopen
      · rintro ⟨hru, hcu, -, -⟩
        refine hex er ec hxe (by omega) (by omega) (by omega) (by omega) ?_
        rw [hru, hcu]
        exact hb
    · exact hopen

/--
Witness for C2 at a concrete config: a 3×4 maze with one wall line, an interior
point opening and an interior exit; the border cell (0, 2) holds the wall marker.
-/
theorem c2_border_invariant_witness :
    cell (generate_maze ⟨3, 4, [.hline 2 2 3], [.point 2 2], some (2, 3)⟩) 0 2 =
      some wallChar :=
  c2_border_invariant ⟨3, 4, [.hline 2 2 3], [.point 2 2], some (2, 3)⟩
    (by decide) (by decide)
    (by
      intro o ho r c hp
      simp only [List.mem_singleton] at ho
      subst ho
      unfold openingPaints at hp
      unfold isBorderCell
      dsimp only at hp ⊢
      omega)
    (by
      intro er ec he _ _ _ _
      injection he with he'
      obtain ⟨h1, h2⟩ := Prod.mk.injEq .. ▸ he'
      subst h1
      subst h2
      decide)
    0 2 (by decide) (by decide) (by exact Or.inl rfl)

/-! ## The patrol route planner: `generate_patrol_route` (`tools/level_builder.py`) -/

/-- One route vector `{'end': [row, col], 'dir': d}`.  `endPos` embeds the
dict key `end` (a Lean keyword). -/
structure RouteVec where
  endPos : Int × Int
  dir : List Char
deriving DecidableEq

/-- The slice of a spy's YAML config that `generate_patrol_route` and the
walkers read.  A missing `endpoints` entry (Python `KeyError`/`IndexError`)
is embedded as a too-short list. -/
structure SpyConfig where
  pattern : List Char
  endpoints : List (Int × Int)
  waypoints : List (Int × Int)
  direction? : Option (List Char)

/-- `generate_patrol_route`: `none` embeds the raised `ValueError` for an
unknown pattern (and an `IndexError` on missing endpoints). -/
def generate_patrol_route (spy : SpyConfig) : Option (List RouteVec) :=
  if spy.pattern = ("horizontal").data then
    match spy.endpoints with
    | start :: e :: _ =>
      if e.2 > start.2 then
        some [⟨e, ("right").data⟩, ⟨start, ("left").data⟩]
      else
        some [⟨e, ("left").data⟩, ⟨start, ("right").data⟩]
    | _ => none
  else if spy.pattern = ("vertical").data then
    match spy.endpoints with
    | start :: e :: _ =>
      if e.1 > start.1 then
        some [⟨e, ("down").data⟩, ⟨start, ("up").data⟩]
      else
        some [⟨e, ("up").data⟩, ⟨start, ("down").data⟩]
    | _ => none
  else if spy.pattern = ("loop").data then
    let dir := spy.direction?.getD (("cw").data)
    let ws := if dir = ("ccw").data then spy.waypoints.reverse else spy.waypoints
    some ((List.range ws.length).map (fun i =>
      let cur := ws.getD i (0, 0)
      let nxt := ws.getD ((i + 1) % ws.length) (0, 0)
      ⟨nxt, if nxt.1 < cur.1 then ("up").data
            else if nxt.1 > cur.1 then ("down").data
            else if nxt.2 < cur.2 then ("left").data
            else ("right").data⟩))
  else none

/-- A loop-pattern spy config iterating the waypoints clockwise. -/
def loopSpyCw (ws : List (Int × Int)) : SpyConfig :=
  ⟨("loop").data, [], ws, some (("cw").data)⟩

/--
C6.  In a clockwise loop pattern, the direction between consecutive waypoints
is chosen with vertical priority: `up` when the next waypoint's row is
smaller, `down` when it is greater, and only when the rows are equal
`left`/`right` by column comparison; and the waypoints
`[[5,5],[5,10],[10,10],[10,5]]` with direction `cw` produce the direction
sequence right, down, left, up.
-/
theorem c6_loop_direction_priority :
    (∀ (ws : List (Int × Int)) (i : Nat), i < ws.length →
      (generate_patrol_route (loopSpyCw ws)).bind (fun r => r.get? i) =
        some ⟨ws.getD ((i + 1) % ws.length) (0, 0),
          if (ws.getD ((i + 1) % ws.length) (0, 0)).1 < (ws.getD i (0, 0)).1 then
            ("up").data
          else if (ws.getD i (0, 0)).1 < (ws.getD ((i + 1) % ws.length) (0, 0)).1 then
            ("down").data
          else if (ws.getD ((i + 1) % ws.length) (0, 0)).2 < (ws.getD i (0, 0)).2 then
            ("left").data
          else ("right").data⟩) ∧
    generate_patrol_route (loopSpyCw [(5, 5), (5, 10), (10, 10), (10, 5)]) =
      some [⟨(5, 10), ("right").data⟩, ⟨(10, 10), ("down").data⟩,
        ⟨(10, 5), ("left").data⟩, ⟨(5, 5), ("up").data⟩] := by
  constructor
  · intro ws i hi
    have h1 : (("loop").data) ≠ (("horizontal").data) := by decide
    have h2 : (("loop").data) ≠ (("vertical").data) := by decide
    have h3 : (("cw").data) ≠ (("ccw").data) := by decide
    simp only [generate_patrol_route, loopSpyCw, Option.getD_some, h1, h2, h3,
      eq_self_iff_true, if_true, if_false, ite_true, ite_false]
    rw [Option.some_bind, List.get?_eq_getElem?, List.getElem?_map,
      List.getElem?_range hi]
    rfl
  · decide

/--
Witness for C6: the general clause instantiated at the scenario waypoints and
index 1 (from `[5,10]` to `[10,10]`, rows 5 → 10, so the direction is `down`),
together with the concrete scenario. -/
theorem c6_loop_direction_priority_witness :
    (generate_patrol_route (loopSpyCw [(5, 5), (5, 10), (10, 10), (10, 5)])).bind
        (fun r => r.get? 1) = some ⟨(10, 10), ("down").data⟩ ∧
    generate_patrol_route (loopSpyCw [(5, 5), (5, 10), (10, 10), (10, 5)]) =
      some [⟨(5, 10), ("right").data⟩, ⟨(10, 10), ("down").data⟩,
        ⟨(10, 5), ("left").data⟩, ⟨(5, 5), ("up").data⟩] := by
  constructor
  · have h := c6_loop_direction_priority.1 [(5, 5), (5, 10), (10, 10), (10, 5)] 1
      (by decide)
    rw [h]
    decide
  · exact c6_loop_direction_priority.2

/-! ## Python `str.replace` (non-overlapping, left to right)

`replaceSk tok rep 0 s` is `s.replace(tok, rep)` for a nonempty `tok`; the
first argument counts characters still to skip after a match (the matched
token's characters beyond the first), which keeps the recursion structural in
`s` and hence kernel-reducible. -/

def replaceSk (tok rep : List Char) : Nat → List Char → List Char
  | _, [] => []
  | k + 1, _ :: t => replaceSk tok rep k t
  | 0, c :: t =>
    if tok.isPrefixOf (c :: t) then rep ++ replaceSk tok rep (tok.length - 1) t
    else c :: replaceSk tok rep 0 t

/-- `s.replace(tok, rep)` for nonempty `tok` (every use below has a concrete
nonempty token). -/
def pyReplace (tok rep s : List Char) : List Char := replaceSk tok rep 0 s

/-! ## The Vim-literal serializer (`tools/level_builder.py`) -/

/-- `escape_vim_single_quoted`: `s.replace("'", "''")`. -/
def escape_vim_single_quoted (s : List Char) : List Char :=
  pyReplace ['\''] ['\'', '\''] s

/-- `escape_vim_double_quoted`: backslashes doubled first, then `"` escaped,
then newline turned into the two characters `\n`. -/
def escape_vim_double_quoted (s : List Char) : List Char :=
  pyReplace ['\n'] ['\\', 'n'] (pyReplace ['"'] ['\\', '"'] (pyReplace ['\\'] ['\\', '\\'] s))

/-! The structured values `format_vim_value` serializes: `None`, booleans,
ints, floats (embedded by their canonical `str()` rendering), strings, lists
and insertion-ordered dicts.  The list/dict payloads are mutually inductive
rather than nested so that structural recursion stays kernel-reducible. -/
mutual
inductive VimValue where
  | null : VimValue
  | bool (b : Bool) : VimValue
  | int (n : Int) : VimValue
  | float (fstr : List Char) : VimValue
  | str (s : List Char) : VimValue
  | list (xs : VimList) : VimValue
  | dict (xs : VimDict) : VimValue
deriving DecidableEq
inductive VimList where
  | nil : VimList
  | cons (v : VimValue) (rest : VimList) : VimList
deriving DecidableEq
inductive VimDict where
  | nil : VimDict
  | cons (key : List Char) (v : VimValue) (rest : VimDict) : VimDict
deriving DecidableEq
end

/-- Decimal digits of a nonzero prefix, fuelled (structural) version. -/
def natToCharsAux : Nat → Nat → List Char
  | 0, _ => []
  | fuel + 1, n =>
    if n < 10 then [Char.ofNat (48 + n)]
    else natToCharsAux fuel (n / 10) ++ [Char.ofNat (48 + n % 10)]

/-- Python `str(n)` for a natural number. -/
def natToChars (n : Nat) : List Char := natToCharsAux (n + 1) n

/-- Python `str(n)` for an integer. -/
def intToChars (n : Int) : List Char :=
  if n < 0 then '-' :: natToChars (-n).toNat else natToChars n.toNat

/-- The Python `all(...)` test deciding one-line list layout: every element a
number or boolean, or a string shorter than 40 characters with no newline. -/
def simpleElem : VimValue → Bool
  | .int _ => true
  | .float _ => true
  | .bool _ => true
  | .str s => decide (s.length < 40) && !(s.elem '\n')
  | _ => false

def listSimple : VimList → Bool
  | .nil => true
  | .cons v r => simpleElem v && listSimple r

/-- `', '.join`. -/
def joinComma : List (List Char) → List Char
  | [] => []
  | [x] => x
  | x :: xs => x ++ ',' :: ' ' :: joinComma xs

/-- Sum of rendered lengths (the dict layout test). -/
def sumLens (items : List (List Char)) : Nat := (items.map List.length).sum

/-! `format_vim_value` and its list/dict item renderings.  `fmtItems` renders
each list element at `indent + 2`; `fmtEntries` renders each dict entry as
`'key': value` with the value at `indent + 2`. -/
mutual
def format_vim_value : VimValue → Nat → List Char
  | .null, _ => ("v:null").data
  | .bool b, _ => if b then ("v:true").data else ("v:false").data
  | .int n, _ => intToChars n
  | .float fstr, _ => fstr
  | .str s, _ =>
    if ('\n') ∈ s then '"' :: (escape_vim_double_quoted s ++ ['"'])
    else '\'' :: (escape_vim_single_quoted s ++ ['\''])
  | .list .nil, _ => ['[', ']']
  | .list (.cons v r), indent =>
    let items := fmtItems (.cons v r) indent
    if listSimple (.cons v r) then
      '[' :: (joinComma items ++ [']'])
    else
      '[' :: '\n' ::
        (joinNl (items.map (fun it => List.replicate (indent + 2) ' ' ++ it ++ [','])) ++
          '\n' :: (List.replicate indent ' ' ++ [']']))
  | .dict .nil, _ => ['{', '}']
  | .dict (.cons k v r), indent =>
    let items := fmtEntries (.cons k v r) indent
    if sumLens items < 60 && items.all (fun it => !(it.elem '\n')) then
      '{' :: (joinComma items ++ ['}'])
    else
      '{' :: '\n' ::
        (joinNl (items.map (fun it => List.replicate (indent + 2) ' ' ++ it ++ [','])) ++
          '\n' :: (List.replicate indent ' ' ++ ['}']))
def fmtItems : VimList → Nat → List (List Char)
  | .nil, _ => []
  | .cons v r, indent => format_vim_value v (indent + 2) :: fmtItems r indent
def fmtEntries : VimDict → Nat → List (List Char)
  | .nil, _ => []
  | .cons k v r, indent =>
    ('\'' :: (k ++ '\'' :: ':' :: ' ' :: format_vim_value v (indent + 2))) ::
      fmtEntries r indent
end

/-! ### Net effect of the escape helpers, characterised per character -/

/-- The spec's description of single-quote escaping: an apostrophe is doubled
and every other character is unchanged. -/
def sqEscChar (c : Char) : List Char := if c = '\'' then ['\'', '\''] else [c]

/-- The spec's description of double-quote escaping: backslash, double quote
and newline become two-character escapes; every other character is unchanged. -/
def dqEscChar (c : Char) : List Char :=
  if c = '\\' then ['\\', '\\']
  else if c = '"' then ['\\', '"']
  else if c = '\n' then ['\\', 'n']
  else [c]

theorem escape_vim_single_quoted_eq_flatMap (s : List Char) :
    escape_vim_single_quoted s = s.flatMap sqEscChar := by
  induction s with
  | nil => rfl
  | cons c t ih =>
    unfold escape_vim_single_quoted pyReplace at *
    by_cases hc : c = '\''
    · subst hc
      simp [replaceSk, List.isPrefixOf, sqEscChar, ih]
    · have hc' : ('\'' == c) = false := by
        simp [beq_iff_eq]
        exact fun h => hc h.symm
      simp [replaceSk, List.isPrefixOf, sqEscChar, hc, hc', ih]

theorem escape_vim_double_quoted_eq_flatMap (s : List Char) :
    escape_vim_double_quoted s = s.flatMap dqEscChar := by
  induction s with
  | nil => rfl
  | cons c t ih =>
    unfold escape_vim_double_quoted pyReplace at *
    by_cases h1 : c = '\\'
    · subst h1
      simp [replaceSk, List.isPrefixOf, dqEscChar, ih]
    · have h1' : ('\\' == c) = false := by
        simp [beq_iff_eq]; exact fun h => h1 h.symm
      by_cases h2 : c = '"'
      · subst h2
        simp [replaceSk, List.isPrefixOf, dqEscChar, h1', ih]
      · have h2' : ('"' == c) = false := by
          simp [beq_iff_eq]; exact fun h => h2 h.symm
        by_cases h3 : c = '\n'
        · subst h3
          simp [replaceSk, List.isPrefixOf, dqEscChar, h1', h2', ih]
        · have h3' : ('\n' == c) = false := by
            simp [beq_iff_eq]; exact fun h => h3 h.symm
          simp [replaceSk, List.isPrefixOf, dqEscChar, h1, h2, h3, h1', h2', h3', ih]

/--
C7.  A string containing a newline serializes to a double-quoted form whose
content escapes backslash first, then the double quote, then each literal
newline as the two characters `\n`; any other string serializes to a
single-quoted form in which every apostrophe is doubled and no other
character changes.  The two `flatMap` clauses state the per-character net
effect of the sequential `replace` chains.
-/
theorem c7_string_escaping :
    (∀ (s : List Char) (indent : Nat),
      format_vim_value (.str s) indent =
        if ('\n') ∈ s then '"' :: (escape_vim_double_quoted s ++ ['"'])
        else '\'' :: (escape_vim_single_quoted s ++ ['\''])) ∧
    (∀ s : List Char, escape_vim_double_quoted s = s.flatMap dqEscChar) ∧
    (∀ s : List Char, escape_vim_single_quoted s = s.flatMap sqEscChar) :=
  ⟨fun s indent => by rw [format_vim_value],
   escape_vim_double_quoted_eq_flatMap,
   escape_vim_single_quoted_eq_flatMap⟩

/-! ## `measure_maze` and `get_char_at` (`tools/validate_levels.py`)

The file I/O of `measure_maze` is outside the embedding: both functions take
the list of raw lines (`readlines()` output, trailing newlines included). -/

/-- `measure_maze`: the number of lines and the widest line with trailing
newlines stripped (character count, not bytes — `List Char` counts code
points).  Python computes `max(...)` over a nonempty sequence guarded by
`if lines else 0`; a fold from 0 agrees with both branches. -/
def measure_maze (lines : List (List Char)) : Nat × Nat :=
  (lines.length, (lines.map (fun l => (stripNl l).length)).foldl Nat.max 0)

/-- `get_char_at`: the character at a 1-indexed position, or the empty string
when the line or the column (measured on the line with its trailing newline
stripped) is out of range. -/
def get_char_at (maze_lines : List (List Char)) (line col : Int) : List Char :=
  if line < 1 ∨ line > (maze_lines.length : Int) then []
  else
    let row := stripNl (maze_lines.getD (line - 1).toNat [])
    if col < 1 ∨ col > (row.length : Int) then []
    else [row.getD (col - 1).toNat ' ']

/--
C10.  `get_char_at` is total: for every list of lines and every 1-indexed
integer pair it returns the character at that position when `1 ≤ line ≤`
number of lines and `1 ≤ col ≤` length of that line with its trailing newline
stripped, and the empty string for every other pair.
-/
theorem c10_get_char_at_total (maze_lines : List (List Char)) (line col : Int) :
    get_char_at maze_lines line col =
      if 1 ≤ line ∧ line ≤ (maze_lines.length : Int) ∧ 1 ≤ col ∧
          col ≤ ((stripNl (maze_lines.getD (line - 1).toNat [])).length : Int) then
        [(stripNl (maze_lines.getD (line - 1).toNat [])).getD (col - 1).toNat ' ']
      else [] := by
  unfold get_char_at
  by_cases h1 : line < 1 ∨ line > (maze_lines.length : Int)
  · rw [if_pos h1, if_neg (by omega)]
  · rw [if_neg h1]
    by_cases h2 : col < 1 ∨
        col > ((stripNl (maze_lines.getD (line - 1).toNat [])).length : Int)
    · rw [if_pos h2, if_neg (by omega)]
    · rw [if_neg h2, if_pos (by omega)]

/-! ## The two route walkers

`validate_route` (`tools/level_builder.py`) walks 0-indexed positions over the
generated maze; `validate_spy` (`tools/validate_levels.py`) walks 1-indexed
positions over the maze file's lines.  Their `while pos != target` loops take
an explicit fuel parameter; `none` means the loop did not finish within the
fuel, so `none` for all fuels embeds non-termination. -/

/-- Python `str([a, b])` for a position. -/
def posChars (p : Int × Int) : List Char :=
  '[' :: (intToChars p.1 ++ ',' :: ' ' :: intToChars p.2 ++ [']'])

/-- One step of the builder walker's `if`/`elif` chain.  There is no `else`
clause in the source, so an unrecognized direction leaves the position
unchanged. -/
def vrStep (dir : List Char) (pos : Int × Int) : Int × Int :=
  if dir = ("up").data then (pos.1 - 1, pos.2)
  else if dir = ("down").data then (pos.1 + 1, pos.2)
  else if dir = ("left").data then (pos.1, pos.2 - 1)
  else if dir = ("right").data then (pos.1, pos.2 + 1)
  else pos

/-- The builder walker's `while pos != target` loop for one vector: steps
until the target is reached, recording (and breaking on) the first bounds or
wall violation.  Returns the final position and the vector's violation, if
any. -/
def vrWalkVec (maze : Grid) (rows cols : Int) (spy_id : List Char)
    (target : Int × Int) (dir : List Char) :
    Nat → (Int × Int) → Option ((Int × Int) × Option (List Char))
  | 0, pos => if pos = target then some (pos, none) else none
  | fuel + 1, pos =>
    if pos = target then some (pos, none)
    else
      let p := vrStep dir pos
      if ¬ (0 ≤ p.1 ∧ p.1 < rows ∧ 0 ≤ p.2 ∧ p.2 < cols) then
        some (p, some (spy_id ++ (": Route goes out of bounds at ").data ++
          posChars (p.1 + 1, p.2 + 1)))
      else if cell maze p.1.toNat p.2.toNat = some wallChar then
        some (p, some (spy_id ++ (": Route hits wall at ").data ++
          posChars (p.1 + 1, p.2 + 1)))
      else vrWalkVec maze rows cols spy_id target dir fuel p

/-- The builder walker's `for` loop over the route: each vector is walked
from the previous final position (a violation `break`s only the inner
`while`, so the loop continues with the remaining vectors), collecting every
recorded violation in order. -/
def vrWalkVecs (maze : Grid) (rows cols : Int) (spy_id : List Char) (fuel : Nat) :
    List RouteVec → (Int × Int) → Option ((Int × Int) × List (List Char))
  | [], pos => some (pos, [])
  | vec :: rest, pos =>
    match vrWalkVec maze rows cols spy_id (vec.endPos.1 - 1, vec.endPos.2 - 1)
        vec.dir fuel pos with
    | none => none
    | some (p, err?) =>
      match vrWalkVecs maze rows cols spy_id fuel rest p with
      | none => none
      | some (p', errs) => some (p', err?.toList ++ errs)

/-- `validate_route`: spawn checks, the vector walk, and the closure check.
Positions are converted from 1-indexed input to 0-indexed grid access. -/
def validate_route (maze : Grid) (spawn : Int × Int) (route : List RouteVec)
    (spy_id : List Char) (fuel : Nat) : Option (List (List Char)) :=
  let rows : Int := maze.length
  let cols : Int := (maze.headD []).length
  let pos0 : Int × Int := (spawn.1 - 1, spawn.2 - 1)
  let spawnErrs :=
    if ¬ (0 ≤ pos0.1 ∧ pos0.1 < rows ∧ 0 ≤ pos0.2 ∧ pos0.2 < cols) then
      [spy_id ++ (": Spawn ").data ++ posChars spawn ++ (" out of bounds").data]
    else if cell maze pos0.1.toNat pos0.2.toNat = some wallChar then
      [spy_id ++ (": Spawn ").data ++ posChars spawn ++ (" is inside a wall").data]
    else []
  match vrWalkVecs maze rows cols spy_id fuel route pos0 with
  | none => none
  | some (p, errs) =>
    some (spawnErrs ++ errs ++
      (if p ≠ pos0 then
        [spy_id ++ (": Route ends at ").data ++ posChars (p.1 + 1, p.2 + 1) ++
          (", not spawn ").data ++ posChars spawn]
      else []))

/-! ### The validator-side walker `validate_spy` -/

/-- The slice of a parsed spy dict that `validate_spy` reads: `id`, `spawn`
and `route`, each possibly missing. -/
structure SpyMeta where
  id? : Option (List Char)
  spawn? : Option (Int × Int)
  route? : Option (List RouteVec)

/-- `f"{prefix} spy '{spy_id}'"` with `spy.get('id', 'unknown')`. -/
def spyPrefixOf (pfx : List Char) (spy : SpyMeta) : List Char :=
  pfx ++ (" spy '").data ++ spy.id?.getD (("unknown").data) ++ ['\'']

/-- The validator walker's `while pos != target` loop for one vector.  An
unrecognized direction or the first bounds/wall violation returns the error
(`Sum.inl`), which aborts the whole walk; reaching the target returns the
position (`Sum.inr`). -/
def vsWalkVec (spyPrefix : List Char) (mazeLines : List (List Char))
    (rows cols : Int) (target : Int × Int) (dir : List Char) :
    Nat → (Int × Int) → Option (Sum (List Char) (Int × Int))
  | 0, pos => if pos = target then some (.inr pos) else none
  | fuel + 1, pos =>
    if pos = target then some (.inr pos)
    else
      let step? : Option (Int × Int) :=
        if dir = ("up").data then some (pos.1 - 1, pos.2)
        else if dir = ("down").data then some (pos.1 + 1, pos.2)
        else if dir = ("left").data then some (pos.1, pos.2 - 1)
        else if dir = ("right").data then some (pos.1, pos.2 + 1)
        else none
      match step? with
      | none =>
        some (.inl (spyPrefix ++ (": invalid direction '").data ++ dir ++ ['\'']))
      | some p =>
        if p.1 < 1 ∨ p.1 > rows ∨ p.2 < 1 ∨ p.2 > cols then
          some (.inl (spyPrefix ++ (": route goes out of bounds at ").data ++
            posChars p))
        else if get_char_at mazeLines p.1 p.2 = [wallChar] then
          some (.inl (spyPrefix ++ (": route hits wall at ").data ++ posChars p))
        else vsWalkVec spyPrefix mazeLines rows cols target dir fuel p

/-- The validator walker's `for` loop: a violation in any vector returns
immediately, so none of the spy's remaining vectors are walked. -/
def vsWalkVecs (spyPrefix : List Char) (mazeLines : List (List Char))
    (rows cols : Int) (fuel : Nat) :
    List RouteVec → (Int × Int) → Option (Sum (List Char) (Int × Int))
  | [], pos => some (.inr pos)
  | vec :: rest, pos =>
    match vsWalkVec spyPrefix mazeLines rows cols vec.endPos vec.dir fuel pos with
    | none => none
    | some (.inl e) => some (.inl e)
    | some (.inr p) => vsWalkVecs spyPrefix mazeLines rows cols fuel rest p

/-- `validate_spy`: spawn checks (missing/bounds/wall), the route checks
(missing/empty), the abort-on-first-violation walk, and the closure check. -/
def validate_spy (pfx : List Char) (spy : SpyMeta) (mazeLines : List (List Char))
    (rows cols : Int) (fuel : Nat) : Option (List (List Char)) :=
  let spyPrefix := spyPrefixOf pfx spy
  match spy.spawn? with
  | none => some [spyPrefix ++ (": missing spawn position").data]
  | some (line, col) =>
    if line < 1 ∨ line > rows then
      some [spyPrefix ++ (": spawn line ").data ++ intToChars line ++
        (" out of bounds (1-").data ++ intToChars rows ++ [')']]
    else if col < 1 ∨ col > cols then
      some [spyPrefix ++ (": spawn col ").data ++ intToChars col ++
        (" out of bounds (1-").data ++ intToChars cols ++ [')']]
    else
      let wallErrs :=
        if get_char_at mazeLines line col = [wallChar] then
          [spyPrefix ++ (": spawn ").data ++ posChars (line, col) ++
            (" is on a wall").data]
        else []
      match spy.route? with
      | none => some (wallErrs ++ [spyPrefix ++ (": missing route").data])
      | some [] => some (wallErrs ++ [spyPrefix ++ (": empty route").data])
      | some route =>
        match vsWalkVecs spyPrefix mazeLines rows cols fuel route (line, col) with
        | none => none
        | some (.inl e) => some (wallErrs ++ [e])
        | some (.inr p) =>
          some (wallErrs ++
            (if p ≠ (line, col) then
              [spyPrefix ++ (": route ends at ").data ++ posChars p ++
                (" instead of spawn ").data ++ posChars (line, col)]
            else []))

/-! ### Walker claims -/

/-- A 4×6 maze with a solid border and an open 4×2 interior, used as the
concrete grid of the walker counterexamples below. -/
def mazeOpen : Grid :=
  [("██████").data, ("█    █").data, ("█    █").data, ("██████").data]

/-- Does `pat` occur as a contiguous substring of `s`? -/
def containsSub (pat : List Char) : List Char → Bool
  | [] => pat.isEmpty
  | c :: t => pat.isPrefixOf (c :: t) || containsSub pat t

/-- Does an error message record a bounds or wall violation of the builder
walker's step loop? -/
def isWalkViolationB (e : List Char) : Bool :=
  containsSub ((": Route goes out of bounds at ").data) e ||
    containsSub ((": Route hits wall at ").data) e

/--
Counterexample to C3 as stated: on a 4×6 bordered maze, spawning at `[2, 2]`
with the route `up to [1, 2]` then `up to [0, 2]`, the builder walker
`validate_route` records a wall violation in the first vector and then still
walks the second vector, recording its out-of-bounds violation too — two
walk violations, the second from a later vector of the same spy.
-/
theorem c3_counterexample :
    validate_route mazeOpen (2, 2)
        [⟨(1, 2), ("up").data⟩, ⟨(0, 2), ("up").data⟩] ("spy1").data 10 =
      some [("spy1: Route hits wall at [1, 2]").data,
        ("spy1: Route goes out of bounds at [0, 2]").data,
        ("spy1: Route ends at [0, 2], not spawn [2, 2]").data] ∧
    ([("spy1: Route hits wall at [1, 2]").data,
        ("spy1: Route goes out of bounds at [0, 2]").data,
        ("spy1: Route ends at [0, 2], not spawn [2, 2]").data].countP
      (fun e => isWalkViolationB e) = 2) := by
  constructor
  · decide
  · decide

/--
C3 (amended).  The validator-side walker `validate_spy` aborts a spy's
remaining vectors on the first violation: whatever the maze, spawn and route,
it never returns more than two findings (the optional spawn-on-wall finding
plus at most one route finding) — whereas `validate_route` only aborts the
current vector and keeps walking (see the counterexample).
-/
theorem c3_validate_spy_aborts (pfx : List Char) (spy : SpyMeta)
    (mazeLines : List (List Char)) (rows cols : Int) (fuel : Nat)
    (errs : List (List Char))
    (h : validate_spy pfx spy mazeLines rows cols fuel = some errs) :
    errs.length ≤ 2 := by
  simp only [validate_spy] at h
  repeat' split at h
  all_goals try cases h
  all_goals simp [List.length_append]

/--
Witness for C3's amended theorem at a concrete input: a spy on a wall spawn
whose first vector hits a wall; `validate_spy` returns exactly the spawn
finding and that one route finding.
-/
theorem c3_validate_spy_aborts_witness :
    ([("t spy 'g': spawn [1, 2] is on a wall").data,
      ("t spy 'g': route ends at [2, 5] instead of spawn [1, 2]").data] :
        List (List Char)).length ≤ 2 :=
  c3_validate_spy_aborts ("t").data
    ⟨some ("g").data, some (1, 2),
      some [⟨(2, 2), ("down").data⟩, ⟨(2, 5), ("right").data⟩]⟩
    mazeOpen 4 6 10 _ (by decide)

/--
Counterexample to C4 as stated: on the bordered 4×6 maze with the in-bounds,
non-wall spawn `[2, 2]`, the builder walker `validate_route` returns the
empty list for an empty route — no violation at all.
-/
theorem c4_counterexample :
    validate_route mazeOpen (2, 2) [] ("spy1").data 10 = some [] := by
  decide

/--
C4 (amended).  The validator-side walker `validate_spy` reports an empty
route: for every maze and every in-bounds, non-wall spawn, an empty route
yields exactly the non-empty list holding the "empty route" violation —
whereas `validate_route` accepts an empty route silently (see the
counterexample).
-/
theorem c4_validate_spy_empty_route (pfx : List Char) (spy : SpyMeta)
    (mazeLines : List (List Char)) (rows cols : Int) (fuel : Nat) (line col : Int)
    (hsp : spy.spawn? = some (line, col)) (hrt : spy.route? = some [])
    (h1 : 1 ≤ line) (h2 : line ≤ rows) (h3 : 1 ≤ col) (h4 : col ≤ cols)
    (hw : get_char_at mazeLines line col ≠ [wallChar]) :
    validate_spy pfx spy mazeLines rows cols fuel =
      some [spyPrefixOf pfx spy ++ (": empty route").data] := by
  simp only [validate_spy, hsp, hrt]
  rw [if_neg (by omega), if_neg (by omega), if_neg hw]
  simp

/--
Witness for C4's amended theorem: a concrete spy with spawn `[2, 2]` and an
empty route on the 4×6 maze.
-/
theorem c4_validate_spy_empty_route_witness :
    validate_spy ("test").data ⟨some ("guard1").data, some (2, 2), some []⟩
        mazeOpen 4 6 0 =
      some [spyPrefixOf ("test").data
        ⟨some ("guard1").data, some (2, 2), some []⟩ ++ (": empty route").data] :=
  c4_validate_spy_empty_route ("test").data
    ⟨some ("guard1").data, some (2, 2), some []⟩ mazeOpen 4 6 0 2 2 rfl rfl
    (by decide) (by decide) (by decide) (by decide) (by decide)

/-- The builder walker's step loop spins forever when the direction is
unrecognized and the current position is an in-bounds floor cell different
from the target: no branch of the `if`/`elif` chain moves the position, so
the loop re-checks the same cell for every amount of fuel. -/
theorem vrWalkVec_invalid_dir_none (maze : Grid) (rows cols : Int)
    (spy_id : List Char) (target : Int × Int) (dir : List Char) (pos : Int × Int)
    (hne : pos ≠ target) (hdir : vrStep dir pos = pos)
    (hb : 0 ≤ pos.1 ∧ pos.1 < rows ∧ 0 ≤ pos.2 ∧ pos.2 < cols)
    (hw : ¬ cell maze pos.1.toNat pos.2.toNat = some wallChar) :
    ∀ fuel, vrWalkVec maze rows cols spy_id target dir fuel pos = none := by
  intro fuel
  induction fuel with
  | zero => simp [vrWalkVec, hne]
  | succ k ih =>
    rw [vrWalkVec, if_neg hne]
    simp only [hdir]
    rw [if_neg (not_not_intro hb), if_neg hw]
    exact ih

/-- Plumbing: a single-vector route whose walk never finishes makes
`validate_route` itself never finish. -/
theorem validate_route_none_of_walk_none (maze : Grid) (spawn : Int × Int)
    (vec : RouteVec) (spy_id : List Char) (fuel : Nat)
    (h : vrWalkVec maze (maze.length : Int) (((maze.headD []).length : Nat) : Int)
      spy_id (vec.endPos.1 - 1, vec.endPos.2 - 1) vec.dir fuel
      (spawn.1 - 1, spawn.2 - 1) = none) :
    validate_route maze spawn [vec] spy_id fuel = none := by
  simp only [validate_route, vrWalkVecs]
  rw [h]

/--
C5 (code bug).  On the 4×6 maze, a vector with the unrecognized direction
`diagonal` and end `[2, 5]` from position `[2, 2]`: the builder walker
`validate_route` records no violation and never terminates (its step chain
has no `else`, so the position never changes and the `while` loop spins),
for every fuel; the validator walker `validate_spy` behaves as the claim
says, recording the invalid-direction violation and walking no further.
-/
theorem c5_invalid_direction_divergence :
    (∀ fuel : Nat, validate_route mazeOpen (2, 2)
        [⟨(2, 5), ("diagonal").data⟩] ("s").data fuel = none) ∧
    validate_spy ("test").data
        ⟨some ("g").data, some (2, 2), some [⟨(2, 5), ("diagonal").data⟩]⟩
        mazeOpen 4 6 5 =
      some [("test spy 'g': invalid direction 'diagonal'").data] := by
  constructor
  · intro fuel
    apply validate_route_none_of_walk_none
    exact vrWalkVec_invalid_dir_none mazeOpen _ _ _ _ _ _
      (by decide) (by decide) (by decide) (by decide) fuel
  · decide

/--
C8 (code bug).  The builder walker `validate_route` does not terminate for
every finite maze, spawn and route: on the 4×6 maze with spawn `[3, 2]` and
one vector with direction token `stay`, it returns no result for any fuel
(the loop never advances), while the validator walker `validate_spy` on the
same spy returns its violation list.
-/
theorem c8_walker_nontermination :
    (∀ fuel : Nat, validate_route mazeOpen (3, 2)
        [⟨(3, 5), ("stay").data⟩] ("s").data fuel = none) ∧
    validate_spy ("test").data
        ⟨some ("g").data, some (3, 2), some [⟨(3, 5), ("stay").data⟩]⟩
        mazeOpen 4 6 5 =
      some [("test spy 'g': invalid direction 'stay'").data] := by
  constructor
  · intro fuel
    apply validate_route_none_of_walk_none
    exact vrWalkVec_invalid_dir_none mazeOpen _ _ _ _ _ _
      (by decide) (by decide) (by decide) (by decide) fuel
  · decide

/-! ## `validate_level` (`tools/validate_levels.py`)

The file loading and `parse_vim_dict` call are the I/O boundary: the embedding
takes the parsed metadata (the fields `validate_level` reads) and the maze
file's raw lines, and covers the checks the function performs after both
loads succeed. -/

/-- The `meta['maze']` sub-dict: `maze_meta.get('lines', 0)` and
`maze_meta.get('cols', 0)`. -/
structure MazeMeta where
  lines? : Option Int
  cols? : Option Int

/-- The parsed metadata fields `validate_level` reads. -/
structure LevelMeta where
  maze? : Option MazeMeta
  start_cursor? : Option (Int × Int)
  exit_cursor? : Option (Int × Int)
  spies? : Option (List SpyMeta)

/-- The bounds/wall checks shared by `start_cursor` and `exit_cursor`
(`name` is the cursor's key, used in the messages). -/
def cursorChecks (pfx name : List Char) (cursor? : Option (Int × Int))
    (mazeLines : List (List Char)) (rows cols : Nat) : List (List Char) :=
  match cursor? with
  | none => [pfx ++ (": missing ").data ++ name]
  | some (line, col) =>
    if line < 1 ∨ line > (rows : Int) then
      [pfx ++ (": ").data ++ name ++ (" line ").data ++ intToChars line ++
        (" out of bounds (1-").data ++ natToChars rows ++ [')']]
    else if col < 1 ∨ col > (cols : Int) then
      [pfx ++ (": ").data ++ name ++ (" col ").data ++ intToChars col ++
        (" out of bounds (1-").data ++ natToChars cols ++ [')']]
    else if get_char_at mazeLines line col = [wallChar] then
      [pfx ++ (": ").data ++ name ++ (" ").data ++ posChars (line, col) ++
        (" is on a wall").data]
    else []

/-- The per-spy loop of check 3: `errors.extend(validate_spy(...))` in input
order. -/
def spiesChecks (pfx : List Char) (mazeLines : List (List Char)) (rows cols : Nat)
    (fuel : Nat) : List SpyMeta → Option (List (List Char))
  | [] => some []
  | spy :: rest =>
    match validate_spy pfx spy mazeLines (rows : Int) (cols : Int) fuel with
    | none => none
    | some errs =>
      match spiesChecks pfx mazeLines rows cols fuel rest with
      | none => none
      | some errs' => some (errs ++ errs')

/-- `validate_level` after both files load: dimension comparison against the
measured maze, the two cursor checks, and the spy checks, every finding
appended to one list in source order. -/
def validate_level (pfx : List Char) (meta : LevelMeta)
    (mazeLines : List (List Char)) (fuel : Nat) : Option (List (List Char)) :=
  let actual_rows := (measure_maze mazeLines).1
  let actual_cols := (measure_maze mazeLines).2
  let errs1 :=
    match meta.maze? with
    | none => [pfx ++ (": missing 'maze' in metadata").data]
    | some mm =>
      (if mm.lines?.getD 0 ≠ (actual_rows : Int) then
        [pfx ++ (": maze.lines mismatch - meta says ").data ++
          intToChars (mm.lines?.getD 0) ++ (", actual is ").data ++
          natToChars actual_rows]
      else []) ++
      (if mm.cols?.getD 0 ≠ (actual_cols : Int) then
        [pfx ++ (": maze.cols mismatch - meta says ").data ++
          intToChars (mm.cols?.getD 0) ++ (", actual is ").data ++
          natToChars actual_cols]
      else [])
  let errs2 := cursorChecks pfx (("start_cursor").data) meta.start_cursor?
    mazeLines actual_rows actual_cols
  let errs3 := cursorChecks pfx (("exit_cursor").data) meta.exit_cursor?
    mazeLines actual_rows actual_cols
  match meta.spies? with
  | none => some (errs1 ++ errs2 ++ errs3)
  | some spies =>
    match spiesChecks pfx mazeLines actual_rows actual_cols fuel spies with
    | none => none
    | some errs4 => some (errs1 ++ errs2 ++ errs3 ++ errs4)

/-- The checks of `validate_level` that do not read `meta['maze']`: the two
cursor checks and the spy checks. -/
def restLevelChecks (pfx : List Char) (start? exit? : Option (Int × Int))
    (spies? : Option (List SpyMeta)) (mazeLines : List (List Char))
    (fuel : Nat) : Option (List (List Char)) :=
  let actual_rows := (measure_maze mazeLines).1
  let actual_cols := (measure_maze mazeLines).2
  let errs2 := cursorChecks pfx (("start_cursor").data) start? mazeLines
    actual_rows actual_cols
  let errs3 := cursorChecks pfx (("exit_cursor").data) exit? mazeLines
    actual_rows actual_cols
  match spies? with
  | none => some (errs2 ++ errs3)
  | some spies =>
    match spiesChecks pfx mazeLines actual_rows actual_cols fuel spies with
    | none => none
    | some errs4 => some (errs2 ++ errs3 ++ errs4)

/--
C9.  `validate_level` prepends one mismatch error per disagreeing axis
(declared `maze.lines`/`maze.cols` against the measured dimensions) and still
performs all remaining checks — `start_cursor`, `exit_cursor` and the spies —
whose findings follow in the same returned list: the result is exactly the
dimension findings concatenated with `restLevelChecks`, and the latter does
not read the declared dimensions at all.
-/
theorem c9_mismatch_accumulates (pfx : List Char) (meta : LevelMeta)
    (mazeLines : List (List Char)) (fuel : Nat) :
    validate_level pfx meta mazeLines fuel =
      (restLevelChecks pfx meta.start_cursor? meta.exit_cursor? meta.spies?
          mazeLines fuel).map
        (fun rest =>
          (match meta.maze? with
           | none => [pfx ++ (": missing 'maze' in metadata").data]
           | some mm =>
             (if mm.lines?.getD 0 ≠ ((measure_maze mazeLines).1 : Int) then
               [pfx ++ (": maze.lines mismatch - meta says ").data ++
                 intToChars (mm.lines?.getD 0) ++ (", actual is ").data ++
                 natToChars (measure_maze mazeLines).1]
             else []) ++
             (if mm.cols?.getD 0 ≠ ((measure_maze mazeLines).2 : Int) then
               [pfx ++ (": maze.cols mismatch - meta says ").data ++
                 intToChars (mm.cols?.getD 0) ++ (", actual is ").data ++
                 natToChars (measure_maze mazeLines).2]
             else [])) ++ rest) := by
  simp only [validate_level, restLevelChecks]
  cases meta.spies? with
  | none => simp [List.append_assoc]
  | some spies =>
    cases h : spiesChecks pfx mazeLines (measure_maze mazeLines).1
        (measure_maze mazeLines).2 fuel spies with
    | none => simp [h]
    | some errs4 => simp [h, List.append_assoc]

/-! ## Lemmas about `pyReplace`

`NoSplit tok a b` says no occurrence of `tok` straddles the boundary of
`a ++ b`; under it `pyReplace` distributes over the append. -/

def NoSplit (tok a b : List Char) : Prop :=
  ∀ k, 0 < k → k < tok.length → ¬ (tok.take k <:+ a ∧ tok.drop k <+: b)

theorem noSplit_of_head (tok a b : List Char)
    (h : ∀ c, b.head? = some c → c ∉ tok) : NoSplit tok a b := by
  intro k hk1 hk2 ⟨hsuf, hpre⟩
  have hne : tok.drop k ≠ [] := by
    intro hcon
    have := List.drop_eq_nil_iff_le.mp hcon
    omega
  cases hd : tok.drop k with
  | nil => exact hne hd
  | cons c t =>
    obtain ⟨r, hr⟩ := hpre
    rw [hd] at hr
    have hb : b.head? = some c := by rw [← hr]; rfl
    refine h c hb ?_
    have : c ∈ tok.drop k := by rw [hd]; exact List.mem_cons_self c t
    exact List.mem_of_mem_drop this

theorem noSplit_of_getLast (tok a b : List Char)
    (h : ∀ c, a.getLast? = some c → c ∉ tok) : NoSplit tok a b := by
  intro k hk1 hk2 ⟨hsuf, hpre⟩
  have hne : tok.take k ≠ [] := by
    intro hcon
    have h3 : (tok.take k).length = 0 := by rw [hcon]; rfl
    rw [List.length_take] at h3
    omega
  have hlast : a.getLast? = (tok.take k).getLast? := by
    obtain ⟨p, hp⟩ := hsuf
    rw [← hp]
    exact List.getLast?_append_of_ne_nil _ hne
  cases hl : (tok.take k).getLast? with
  | none => exact hne (List.getLast?_eq_none_iff.mp hl)
  | some c =>
    refine h c (by rw [hlast, hl]) ?_
    have : c ∈ tok.take k := List.mem_of_mem_getLast? hl
    exact List.mem_of_mem_take this

theorem noSplit_nil_right (tok a : List Char) : NoSplit tok a [] :=
  noSplit_of_head tok a [] (fun c hc => by simp at hc)

theorem replaceSk_skip (tok rep : List Char) (a : List Char) :
    ∀ (b : List Char), replaceSk tok rep a.length (a ++ b) = replaceSk tok rep 0 b := by
  induction a with
  | nil => intro b; rfl
  | cons c t ih => intro b; exact ih b

theorem replaceSk_token (tok rep : List Char) (htok : tok ≠ []) (b : List Char) :
    replaceSk tok rep 0 (tok ++ b) = rep ++ replaceSk tok rep 0 b := by
  obtain ⟨c, t, rfl⟩ := List.exists_cons_of_ne_nil htok
  have hpre : (c :: t).isPrefixOf (c :: (t ++ b)) = true :=
    List.isPrefixOf_iff_prefix.mpr ⟨b, by simp⟩
  rw [List.cons_append, replaceSk, if_pos hpre]
  congr 1
  have hl : (c :: t).length - 1 = t.length := by simp
  rw [hl]
  exact replaceSk_skip (c :: t) rep t b

theorem replaceSk_cons_of_not_pref (tok rep : List Char) (c : Char) (t : List Char)
    (h : ¬ tok <+: (c :: t)) :
    replaceSk tok rep 0 (c :: t) = c :: replaceSk tok rep 0 t := by
  rw [replaceSk]
  rw [if_neg (fun hb => h (List.isPrefixOf_iff_prefix.mp hb))]

theorem replaceSk_id (tok rep : List Char) (s : List Char)
    (h : ¬ tok <:+: s) : replaceSk tok rep 0 s = s := by
  induction s with
  | nil =>
    cases htk : tok with
    | nil => exact absurd (htk ▸ List.nil_infix) h
    | cons c t => rfl
  | cons c t ih =>
    rw [replaceSk_cons_of_not_pref tok rep c t (fun hp => h hp.isInfix)]
    rw [ih (fun hi => h (List.infix_cons hi))]

theorem noSplit_of_suffix (tok : List Char) {a a' b : List Char}
    (hsuf : a' <:+ a) (hns : NoSplit tok a b) : NoSplit tok a' b :=
  fun k h1 h2 ⟨hs', hp⟩ => hns k h1 h2 ⟨hs'.trans hsuf, hp⟩

theorem pyReplace_append (tok rep : List Char) (htok : tok ≠ []) :
    ∀ (a b : List Char), NoSplit tok a b →
      replaceSk tok rep 0 (a ++ b) = replaceSk tok rep 0 a ++ replaceSk tok rep 0 b := by
  have main : ∀ (n : Nat) (a b : List Char), a.length ≤ n → NoSplit tok a b →
      replaceSk tok rep 0 (a ++ b) = replaceSk tok rep 0 a ++ replaceSk tok rep 0 b := by
    intro n
    induction n with
    | zero =>
      intro a b hlen _
      have : a = [] := List.length_eq_zero.mp (Nat.le_zero.mp hlen)
      subst this
      simp [replaceSk]
    | succ m ih =>
      intro a b hlen hns
      cases a with
      | nil => simp [replaceSk]
      | cons c t =>
        by_cases hpre : tok <+: (c :: t) ++ b
        · have htokA : tok <+: c :: t := by
            rcases le_or_lt tok.length (c :: t).length with hle | hlt
            · obtain ⟨r, hr⟩ := hpre
              have h1 : ((c :: t) ++ b).take tok.length = tok := by
                rw [← hr, List.take_append_of_le_length (le_refl _), List.take_length]
              rw [List.take_append_of_le_length hle] at h1
              have h2 := List.take_append_drop tok.length (c :: t)
              rw [h1] at h2
              exact ⟨(c :: t).drop tok.length, h2⟩
            · exfalso
              obtain ⟨r, hr⟩ := hpre
              have h4 := congrArg (List.take (c :: t).length) hr
              rw [List.take_append_of_le_length (le_of_lt hlt)] at h4
              have h5 : List.take (c :: t).length ((c :: t) ++ b) = c :: t := by
                rw [List.take_append_of_le_length (le_refl _), List.take_length]
              rw [h5] at h4
              have h6 := congrArg (List.drop (c :: t).length) hr
              rw [List.drop_append_of_le_length (le_of_lt hlt), List.drop_left] at h6
              exact hns (c :: t).length (by simp) hlt ⟨⟨[], by simpa using h4⟩, ⟨r, h6⟩⟩
          obtain ⟨t2, ht2⟩ := htokA
          have hta : tok ++ (t2 ++ b) = (c :: t) ++ b := by rw [← List.append_assoc, ht2]
          have h1 : replaceSk tok rep 0 ((c :: t) ++ b) =
              rep ++ replaceSk tok rep 0 (t2 ++ b) := by
            rw [← hta]
            exact replaceSk_token tok rep htok (t2 ++ b)
          have h2 : replaceSk tok rep 0 (c :: t) = rep ++ replaceSk tok rep 0 t2 := by
            rw [← ht2]
            exact replaceSk_token tok rep htok t2
          have hlt2 : t2.length ≤ m := by
            have := congrArg List.length ht2
            simp at this
            cases htk : tok with
            | nil => exact absurd htk htok
            | cons x y =>
              rw [htk] at this
              simp at this ⊢
              simp at hlen
              omega
          have hsufT2 : t2 <:+ c :: t := ⟨tok, ht2⟩
          rw [h1, h2, List.append_assoc]
          congr 1
          exact ih t2 b hlt2 (noSplit_of_suffix tok hsufT2 hns)
        · have hpreA : ¬ tok <+: c :: t := by
            intro hp
            exact hpre (hp.trans (List.prefix_append (c :: t) b))
          rw [List.cons_append, replaceSk_cons_of_not_pref tok rep c (t ++ b)
            (by rw [← List.cons_append]; exact hpre)]
          rw [replaceSk_cons_of_not_pref tok rep c t hpreA]
          rw [List.cons_append]
          congr 1
          have hlt : t.length ≤ m := by simp at hlen; omega
          exact ih t b hlt (noSplit_of_suffix tok (List.suffix_cons c t) hns)
  intro a b hns
  exact main a.length a b (le_refl _) hns


theorem containsSub_iff (pat s : List Char) : containsSub pat s = true ↔ pat <:+: s := by
  induction s with
  | nil =>
    simp only [containsSub, List.isEmpty_iff]
    constructor
    · rintro rfl; exact List.nil_infix
    · intro h
      exact List.eq_nil_of_infix_nil h
  | cons c t ih =>
    simp only [containsSub, Bool.or_eq_true, List.isPrefixOf_iff_prefix, ih]
    rw [List.infix_cons_iff]

theorem replaceSk_cons_not_mem (tok rep : List Char) (htok : tok ≠ []) {c : Char}
    {t : List Char} (hc : c ∉ tok) :
    replaceSk tok rep 0 (c :: t) = c :: replaceSk tok rep 0 t := by
  refine replaceSk_cons_of_not_pref tok rep c t ?_
  intro hp
  cases tok with
  | nil => exact absurd rfl htok
  | cons d tok' =>
    rw [List.cons_prefix_cons] at hp
    exact hc (hp.1 ▸ List.mem_cons_self d tok')

theorem replaceSk_head_not_mem (tok rep : List Char) (htok : tok ≠ [])
    {b : List Char} {c : Char} (hb : b.head? = some c) (hc : c ∉ tok) :
    (replaceSk tok rep 0 b).head? = some c := by
  cases b with
  | nil => simp at hb
  | cons d t =>
    have hd : d = c := by simpa using hb
    subst hd
    rw [replaceSk_cons_not_mem tok rep htok hc]
    rfl

theorem not_infix_of_not_mem {tok s : List Char} {c : Char} (hc : c ∈ tok)
    (hs : c ∉ s) : ¬ tok <:+: s :=
  fun hinf => hs (hinf.subset hc)

/-! ### Occurrence transport through the escape maps -/

theorem suffix_append_cases {u p y : List Char} (h : u <:+ p ++ y) :
    u <:+ y ∨ ∃ p', p' <:+ p ∧ p' ≠ [] ∧ u = p' ++ y := by
  obtain ⟨w, hw⟩ := h
  rcases le_or_lt p.length w.length with hle | hlt
  · left
    refine ⟨w.drop p.length, ?_⟩
    have h2 := congrArg (List.drop p.length) hw
    rw [List.drop_append_of_le_length hle, List.drop_left] at h2
    exact h2
  · right
    refine ⟨p.drop w.length, List.drop_suffix _ _, ?_, ?_⟩
    · intro hcon
      have := congrArg List.length hcon
      simp at this
      omega
    · have h2 := congrArg (List.drop w.length) hw
      rw [List.drop_left, List.drop_append_of_le_length (le_of_lt hlt)] at h2
      exact h2

theorem suffix_single {p' : List Char} {x : Char} (h : p' <:+ [x]) :
    p' = [] ∨ p' = [x] := by
  obtain ⟨w, hw⟩ := h
  cases w with
  | nil => right; simpa using hw
  | cons a w' =>
    left
    have hlen : (a :: w').length + p'.length = 1 := by
      rw [← List.length_append, hw]
      rfl
    simp only [List.length_cons] at hlen
    exact List.length_eq_zero.mp (by omega)

theorem suffix_pair {p' : List Char} {x y : Char} (h : p' <:+ [x, y]) :
    p' = [] ∨ p' = [y] ∨ p' = [x, y] := by
  obtain ⟨w, hw⟩ := h
  cases w with
  | nil => right; right; simpa using hw
  | cons a w' =>
    cases w' with
    | nil =>
      right; left
      have hw' : a :: p' = [x, y] := by simpa using hw
      injection hw' with h1 h2
    | cons b w'' =>
      left
      have hlen : (a :: b :: w'').length + p'.length = 2 := by
        rw [← List.length_append, hw]
        rfl
      simp only [List.length_cons] at hlen
      exact List.length_eq_zero.mp (by omega)

/-- Escape maps send a character to itself or to a two-character escape. -/
def EscShape (f : Char → List Char) : Prop :=
  ∀ c, f c = [c] ∨ ∃ a b, f c = [a, b]

theorem prefix_flatMap_esc (f : Char → List Char) (hf : EscShape f) :
    ∀ (s tok : List Char), (∀ c a b, f c = [a, b] → a ∉ tok) →
    tok <+: s.flatMap f → tok <+: s := by
  intro s
  induction s with
  | nil =>
    intro tok _ h
    rw [List.flatMap_nil, List.prefix_nil] at h
    exact h ▸ List.nil_prefix
  | cons c t ih =>
    intro tok hA h
    rw [List.flatMap_cons] at h
    rcases hf c with hpc | ⟨a, b, hpc⟩
    · rw [hpc, List.cons_append] at h
      cases tok with
      | nil => exact List.nil_prefix
      | cons d tok' =>
        rw [List.cons_prefix_cons] at h
        have ht := ih tok'
          (fun c' a' b' hfc hm => hA c' a' b' hfc (List.mem_cons_of_mem _ hm)) h.2
        rw [List.cons_prefix_cons]
        exact ⟨h.1, ht⟩
    · cases tok with
      | nil => exact List.nil_prefix
      | cons d tok' =>
        exfalso
        rw [hpc, List.cons_append, List.cons_prefix_cons] at h
        exact hA c a b hpc (h.1 ▸ List.mem_cons_self d tok')

theorem suffix_flatMap_esc (f : Char → List Char) (hf : EscShape f) :
    ∀ (s u : List Char), u <:+ s.flatMap f →
      (∃ s', s' <:+ s ∧ u = s'.flatMap f) ∨
      (∃ (s' : List Char) (b : Char), s' <:+ s ∧ u = b :: s'.flatMap f ∧
        ∃ c a, f c = [a, b]) := by
  intro s
  induction s with
  | nil =>
    intro u h
    rw [List.flatMap_nil] at h
    left
    exact ⟨[], List.suffix_refl [], by simpa using List.eq_nil_of_suffix_nil h⟩
  | cons c t ih =>
    intro u h
    rw [List.flatMap_cons] at h
    rcases suffix_append_cases h with h' | ⟨p', hp', hne, rfl⟩
    · rcases ih u h' with ⟨s', hs', he⟩ | ⟨s', b, hs', he, hw⟩
      · exact Or.inl ⟨s', hs'.trans (List.suffix_cons c t), he⟩
      · exact Or.inr ⟨s', b, hs'.trans (List.suffix_cons c t), he, hw⟩
    · rcases hf c with hpc | ⟨a, b, hpc⟩
      · rw [hpc] at hp'
        rcases suffix_single hp' with rfl | rfl
        · exact absurd rfl hne
        · left
          exact ⟨c :: t, List.suffix_refl _, by rw [List.flatMap_cons, hpc]⟩
      · rw [hpc] at hp'
        rcases suffix_pair hp' with rfl | rfl | rfl
        · exact absurd rfl hne
        · right
          exact ⟨t, b, List.suffix_cons c t, rfl, c, a, hpc⟩
        · left
          exact ⟨c :: t, List.suffix_refl _, by rw [List.flatMap_cons, hpc]⟩

theorem not_infix_flatMap_esc (f : Char → List Char) (hf : EscShape f)
    {tok s : List Char}
    (hA : ∀ c a b, f c = [a, b] → a ∉ tok)
    (hB : ∀ c a b, f c = [a, b] → tok.head? ≠ some b)
    (h : ¬ tok <:+: s) : ¬ tok <:+: s.flatMap f := by
  intro hinf
  rw [List.infix_iff_prefix_suffix] at hinf
  obtain ⟨t', hpre, hsuf⟩ := hinf
  rcases suffix_flatMap_esc f hf s t' hsuf with ⟨s', hs', rfl⟩ | ⟨s', b, hs', rfl, c, a, hw⟩
  · have hp := prefix_flatMap_esc f hf s' tok hA hpre
    exact h ((hp.isInfix).trans hs'.isInfix)
  · cases tok with
    | nil => exact h List.nil_infix
    | cons d tok' =>
      rw [List.cons_prefix_cons] at hpre
      exact hB c a b hw (by rw [hpre.1]; rfl)

/-! ## The Vim-literal parser `parse_vim_dict` (`tools/validate_levels.py`)

The source runs four phases over the file content: (1) joining of
continuation lines (a line whose `lstrip()` starts with a backslash is
appended to its predecessor), (2) textual replacement of the three atoms
`v:null`/`v:true`/`v:false` by `None`/`True`/`False`, (3) a character scan
that rewrites Vim single-quoted strings as Python double-quoted strings and
passes double-quoted strings through verbatim, and (4) Python `eval` of the
resulting text.  Phases 1-3 are embedded directly; phase 4 (the `eval`
builtin, at the boundary of the embedding) is modelled by a recursive-descent
evaluator of the Python literal grammar over the constructors the serializer
emits. -/

/-- One step of the continuation-joining fold: a line whose `lstrip()` starts
with `\` is glued onto the previous line (with a single space, and the
remainder lstripped); with no previous line the lstripped remainder starts
the accumulator; any other line is appended as is. -/
def jcStep (acc : List (List Char)) (line : List Char) : List (List Char) :=
  match pyLstrip line with
  | c :: rest =>
    if c = '\\' then
      match acc.getLast? with
      | some last => acc.dropLast ++ [last ++ ' ' :: pyLstrip rest]
      | none => [pyLstrip rest]
    else acc ++ [line]
  | [] => acc ++ [line]

/-- Phase 1: `content.split('\n')`, the continuation fold, `'\n'.join`. -/
def joinContinuations (s : List Char) : List Char :=
  joinNl ((splitNl s).foldl jcStep [])

/-- Phase 2: the three sequential `str.replace` calls. -/
def rep3 (s : List Char) : List Char :=
  pyReplace ("v:false").data ("False").data
    (pyReplace ("v:true").data ("True").data
      (pyReplace ("v:null").data ("None").data s))

/-- What the scan emits for a finished single-quoted string: the collected
inner characters with backslashes doubled and double quotes escaped, wrapped
in double quotes (the source's two `replace` calls on `inner`). -/
def sqEmit (inner : List Char) : List Char :=
  '"' :: (pyReplace ['"'] ['\\', '"'] (pyReplace ['\\'] ['\\', '\\'] inner) ++ ['"'])

/-- Scanner state of phase 3: outside any string; inside a single-quoted
string with the inner characters collected so far; just after a quote inside
a single-quoted string (the lookahead for the `''` escape); inside a
double-quoted string remembering the previous character (the source's
`content[j-1]`). -/
inductive LexSt where
  | top : LexSt
  | sq (inner : List Char) : LexSt
  | sqQuote (inner : List Char) : LexSt
  | dq (prev : Char) : LexSt

/-- Phase 3, one character at a time.  `out` is the emitted text.  In state
`sqQuote` a non-quote character ends the single-quoted string (the source
breaks with `i = j + 1`, so that character is reprocessed in the outer loop:
the three branches replay the outer loop's dispatch on it).  A double-quoted
string ends at a `"` whose predecessor is not a backslash; at end of input
both unterminated string states flush exactly what the source's slices
append. -/
def relexGo : LexSt → List Char → List Char → List Char
  | .top, out, [] => out
  | .top, out, c :: r =>
    if c = '\'' then relexGo (.sq []) out r
    else if c = '"' then relexGo (.dq '"') (out ++ [c]) r
    else relexGo .top (out ++ [c]) r
  | .sq inner, out, [] => out ++ sqEmit inner
  | .sq inner, out, c :: r =>
    if c = '\'' then relexGo (.sqQuote inner) out r
    else relexGo (.sq (inner ++ [c])) out r
  | .sqQuote inner, out, [] => out ++ sqEmit inner
  | .sqQuote inner, out, c :: r =>
    if c = '\'' then relexGo (.sq (inner ++ ['\''])) out r
    else if c = '"' then relexGo (.dq '"') (out ++ sqEmit inner ++ [c]) r
    else relexGo .top (out ++ sqEmit inner ++ [c]) r
  | .dq _, out, [] => out
  | .dq prev, out, c :: r =>
    if c = '"' ∧ prev ≠ '\\' then relexGo .top (out ++ [c]) r
    else relexGo (.dq c) (out ++ [c]) r

/-- Phase 3 from the initial state. -/
def relex (s : List Char) : List Char := relexGo .top [] s

/-! ### Phase 4: the Python literal evaluator modelling `eval` -/

/-- Whitespace the Python tokenizer skips between tokens (inside brackets a
newline is ordinary whitespace). -/
def wsChar (c : Char) : Bool := c = ' ' ∨ c = '\n' ∨ c = '\t'

def skipWs (s : List Char) : List Char := s.dropWhile wsChar

def digitB (c : Char) : Bool := '0' ≤ c ∧ c ≤ '9'

/-- Characters a number token may contain. -/
def numChar (c : Char) : Bool :=
  digitB c ∨ c = '.' ∨ c = 'e' ∨ c = 'E' ∨ c = '+' ∨ c = '-'

def digitsVal (ds : List Char) : Nat :=
  ds.foldl (fun a c => a * 10 + (c.toNat - 48)) 0

/-- An integer literal: an optional minus sign followed by digits. -/
def intOfDigits : List Char → Option Int
  | [] => none
  | c :: d =>
    if c = '-' then
      if !d.isEmpty && d.all digitB then some (-(digitsVal d : Int)) else none
    else if (c :: d).all digitB then some ((digitsVal (c :: d) : Int)) else none

/-- An exponent after `e`/`E`: optional sign, then one or more digits. -/
def expOkB : List Char → Bool
  | '+' :: r => !r.isEmpty && r.all digitB
  | '-' :: r => !r.isEmpty && r.all digitB
  | r => !r.isEmpty && r.all digitB

/-- What may follow the integer part of a float literal: a fraction (with at
least one digit), an exponent, or a fraction followed by an exponent.  The
empty remainder is refused: a bare integer is not a float rendering. -/
def fracExpOkB : List Char → Bool
  | '.' :: r =>
    (!(r.takeWhile digitB).isEmpty) &&
      (match r.dropWhile digitB with
       | [] => true
       | 'e' :: r2 => expOkB r2
       | 'E' :: r2 => expOkB r2
       | _ => false)
  | 'e' :: r2 => expOkB r2
  | 'E' :: r2 => expOkB r2
  | _ => false

/-- The canonical shape of Python's `str()` rendering of a finite float:
optional sign, digits, then fraction and/or exponent; such a rendering uses
only number characters, ends in a digit, and contains a `.` or an exponent
marker (which is what distinguishes it from an integer literal). -/
def mantOkB : List Char → Bool
  | '-' :: r => (!(r.takeWhile digitB).isEmpty) && fracExpOkB (r.dropWhile digitB)
  | r => (!(r.takeWhile digitB).isEmpty) && fracExpOkB (r.dropWhile digitB)

def floatOkB (s : List Char) : Bool :=
  mantOkB s &&
  s.all numChar &&
  (match s.getLast? with | some d => digitB d | none => false) &&
  s.any (fun c => c = '.' || c = 'e' || c = 'E')

/-- A number token: the maximal span of number characters, classified as a
float if it contains `.`/`e`/`E` and as an integer otherwise. -/
def numParse (s : List Char) : Option (VimValue × List Char) :=
  let sp := s.takeWhile numChar
  let rest := s.dropWhile numChar
  if sp.isEmpty then none
  else if sp.any (fun c => c = '.' || c = 'e' || c = 'E') then
    if floatOkB sp then some (.float sp, rest) else none
  else
    match intOfDigits sp with
    | some n => some (.int n, rest)
    | none => none

/-- Python's escape sequences as they can occur in the text the scan emits:
`\n`, `\t`, `\r`, `\\`, `\"`, `\'`, `\0`; a backslash before a newline is a
line continuation and disappears; an unrecognized escape keeps both
characters (Python's behaviour). -/
def pyEscPair (c : Char) : List Char :=
  if c = 'n' then ['\n']
  else if c = 't' then ['\t']
  else if c = 'r' then ['\x0d']
  else if c = '\\' then ['\\']
  else if c = '"' then ['"']
  else if c = '\'' then ['\'']
  else if c = '0' then ['\x00']
  else if c = '\n' then []
  else ['\\', c]

/-- The body of a double-quoted Python string literal, from just after the
opening quote to the closing quote, unescaping as Python does.  A raw
newline or carriage return inside the literal is a syntax error (`none`), as
is an unterminated literal. -/
def pyStrScan : List Char → Option (List Char × List Char)
  | [] => none
  | c :: r =>
    if c = '"' then some ([], r)
    else if c = '\\' then
      match r with
      | [] => none
      | e :: r2 =>
        match pyStrScan r2 with
        | some (s, rest) => some (pyEscPair e ++ s, rest)
        | none => none
    else if c = '\n' then none
    else if c = '\x0d' then none
    else
      match pyStrScan r with
      | some (s, rest) => some (c :: s, rest)
      | none => none

/-! The evaluator proper: `pyEvalValue` parses one literal and returns it
with the unconsumed remainder; `pyEvalList` parses the items of a non-empty
list from just after the opening bracket (leading whitespace skipped) up to
and including the closing bracket, accepting a trailing comma as Python
does; `pyEvalDict` does the same for a non-empty dict, whose keys are
double-quoted strings after phase 3.  The fuel decreases on every nested
call; `none` at fuel 0 means the budget ran out. -/
mutual
def pyEvalValue : Nat → List Char → Option (VimValue × List Char)
  | 0, _ => none
  | fuel + 1, s =>
    if (("None").data).isPrefixOf s then some (.null, s.drop 4)
    else if (("True").data).isPrefixOf s then some (.bool true, s.drop 4)
    else if (("False").data).isPrefixOf s then some (.bool false, s.drop 5)
    else
      match s with
      | [] => none
      | c :: r =>
        if c = '"' then
          match pyStrScan r with
          | some (str, rest) => some (.str str, rest)
          | none => none
        else if c = '[' then
          match skipWs r with
          | [] => none
          | d :: r2 =>
            if d = ']' then some (.list .nil, r2)
            else
              match pyEvalList fuel (d :: r2) with
              | some (xs, rest) => some (.list xs, rest)
              | none => none
        else if c = '{' then
          match skipWs r with
          | [] => none
          | d :: r2 =>
            if d = '}' then some (.dict .nil, r2)
            else
              match pyEvalDict fuel (d :: r2) with
              | some (xs, rest) => some (.dict xs, rest)
              | none => none
        else numParse (c :: r)
def pyEvalList : Nat → List Char → Option (VimList × List Char)
  | 0, _ => none
  | fuel + 1, s =>
    match pyEvalValue fuel s with
    | some (v, r) =>
      match skipWs r with
      | [] => none
      | c :: r2 =>
        if c = ']' then some (.cons v .nil, r2)
        else if c = ',' then
          match skipWs r2 with
          | [] => none
          | d :: r4 =>
            if d = ']' then some (.cons v .nil, r4)
            else
              match pyEvalList fuel (d :: r4) with
              | some (xs, rest) => some (.cons v xs, rest)
              | none => none
        else none
    | none => none
def pyEvalDict : Nat → List Char → Option (VimDict × List Char)
  | 0, _ => none
  | fuel + 1, s =>
    match s with
    | [] => none
    | c :: r =>
      if c = '"' then
        match pyStrScan r with
        | some (k, r1) =>
          match skipWs r1 with
          | [] => none
          | d :: r2 =>
            if d = ':' then
              match pyEvalValue fuel (skipWs r2) with
              | some (v, r3) =>
                match skipWs r3 with
                | [] => none
                | e :: r5 =>
                  if e = '}' then some (.cons k v .nil, r5)
                  else if e = ',' then
                    match skipWs r5 with
                    | [] => none
                    | g :: r7 =>
                      if g = '}' then some (.cons k v .nil, r7)
                      else
                        match pyEvalDict fuel (g :: r7) with
                        | some (xs, rest) => some (.cons k v xs, rest)
                        | none => none
                  else none
              | none => none
            else none
        | none => none
      else none
end

/-- `eval` on a complete expression: skip surrounding whitespace, parse one
literal, and require nothing but whitespace to remain.  The fuel
`2 * length + 2` dominates the call depth (every other nested call consumes
at least one character). -/
def pyEvalTop (s : List Char) : Option VimValue :=
  match pyEvalValue (2 * s.length + 2) (skipWs s) with
  | some (v, rest) => if (skipWs rest).isEmpty then some v else none
  | none => none

/-- `parse_vim_dict`: the four phases in source order. -/
def parse_vim_dict (content : List Char) : Option VimValue :=
  pyEvalTop (relex (rep3 (joinContinuations content)))

/-! ## The serialized text after each parse phase

`mid1V` is `format_vim_value` with the three atoms already replaced (the
effect of phase 2 on serializer output whose strings avoid the atom
tokens); `pySerV` is the text after phase 3 as well: single-quoted strings
and keys re-emitted double-quoted with backslash and quote escaped,
double-quoted strings untouched.  Layout decisions (one line or many) are
the original serializer's, so the dict test reads the `fmtEntries`
renderings. -/

/-- Per-character effect of the scan's two `replace` calls on a collected
single-quoted inner text. -/
def pyEscChar (c : Char) : List Char :=
  if c = '\\' then ['\\', '\\'] else if c = '"' then ['\\', '"'] else [c]

mutual
def mid1V : VimValue → Nat → List Char
  | .null, _ => ("None").data
  | .bool b, _ => if b then ("True").data else ("False").data
  | .int n, _ => intToChars n
  | .float fstr, _ => fstr
  | .str s, _ =>
    if ('\n') ∈ s then '"' :: (escape_vim_double_quoted s ++ ['"'])
    else '\'' :: (escape_vim_single_quoted s ++ ['\''])
  | .list .nil, _ => ['[', ']']
  | .list (.cons v r), indent =>
    if listSimple (.cons v r) then
      '[' :: (joinComma (mid1Items (.cons v r) indent) ++ [']'])
    else
      '[' :: '\n' ::
        (joinNl ((mid1Items (.cons v r) indent).map
            (fun it => List.replicate (indent + 2) ' ' ++ it ++ [','])) ++
          '\n' :: (List.replicate indent ' ' ++ [']']))
  | .dict .nil, _ => ['{', '}']
  | .dict (.cons k v r), indent =>
    if sumLens (fmtEntries (.cons k v r) indent) < 60 &&
        (fmtEntries (.cons k v r) indent).all (fun it => !(it.elem '\n')) then
      '{' :: (joinComma (mid1Entries (.cons k v r) indent) ++ ['}'])
    else
      '{' :: '\n' ::
        (joinNl ((mid1Entries (.cons k v r) indent).map
            (fun it => List.replicate (indent + 2) ' ' ++ it ++ [','])) ++
          '\n' :: (List.replicate indent ' ' ++ ['}']))
def mid1Items : VimList → Nat → List (List Char)
  | .nil, _ => []
  | .cons v r, indent => mid1V v (indent + 2) :: mid1Items r indent
def mid1Entries : VimDict → Nat → List (List Char)
  | .nil, _ => []
  | .cons k v r, indent =>
    ('\'' :: (k ++ '\'' :: ':' :: ' ' :: mid1V v (indent + 2))) :: mid1Entries r indent
end

mutual
def pySerV : VimValue → Nat → List Char
  | .null, _ => ("None").data
  | .bool b, _ => if b then ("True").data else ("False").data
  | .int n, _ => intToChars n
  | .float fstr, _ => fstr
  | .str s, _ =>
    if ('\n') ∈ s then '"' :: (escape_vim_double_quoted s ++ ['"'])
    else '"' :: (s.flatMap pyEscChar ++ ['"'])
  | .list .nil, _ => ['[', ']']
  | .list (.cons v r), indent =>
    if listSimple (.cons v r) then
      '[' :: (joinComma (pySerItems (.cons v r) indent) ++ [']'])
    else
      '[' :: '\n' ::
        (joinNl ((pySerItems (.cons v r) indent).map
            (fun it => List.replicate (indent + 2) ' ' ++ it ++ [','])) ++
          '\n' :: (List.replicate indent ' ' ++ [']']))
  | .dict .nil, _ => ['{', '}']
  | .dict (.cons k v r), indent =>
    if sumLens (fmtEntries (.cons k v r) indent) < 60 &&
        (fmtEntries (.cons k v r) indent).all (fun it => !(it.elem '\n')) then
      '{' :: (joinComma (pySerEntries (.cons k v r) indent) ++ ['}'])
    else
      '{' :: '\n' ::
        (joinNl ((pySerEntries (.cons k v r) indent).map
            (fun it => List.replicate (indent + 2) ' ' ++ it ++ [','])) ++
          '\n' :: (List.replicate indent ' ' ++ ['}']))
def pySerItems : VimList → Nat → List (List Char)
  | .nil, _ => []
  | .cons v r, indent => pySerV v (indent + 2) :: pySerItems r indent
def pySerEntries : VimDict → Nat → List (List Char)
  | .nil, _ => []
  | .cons k v r, indent =>
    ('"' :: (k ++ '"' :: ':' :: ' ' :: pySerV v (indent + 2))) :: pySerEntries r indent
end

/-! ## The round-trip precondition

`strOkB` is the claim's "escaping-rules caveat" made precise from the code:
phase 2 rewrites the atom tokens even inside string bodies, so a string
containing one cannot survive; `eval` refuses source text holding a raw
carriage return or NUL; and a string that is rendered double-quoted (it
contains a newline) but ends in a backslash makes the phase-3 scan miss the
closing quote (`content[j-1]` is the second half of the escaped backslash).
`keyOkB` is the claim's "safe keys": dict keys are interpolated into
`'{k}':` with no escaping at all, so they are kept to alphanumerics and
underscores; map keys are pairwise distinct.  `floatOkB` (above) pins floats
to canonical `str()` renderings. -/

def strOkB (s : List Char) : Bool :=
  !(containsSub (("v:null").data) s) && !(containsSub (("v:true").data) s) &&
  !(containsSub (("v:false").data) s) &&
  !(s.elem '\x0d') && !(s.elem '\x00') &&
  (!(s.elem '\n') || !(s.getLast? == some '\\'))

def keyOkB (k : List Char) : Bool :=
  !k.isEmpty && k.all (fun c => c.isAlphanum || c = '_')

def keysOf : VimDict → List (List Char)
  | .nil => []
  | .cons k _ r => k :: keysOf r

def distinctB : List (List Char) → Bool
  | [] => true
  | k :: r => !(r.elem k) && distinctB r

mutual
def goodV : VimValue → Bool
  | .null => true
  | .bool _ => true
  | .int _ => true
  | .float fstr => floatOkB fstr
  | .str s => strOkB s
  | .list xs => goodL xs
  | .dict xs => distinctB (keysOf xs) && goodD xs
def goodL : VimList → Bool
  | .nil => true
  | .cons v r => goodV v && goodL r
def goodD : VimDict → Bool
  | .nil => true
  | .cons k v r => keyOkB k && goodV v && goodD r
end

/-! ### Fuel accounting for the evaluator -/

/-! Call depth the evaluator needs below a value / a non-empty item chain. -/
mutual
def needV : VimValue → Nat
  | .list .nil => 1
  | .list (.cons v r) => 1 + needL (.cons v r)
  | .dict .nil => 1
  | .dict (.cons k v r) => 1 + needD (.cons k v r)
  | _ => 1
def needL : VimList → Nat
  | .nil => 0
  | .cons v r => 1 + needV v + needL r
def needD : VimDict → Nat
  | .nil => 0
  | .cons _ v r => 1 + needV v + needD r
end

/-- Scanner for phase 1's precondition: `true` iff no line's leading
whitespace is followed by a backslash.  The Boolean state holds while only
whitespace has been seen on the current line. -/
def noContAux : Bool → List Char → Bool
  | _, [] => true
  | atWs, c :: r =>
    if c = '\n' then noContAux true r
    else if atWs && isPyWs c then noContAux true r
    else if atWs && (c = '\\') then false
    else noContAux false r

/-! ## Phase-2 transport: `rep3` over the serializer's segments -/

theorem replaceSk_cons_ne (tok rep : List Char) (h : Char) (t' : List Char)
    (htok : tok = h :: t') {c : Char} {s : List Char} (hc : c ≠ h) :
    replaceSk tok rep 0 (c :: s) = c :: replaceSk tok rep 0 s := by
  refine replaceSk_cons_of_not_pref tok rep c s ?_
  subst htok
  intro hp
  rw [List.cons_prefix_cons] at hp
  exact hc hp.1.symm

theorem rep3_cons_ne_v {c : Char} (hc : c ≠ 'v') (s : List Char) :
    rep3 (c :: s) = c :: rep3 s := by
  unfold rep3 pyReplace
  rw [replaceSk_cons_ne _ _ 'v' _ rfl hc, replaceSk_cons_ne _ _ 'v' _ rfl hc,
    replaceSk_cons_ne _ _ 'v' _ rfl hc]

theorem rep3_nil : rep3 [] = [] := rfl

theorem rep3_spaces (n : Nat) (s : List Char) :
    rep3 (List.replicate n ' ' ++ s) = List.replicate n ' ' ++ rep3 s := by
  induction n with
  | zero => simp
  | succ m ih =>
    rw [List.replicate_succ, List.cons_append, rep3_cons_ne_v (by decide) _, ih]
    rfl

/-- Decidable straddle-freedom: no nonempty proper prefix of `tok` is a
suffix of `a` (which gives `NoSplit tok a b` for every `b`). -/
def NoSplitB (tok a : List Char) : Bool :=
  (List.range tok.length).all (fun k => decide (k = 0) || !((tok.take k).isSuffixOf a))

theorem noSplit_of_b {tok a : List Char} (h : NoSplitB tok a = true) (b : List Char) :
    NoSplit tok a b := by
  intro k hk1 hk2 hsp
  have hm := List.all_eq_true.mp h k (List.mem_range.mpr hk2)
  simp only [Bool.or_eq_true, decide_eq_true_eq, Bool.not_eq_true'] at hm
  rcases hm with h0 | hns
  · omega
  · have htrue : (tok.take k).isSuffixOf a = true :=
      List.isSuffixOf_iff_suffix.mpr hsp.1
    rw [htrue] at hns
    cases hns

theorem not_infix_append {tok a b : List Char} (ha : ¬ tok <:+: a) (hb : ¬ tok <:+: b)
    (hns : NoSplit tok a b) : ¬ tok <:+: a ++ b := by
  rintro ⟨u, w, hw⟩
  rw [List.append_assoc] at hw
  rcases le_or_lt a.length u.length with hle | hlt
  · have h2 := congrArg (List.drop a.length) hw
    rw [List.drop_left, List.drop_append_of_le_length hle] at h2
    exact hb ⟨u.drop a.length, w, by rw [List.append_assoc]; exact h2⟩
  · rcases le_or_lt (u.length + tok.length) a.length with hle2 | hlt2
    · have h2 := congrArg (List.take a.length) hw
      rw [List.take_left] at h2
      have hsplit : a.length =
          u.length + (tok.length + (a.length - u.length - tok.length)) := by
        omega
      rw [hsplit, List.take_append, List.take_append] at h2
      exact ha ⟨u, w.take (a.length - u.length - tok.length),
        by rw [List.append_assoc]; exact h2⟩
    · have hk1 : 0 < a.length - u.length := by omega
      have hk2 : a.length - u.length < tok.length := by omega
      refine hns (a.length - u.length) hk1 hk2 ⟨⟨u, ?_⟩, ⟨w, ?_⟩⟩
      · have h2 := congrArg (List.take a.length) hw
        rw [List.take_left] at h2
        have hal : a.length = u.length + (a.length - u.length) := by omega
        rw [hal, List.take_append,
          List.take_append_of_le_length (le_of_lt hk2)] at h2
        exact h2
      · have h2 := congrArg (List.drop a.length) hw
        rw [List.drop_left] at h2
        have hal : a.length = u.length + (a.length - u.length) := by omega
        rw [hal, List.drop_append,
          List.drop_append_of_le_length (le_of_lt hk2)] at h2
        exact h2

theorem replaceSk_seg {tok : List Char} (rep : List Char) (htok : tok ≠ [])
    {a b : List Char} (hseg : ¬ tok <:+: a) (hns : NoSplit tok a b) :
    replaceSk tok rep 0 (a ++ b) = a ++ replaceSk tok rep 0 b := by
  rw [pyReplace_append tok rep htok a b hns, replaceSk_id tok rep a hseg]

theorem rep3_seg {a : List Char}
    (hN : ¬ (("v:null").data) <:+: a) (hT : ¬ (("v:true").data) <:+: a)
    (hF : ¬ (("v:false").data) <:+: a)
    (hlast : ∀ c, a.getLast? = some c →
      c ∉ (("v:null").data) ∧ c ∉ (("v:true").data) ∧ c ∉ (("v:false").data))
    (b : List Char) :
    rep3 (a ++ b) = a ++ rep3 b := by
  unfold rep3 pyReplace
  rw [replaceSk_seg _ (by decide) hN
      (noSplit_of_getLast _ _ _ (fun c hc => (hlast c hc).1)),
    replaceSk_seg _ (by decide) hT
      (noSplit_of_getLast _ _ _ (fun c hc => (hlast c hc).2.1)),
    replaceSk_seg _ (by decide) hF
      (noSplit_of_getLast _ _ _ (fun c hc => (hlast c hc).2.2))]

theorem rep3_null (rest : List Char) :
    rep3 ((("v:null").data) ++ rest) = (("None").data) ++ rep3 rest := by
  unfold rep3 pyReplace
  rw [replaceSk_token _ _ (by decide),
    replaceSk_seg _ (by decide) (by decide) (noSplit_of_b (by decide) _),
    replaceSk_seg _ (by decide) (by decide) (noSplit_of_b (by decide) _)]

theorem rep3_true (rest : List Char) :
    rep3 ((("v:true").data) ++ rest) = (("True").data) ++ rep3 rest := by
  unfold rep3 pyReplace
  rw [replaceSk_seg _ (by decide) (by decide) (noSplit_of_b (by decide) _),
    replaceSk_token _ _ (by decide),
    replaceSk_seg _ (by decide) (by decide) (noSplit_of_b (by decide) _)]

theorem rep3_false (rest : List Char) :
    rep3 ((("v:false").data) ++ rest) = (("False").data) ++ rep3 rest := by
  unfold rep3 pyReplace
  rw [replaceSk_seg _ (by decide) (by decide) (noSplit_of_b (by decide) _),
    replaceSk_seg _ (by decide) (by decide) (noSplit_of_b (by decide) _),
    replaceSk_token _ _ (by decide)]

theorem not_infix_wrap {tok m : List Char} {q : Char} (hv : 'v' ∈ tok)
    (hq : q ≠ 'v') (hqtok : q ∉ tok) (hm : ¬ tok <:+: m) :
    ¬ tok <:+: (q :: (m ++ [q])) := by
  have h1 : ¬ tok <:+: [q] := by
    refine not_infix_of_not_mem hv ?_
    simp only [List.mem_singleton]
    exact fun hcon => hq hcon.symm
  have hns1 : NoSplit tok [q] m := by
    intro k hk1 hk2 hsp
    rcases suffix_single hsp.1 with he | he
    · have hlen0 : (tok.take k).length = 0 := by rw [he]; rfl
      rw [List.length_take] at hlen0
      omega
    · refine hqtok ?_
      have : q ∈ tok.take k := he ▸ List.mem_singleton_self q
      exact List.mem_of_mem_take this
  have h2 : ¬ tok <:+: ([q] ++ m) := not_infix_append h1 hm hns1
  have hns2 : NoSplit tok ([q] ++ m) [q] :=
    noSplit_of_head _ _ _ (fun c hc => by
      simp only [List.head?_cons, Option.some_inj] at hc
      exact hc ▸ hqtok)
  have h3 := not_infix_append h2 h1 hns2
  simpa using h3

/-! ## Character-class facts and the integer rendering -/

theorem digitB_not_in_toks {c : Char} (h : digitB c = true) :
    c ∉ (("v:null").data) ∧ c ∉ (("v:true").data) ∧ c ∉ (("v:false").data) := by
  refine ⟨?_, ?_, ?_⟩ <;> intro hm <;> fin_cases hm <;> exact absurd h (by decide)

theorem dash_not_in_toks :
    '-' ∉ (("v:null").data) ∧ '-' ∉ (("v:true").data) ∧ '-' ∉ (("v:false").data) := by
  decide

theorem natToCharsAux_mem :
    ∀ (fuel n : Nat) (c : Char), c ∈ natToCharsAux fuel n → digitB c = true := by
  intro fuel
  induction fuel with
  | zero => intro n c hc; simp [natToCharsAux] at hc
  | succ m ih =>
    intro n c hc
    rw [natToCharsAux] at hc
    split at hc
    · rename_i hn
      rw [List.mem_singleton] at hc
      subst hc
      interval_cases n <;> decide
    · rw [List.mem_append, List.mem_singleton] at hc
      rcases hc with hc | hc
      · exact ih _ c hc
      · subst hc
        have hlt : n % 10 < 10 := Nat.mod_lt n (by omega)
        set d := n % 10 with hd
        interval_cases d <;> decide

theorem natToCharsAux_ne_nil (fuel n : Nat) : natToCharsAux (fuel + 1) n ≠ [] := by
  rw [natToCharsAux]
  split
  · simp
  · simp

theorem digitsVal_append_digit (xs : List Char) (c : Char) :
    digitsVal (xs ++ [c]) = 10 * digitsVal xs + (c.toNat - 48) := by
  simp [digitsVal, List.foldl_append]
  ring

theorem natToCharsAux_val :
    ∀ (fuel n : Nat), n ≤ fuel → digitsVal (natToCharsAux (fuel + 1) n) = n := by
  intro fuel
  induction fuel with
  | zero =>
    intro n hn
    have : n = 0 := by omega
    subst this
    decide
  | succ m ih =>
    intro n hn
    rw [natToCharsAux]
    split
    · rename_i hlt
      interval_cases n <;> decide
    · rename_i hge
      push_neg at hge
      have hdiv : n / 10 ≤ m := by
        have h1 : n / 10 < n := Nat.div_lt_self (by omega) (by omega)
        omega
      rw [digitsVal_append_digit, ih _ hdiv]
      have hm : n % 10 < 10 := Nat.mod_lt n (by omega)
      have hval : (Char.ofNat (48 + n % 10)).toNat - 48 = n % 10 := by
        set d := n % 10 with hd
        interval_cases d <;> decide
      rw [hval]
      omega

theorem natToChars_val (n : Nat) : digitsVal (natToChars n) = n :=
  natToCharsAux_val n n (le_refl n)

theorem natToChars_mem {n : Nat} {c : Char} (hc : c ∈ natToChars n) : digitB c = true :=
  natToCharsAux_mem _ _ _ hc

theorem natToChars_ne_nil (n : Nat) : natToChars n ≠ [] := natToCharsAux_ne_nil n n

theorem intToChars_mem {n : Int} {c : Char} (hc : c ∈ intToChars n) :
    digitB c = true ∨ c = '-' := by
  rw [intToChars] at hc
  split at hc
  · rw [List.mem_cons] at hc
    rcases hc with hc | hc
    · exact Or.inr hc
    · exact Or.inl (natToChars_mem hc)
  · exact Or.inl (natToChars_mem hc)

theorem intToChars_ne_nil (n : Int) : intToChars n ≠ [] := by
  rw [intToChars]
  split
  · simp
  · exact natToChars_ne_nil _

theorem digitB_ne_dash {c : Char} (h : digitB c = true) : c ≠ '-' := by
  intro hc
  subst hc
  exact absurd h (by decide)

theorem intOfDigits_intToChars (n : Int) : intOfDigits (intToChars n) = some n := by
  rw [intToChars]
  split
  · rename_i hneg
    rw [intOfDigits]
    rw [if_pos rfl]
    have hall : (natToChars (-n).toNat).all digitB = true :=
      List.all_eq_true.mpr (fun c hc => natToChars_mem hc)
    have hne : (natToChars (-n).toNat).isEmpty = false := by
      rw [List.isEmpty_eq_false]
      exact natToChars_ne_nil _
    rw [hne, hall]
    simp only [Bool.not_false, Bool.and_self, if_true]
    rw [natToChars_val]
    congr 1
    omega
  · rename_i hpos
    push_neg at hpos
    cases hcs : natToChars n.toNat with
    | nil => exact absurd hcs (natToChars_ne_nil _)
    | cons c d =>
      rw [intOfDigits]
      have hcd : digitB c = true := natToChars_mem (hcs ▸ List.mem_cons_self c d)
      rw [if_neg (digitB_ne_dash hcd)]
      have hall : (c :: d).all digitB = true :=
        List.all_eq_true.mpr (fun x hx => natToChars_mem (hcs ▸ hx))
      rw [if_pos hall, ← hcs, natToChars_val]
      congr 1
      omega


/-! ## Character-class elimination and escape-map facts -/

theorem wsChar_elim {c : Char} (h : wsChar c = true) :
    c = ' ' ∨ c = '\n' ∨ c = '\t' := by
  rw [wsChar] at h
  simpa using h

theorem isPyWs_elim {c : Char} (h : isPyWs c = true) :
    c = ' ' ∨ c = '\t' ∨ c = '\n' ∨ c = '\x0d' ∨ c = '\x0b' ∨ c = '\x0c' := by
  rw [isPyWs] at h
  simpa using h

theorem numChar_facts {c : Char} (h : numChar c = true) :
    wsChar c = false ∧ isPyWs c = false ∧ c ≠ '\\' ∧ c ≠ '\'' ∧ c ≠ '"' ∧
      c ≠ ']' ∧ c ≠ '}' ∧ c ≠ ',' ∧ c ≠ '\n' ∧ c ≠ 'v' := by
  refine ⟨?_, ?_, ?_, ?_, ?_, ?_, ?_, ?_, ?_, ?_⟩
  · by_contra h'
    rw [Bool.not_eq_false] at h'
    rcases wsChar_elim h' with rfl | rfl | rfl <;> exact absurd h (by decide)
  · by_contra h'
    rw [Bool.not_eq_false] at h'
    rcases isPyWs_elim h' with rfl | rfl | rfl | rfl | rfl | rfl <;>
      exact absurd h (by decide)
  all_goals intro hc
  all_goals subst hc
  all_goals exact absurd h (by decide)

theorem keyChar_facts {c : Char} (h : (c.isAlphanum || decide (c = '_')) = true) :
    c ≠ ':' ∧ c ≠ '\'' ∧ c ≠ '\\' ∧ c ≠ '"' ∧ c ≠ '\n' ∧ c ≠ '\x0d' ∧
      isPyWs c = false ∧ wsChar c = false := by
  refine ⟨?_, ?_, ?_, ?_, ?_, ?_, ?_, ?_⟩
  · intro hc; subst hc; exact absurd h (by decide)
  · intro hc; subst hc; exact absurd h (by decide)
  · intro hc; subst hc; exact absurd h (by decide)
  · intro hc; subst hc; exact absurd h (by decide)
  · intro hc; subst hc; exact absurd h (by decide)
  · intro hc; subst hc; exact absurd h (by decide)
  · by_contra h'
    rw [Bool.not_eq_false] at h'
    rcases isPyWs_elim h' with rfl | rfl | rfl | rfl | rfl | rfl <;>
      exact absurd h (by decide)
  · by_contra h'
    rw [Bool.not_eq_false] at h'
    rcases wsChar_elim h' with rfl | rfl | rfl <;> exact absurd h (by decide)

theorem floatOk_parts {f : List Char} (h : floatOkB f = true) :
    f.all numChar = true ∧ (∃ d, f.getLast? = some d ∧ digitB d = true) ∧
      f.any (fun c => c = '.' || c = 'e' || c = 'E') = true := by
  rw [floatOkB] at h
  simp only [Bool.and_eq_true] at h
  refine ⟨h.1.1.2, ?_, h.2⟩
  have h3 := h.1.2
  cases hl : f.getLast? with
  | none => rw [hl] at h3; simp at h3
  | some d => rw [hl] at h3; exact ⟨d, rfl, by simpa using h3⟩

theorem escShape_sq : EscShape sqEscChar := by
  intro c
  by_cases h : c = '\''
  · exact Or.inr ⟨'\'', '\'', by simp [sqEscChar, h]⟩
  · exact Or.inl (by simp [sqEscChar, h])

theorem escShape_dq : EscShape dqEscChar := by
  intro c
  by_cases h1 : c = '\\'
  · exact Or.inr ⟨'\\', '\\', by simp [dqEscChar, h1]⟩
  · by_cases h2 : c = '"'
    · exact Or.inr ⟨'\\', '"', by simp [dqEscChar, h1, h2]⟩
    · by_cases h3 : c = '\n'
      · exact Or.inr ⟨'\\', 'n', by simp [dqEscChar, h1, h2, h3]⟩
      · exact Or.inl (by simp [dqEscChar, h1, h2, h3])

theorem sqEscChar_pair {c a b : Char} (hf : sqEscChar c = [a, b]) :
    a = '\'' ∧ b = '\'' := by
  rw [sqEscChar] at hf
  split at hf
  · injection hf with h1 h2
    injection h2 with h3
    exact ⟨h1.symm, h3.symm⟩
  · cases hf

theorem dqEscChar_pair {c a b : Char} (hf : dqEscChar c = [a, b]) :
    a = '\\' ∧ (b = '\\' ∨ b = '"' ∨ b = 'n') := by
  rw [dqEscChar] at hf
  split at hf
  · injection hf with h1 h2
    injection h2 with h3
    exact ⟨h1.symm, Or.inl h3.symm⟩
  · split at hf
    · injection hf with h1 h2
      injection h2 with h3
      exact ⟨h1.symm, Or.inr (Or.inl h3.symm)⟩
    · split at hf
      · injection hf with h1 h2
        injection h2 with h3
        exact ⟨h1.symm, Or.inr (Or.inr h3.symm)⟩
      · cases hf

theorem not_infix_sqEsc {tok s : List Char} (hq : '\'' ∉ tok)
    (hh : tok.head? = some 'v') (h : ¬ tok <:+: s) :
    ¬ tok <:+: s.flatMap sqEscChar := by
  refine not_infix_flatMap_esc sqEscChar escShape_sq ?_ ?_ h
  · intro c a b hf
    rw [(sqEscChar_pair hf).1]
    exact hq
  · intro c a b hf
    rw [(sqEscChar_pair hf).2, hh]
    intro hcon
    rw [Option.some_inj] at hcon
    exact absurd hcon (by decide)

theorem not_infix_dqEsc {tok s : List Char} (hb : '\\' ∉ tok)
    (hh : tok.head? = some 'v') (h : ¬ tok <:+: s) :
    ¬ tok <:+: s.flatMap dqEscChar := by
  refine not_infix_flatMap_esc dqEscChar escShape_dq ?_ ?_ h
  · intro c a b hf
    rw [(dqEscChar_pair hf).1]
    exact hb
  · intro c a b hf
    rw [hh]
    intro hcon
    rw [Option.some_inj] at hcon
    rcases (dqEscChar_pair hf).2 with rfl | rfl | rfl <;> exact absurd hcon (by decide)

theorem strOk_parts {s : List Char} (h : strOkB s = true) :
    ¬ (("v:null").data) <:+: s ∧ ¬ (("v:true").data) <:+: s ∧
    ¬ (("v:false").data) <:+: s ∧ '\x0d' ∉ s ∧ '\x00' ∉ s ∧
    ('\n' ∈ s → s.getLast? ≠ some '\\') := by
  rw [strOkB] at h
  simp only [Bool.and_eq_true, Bool.not_eq_true'] at h
  obtain ⟨⟨⟨⟨⟨hN, hT⟩, hF⟩, hr⟩, h0⟩, hnl⟩ := h
  refine ⟨?_, ?_, ?_, ?_, ?_, ?_⟩
  · intro hinf
    rw [← containsSub_iff] at hinf
    rw [hinf] at hN
    cases hN
  · intro hinf
    rw [← containsSub_iff] at hinf
    rw [hinf] at hT
    cases hT
  · intro hinf
    rw [← containsSub_iff] at hinf
    rw [hinf] at hF
    cases hF
  · intro hm
    have : s.elem '\x0d' = true := List.elem_eq_true_of_mem hm
    rw [this] at hr
    cases hr
  · intro hm
    have : s.elem '\x00' = true := List.elem_eq_true_of_mem hm
    rw [this] at h0
    cases h0
  · intro hm hlast
    simp only [Bool.or_eq_true, Bool.not_eq_true'] at hnl
    rcases hnl with h1 | h2
    · have : s.elem '\n' = true := List.elem_eq_true_of_mem hm
      rw [this] at h1
      cases h1
    · 
      have : (s.getLast? == some '\\') = true := by
        rw [hlast]
        simp
      rw [this] at h2
      cases h2

theorem nl_not_mem_sqEsc {s : List Char} (h : '\n' ∉ s) :
    '\n' ∉ s.flatMap sqEscChar := by
  intro hm
  rw [List.mem_flatMap] at hm
  obtain ⟨a, ha, hmem⟩ := hm
  rw [sqEscChar] at hmem
  split at hmem
  · simp at hmem
  · rw [List.mem_singleton] at hmem
    exact h (hmem ▸ ha)

theorem nl_not_mem_dqEsc (s : List Char) : '\n' ∉ s.flatMap dqEscChar := by
  intro hm
  rw [List.mem_flatMap] at hm
  obtain ⟨a, ha, hmem⟩ := hm
  rw [dqEscChar] at hmem
  split at hmem
  · simp at hmem
  · split at hmem
    · simp at hmem
    · split at hmem
      · simp at hmem
      · rename_i h1 h2 h3
        rw [List.mem_singleton] at hmem
        exact h3 hmem.symm

/-! ## Phase 2 over whole renderings -/

theorem getLast_wrap (q : Char) (m : List Char) :
    (q :: (m ++ [q])).getLast? = some q := by
  rw [← List.cons_append, List.getLast?_concat]

theorem goodL_parts {v : VimValue} {r : VimList} (h : goodL (.cons v r) = true) :
    goodV v = true ∧ goodL r = true := by
  rw [goodL, Bool.and_eq_true] at h
  exact h

theorem goodD_parts {k : List Char} {v : VimValue} {r : VimDict}
    (h : goodD (.cons k v r) = true) :
    keyOkB k = true ∧ goodV v = true ∧ goodD r = true := by
  rw [goodD] at h
  simp only [Bool.and_eq_true] at h
  exact ⟨h.1.1, h.1.2, h.2⟩

theorem keyOk_parts {k : List Char} (hok : keyOkB k = true) :
    k ≠ [] ∧ ∀ c ∈ k, (c.isAlphanum || decide (c = '_')) = true := by
  rw [keyOkB] at hok
  rw [Bool.and_eq_true] at hok
  constructor
  · intro hnil
    rw [hnil] at hok
    simp at hok
  · exact List.all_eq_true.mp hok.2

theorem rep3_fmt_str {s : List Char} (hok : strOkB s = true) (i : Nat)
    (rest : List Char) :
    rep3 (format_vim_value (.str s) i ++ rest) = mid1V (.str s) i ++ rep3 rest := by
  obtain ⟨hN, hT, hF, _, _, _⟩ := strOk_parts hok
  rw [format_vim_value, mid1V]
  by_cases hmem : ('\n') ∈ s
  · rw [if_pos hmem, escape_vim_double_quoted_eq_flatMap]
    refine rep3_seg ?_ ?_ ?_ ?_ rest
    · exact not_infix_wrap (by decide) (by decide) (by decide)
        (not_infix_dqEsc (by decide) (by decide) hN)
    · exact not_infix_wrap (by decide) (by decide) (by decide)
        (not_infix_dqEsc (by decide) (by decide) hT)
    · exact not_infix_wrap (by decide) (by decide) (by decide)
        (not_infix_dqEsc (by decide) (by decide) hF)
    · intro c hc
      rw [getLast_wrap, Option.some_inj] at hc
      subst hc
      exact ⟨by decide, by decide, by decide⟩
  · rw [if_neg hmem, escape_vim_single_quoted_eq_flatMap]
    refine rep3_seg ?_ ?_ ?_ ?_ rest
    · exact not_infix_wrap (by decide) (by decide) (by decide)
        (not_infix_sqEsc (by decide) (by decide) hN)
    · exact not_infix_wrap (by decide) (by decide) (by decide)
        (not_infix_sqEsc (by decide) (by decide) hT)
    · exact not_infix_wrap (by decide) (by decide) (by decide)
        (not_infix_sqEsc (by decide) (by decide) hF)
    · intro c hc
      rw [getLast_wrap, Option.some_inj] at hc
      subst hc
      exact ⟨by decide, by decide, by decide⟩

theorem rep3_fmt_int (n : Int) (i : Nat) (rest : List Char) :
    rep3 (format_vim_value (.int n) i ++ rest) = mid1V (.int n) i ++ rep3 rest := by
  rw [format_vim_value, mid1V]
  have hnotv : 'v' ∉ intToChars n := by
    intro hm
    rcases intToChars_mem hm with hd | hd
    · exact absurd hd (by decide)
    · exact absurd hd (by decide)
  refine rep3_seg ?_ ?_ ?_ ?_ rest
  · exact not_infix_of_not_mem (show 'v' ∈ (("v:null").data) by decide) hnotv
  · exact not_infix_of_not_mem (show 'v' ∈ (("v:true").data) by decide) hnotv
  · exact not_infix_of_not_mem (show 'v' ∈ (("v:false").data) by decide) hnotv
  · intro c hc
    have hcm : c ∈ intToChars n := List.mem_of_mem_getLast? hc
    rcases intToChars_mem hcm with hd | hd
    · exact digitB_not_in_toks hd
    · subst hd
      exact dash_not_in_toks

theorem rep3_fmt_float {f : List Char} (hok : floatOkB f = true) (i : Nat)
    (rest : List Char) :
    rep3 (format_vim_value (.float f) i ++ rest) = mid1V (.float f) i ++ rep3 rest := by
  obtain ⟨hall, ⟨d, hd, hdig⟩, _⟩ := floatOk_parts hok
  rw [format_vim_value, mid1V]
  have hnotv : 'v' ∉ f := by
    intro hm
    have := List.all_eq_true.mp hall _ hm
    exact absurd this (by decide)
  refine rep3_seg ?_ ?_ ?_ ?_ rest
  · exact not_infix_of_not_mem (show 'v' ∈ (("v:null").data) by decide) hnotv
  · exact not_infix_of_not_mem (show 'v' ∈ (("v:true").data) by decide) hnotv
  · exact not_infix_of_not_mem (show 'v' ∈ (("v:false").data) by decide) hnotv
  · intro c hc
    rw [hd, Option.some_inj] at hc
    subst hc
    exact digitB_not_in_toks hdig

theorem rep3_entry_head {k : List Char} (hok : keyOkB k = true) (b : List Char) :
    rep3 (('\'' :: (k ++ ['\''])) ++ b) = ('\'' :: (k ++ ['\''])) ++ rep3 b := by
  obtain ⟨_, hall⟩ := keyOk_parts hok
  have hcolon : ∀ tok : List Char, ':' ∈ tok → ¬ tok <:+: ('\'' :: (k ++ ['\''])) := by
    intro tok htok
    refine not_infix_of_not_mem htok ?_
    intro hm
    rcases List.mem_cons.mp hm with hc | hc
    · exact absurd hc (by decide)
    · rcases List.mem_append.mp hc with hk | hq
      · exact absurd rfl (keyChar_facts (hall _ hk)).1
      · rw [List.mem_singleton] at hq
        exact absurd hq (by decide)
  refine rep3_seg ?_ ?_ ?_ ?_ b
  · exact hcolon _ (by decide)
  · exact hcolon _ (by decide)
  · exact hcolon _ (by decide)
  · intro c hc
    rw [getLast_wrap, Option.some_inj] at hc
    subst hc
    exact ⟨by decide, by decide, by decide⟩

theorem entry_decomp (k F tail : List Char) :
    ('\'' :: (k ++ '\'' :: ':' :: ' ' :: F)) ++ tail =
      ('\'' :: (k ++ ['\''])) ++ (':' :: ' ' :: (F ++ tail)) := by
  simp [List.append_assoc]

theorem joinComma_one (x : List Char) : joinComma [x] = x := rfl

theorem joinComma_pair (x y : List Char) (zs : List (List Char)) :
    joinComma (x :: y :: zs) = x ++ ',' :: ' ' :: joinComma (y :: zs) := rfl

theorem joinNl_one (x : List Char) : joinNl [x] = x := rfl

theorem joinNl_pair (x y : List Char) (zs : List (List Char)) :
    joinNl (x :: y :: zs) = x ++ '\n' :: joinNl (y :: zs) := rfl

theorem rep3_entry_head' {k : List Char} (hok : keyOkB k = true) (b : List Char) :
    rep3 ('\'' :: (k ++ '\'' :: b)) = '\'' :: (k ++ '\'' :: rep3 b) := by
  have h := rep3_entry_head hok b
  simpa [List.append_assoc] using h

theorem rep3_closer (i : Nat) (c : Char) (hc : c ≠ 'v') (rest : List Char) :
    rep3 ('\n' :: ((List.replicate i ' ' ++ [c]) ++ rest)) =
      '\n' :: ((List.replicate i ' ' ++ [c]) ++ rep3 rest) := by
  rw [rep3_cons_ne_v (by decide) _, List.append_assoc, List.singleton_append,
    rep3_spaces, rep3_cons_ne_v hc _]
  simp [List.append_assoc]

mutual

theorem rep3_fmtV : ∀ (v : VimValue) (i : Nat) (rest : List Char), goodV v = true →
    rep3 (format_vim_value v i ++ rest) = mid1V v i ++ rep3 rest
  | .null, _, rest, _ => by
    rw [format_vim_value, mid1V]
    exact rep3_null rest
  | .bool b, _, rest, _ => by
    cases b
    · rw [format_vim_value, mid1V, if_neg (by decide : ¬ ((false : Bool) = true))]
      exact rep3_false rest
    · rw [format_vim_value, mid1V, if_pos (by decide : (true : Bool) = true)]
      exact rep3_true rest
  | .int n, i, rest, _ => rep3_fmt_int n i rest
  | .float f, i, rest, h => rep3_fmt_float (by rwa [goodV] at h) i rest
  | .str s, i, rest, h => rep3_fmt_str (by rwa [goodV] at h) i rest
  | .list .nil, _, rest, _ => by
    rw [format_vim_value, mid1V]
    have h1 : (['[', ']'] : List Char) ++ rest = '[' :: ']' :: rest := rfl
    rw [h1, rep3_cons_ne_v (by decide) _, rep3_cons_ne_v (by decide) _]
    rfl
  | .list (.cons v r), i, rest, h => by
    have hg : goodL (.cons v r) = true := by rwa [goodV] at h
    simp only [format_vim_value, mid1V]
    by_cases hs : listSimple (.cons v r) = true
    · rw [if_pos hs, if_pos hs]
      rw [List.cons_append, rep3_cons_ne_v (by decide) _, List.append_assoc,
        List.singleton_append,
        rep3_fmtItemsJ (.cons v r) i (']' :: rest) hg,
        rep3_cons_ne_v (by decide) _]
      simp [List.append_assoc]
    · rw [if_neg hs, if_neg hs]
      rw [List.cons_append, List.cons_append, rep3_cons_ne_v (by decide) _,
        rep3_cons_ne_v (by decide) _, List.append_assoc, List.cons_append,
        rep3_fmtItemsL (.cons v r) i (i + 2)
          ('\n' :: ((List.replicate i ' ' ++ [']']) ++ rest)) hg,
        rep3_closer i ']' (by decide) rest]
      simp [List.append_assoc]
  | .dict .nil, _, rest, _ => by
    rw [format_vim_value, mid1V]
    have h1 : (['{', '}'] : List Char) ++ rest = '{' :: '}' :: rest := rfl
    rw [h1, rep3_cons_ne_v (by decide) _, rep3_cons_ne_v (by decide) _]
    rfl
  | .dict (.cons k v r), i, rest, h => by
    have hg : goodD (.cons k v r) = true :=
      ((Bool.and_eq_true _ _) ▸ (by rwa [goodV] at h :
        (distinctB (keysOf (.cons k v r)) && goodD (.cons k v r)) = true)).2
    simp only [format_vim_value, mid1V]
    by_cases hs : (decide (sumLens (fmtEntries (.cons k v r) i) < 60) &&
        (fmtEntries (.cons k v r) i).all (fun it => !(it.elem '\n'))) = true
    · rw [if_pos hs, if_pos hs]
      rw [List.cons_append, rep3_cons_ne_v (by decide) _, List.append_assoc,
        List.singleton_append,
        rep3_fmtEntriesJ (.cons k v r) i ('}' :: rest) hg,
        rep3_cons_ne_v (by decide) _]
      simp [List.append_assoc]
    · rw [if_neg hs, if_neg hs]
      rw [List.cons_append, List.cons_append, rep3_cons_ne_v (by decide) _,
        rep3_cons_ne_v (by decide) _, List.append_assoc, List.cons_append,
        rep3_fmtEntriesL (.cons k v r) i (i + 2)
          ('\n' :: ((List.replicate i ' ' ++ ['}']) ++ rest)) hg,
        rep3_closer i '}' (by decide) rest]
      simp [List.append_assoc]

theorem rep3_fmtItemsJ : ∀ (xs : VimList) (i : Nat) (rest : List Char),
    goodL xs = true →
    rep3 (joinComma (fmtItems xs i) ++ rest) =
      joinComma (mid1Items xs i) ++ rep3 rest
  | .nil, _, rest, _ => by
    simp [fmtItems, mid1Items, joinComma]
  | .cons v .nil, i, rest, h => by
    rw [fmtItems, fmtItems, mid1Items, mid1Items]
    have h1 : joinComma [format_vim_value v (i + 2)] = format_vim_value v (i + 2) := rfl
    have h2 : joinComma [mid1V v (i + 2)] = mid1V v (i + 2) := rfl
    rw [h1, h2]
    exact rep3_fmtV v (i + 2) rest (goodL_parts h).1
  | .cons v (.cons v2 r2), i, rest, h => by
    rw [fmtItems, mid1Items]
    cases hfi : fmtItems (.cons v2 r2) i with
    | nil => exact absurd hfi (by rw [fmtItems]; simp)
    | cons m ms =>
      cases hmi : mid1Items (.cons v2 r2) i with
      | nil => exact absurd hmi (by rw [mid1Items]; simp)
      | cons m2 ms2 =>
        have h1 : ∀ (x y : List Char) (zs : List (List Char)),
            joinComma (x :: y :: zs) = x ++ ',' :: ' ' :: joinComma (y :: zs) :=
          fun x y zs => rfl
        rw [h1, h1, List.append_assoc, List.cons_append, List.cons_append]
        rw [rep3_fmtV v (i + 2) (',' :: ' ' :: (joinComma (m :: ms) ++ rest))
          (goodL_parts h).1]
        rw [rep3_cons_ne_v (by decide) _, rep3_cons_ne_v (by decide) _,
          ← hfi, ← hmi, rep3_fmtItemsJ (.cons v2 r2) i rest (goodL_parts h).2]
        simp [List.append_assoc]

theorem rep3_fmtItemsL : ∀ (xs : VimList) (i ind : Nat) (rest : List Char),
    goodL xs = true →
    rep3 (joinNl ((fmtItems xs i).map
        (fun it => List.replicate ind ' ' ++ it ++ [','])) ++ rest) =
      joinNl ((mid1Items xs i).map
        (fun it => List.replicate ind ' ' ++ it ++ [','])) ++ rep3 rest
  | .nil, _, _, rest, _ => by
    simp [fmtItems, mid1Items, joinNl]
  | .cons v .nil, i, ind, rest, h => by
    rw [fmtItems, fmtItems, mid1Items, mid1Items, List.map_cons, List.map_nil,
      List.map_cons, List.map_nil, joinNl_one, joinNl_one]
    simp only [List.append_assoc, List.cons_append, List.singleton_append,
          List.nil_append]
    rw [rep3_spaces, rep3_fmtV v (i + 2) (',' :: rest) (goodL_parts h).1,
      rep3_cons_ne_v (by decide) _]
  | .cons v (.cons v2 r2), i, ind, rest, h => by
    rw [fmtItems, mid1Items, List.map_cons, List.map_cons]
    cases hmap : (fmtItems (.cons v2 r2) i).map
        (fun it => List.replicate ind ' ' ++ it ++ [',']) with
    | nil => exact absurd hmap (by rw [fmtItems]; simp)
    | cons m ms =>
      cases hmap2 : (mid1Items (.cons v2 r2) i).map
          (fun it => List.replicate ind ' ' ++ it ++ [',']) with
      | nil => exact absurd hmap2 (by rw [mid1Items]; simp)
      | cons m2 ms2 =>
        rw [joinNl_pair, joinNl_pair]
        simp only [List.append_assoc, List.cons_append, List.singleton_append,
          List.nil_append]
        rw [rep3_spaces,
          rep3_fmtV v (i + 2)
            (',' :: '\n' :: (joinNl (m :: ms) ++ rest)) (goodL_parts h).1,
          rep3_cons_ne_v (by decide) _, rep3_cons_ne_v (by decide) _,
          ← hmap, ← hmap2,
          rep3_fmtItemsL (.cons v2 r2) i ind rest (goodL_parts h).2]

theorem rep3_fmtEntriesJ : ∀ (xs : VimDict) (i : Nat) (rest : List Char),
    goodD xs = true →
    rep3 (joinComma (fmtEntries xs i) ++ rest) =
      joinComma (mid1Entries xs i) ++ rep3 rest
  | .nil, _, rest, _ => by
    simp [fmtEntries, mid1Entries, joinComma]
  | .cons k v .nil, i, rest, h => by
    rw [fmtEntries, fmtEntries, mid1Entries, mid1Entries, joinComma_one,
      joinComma_one]
    obtain ⟨hk, hv, _⟩ := goodD_parts h
    simp only [List.append_assoc, List.cons_append, List.nil_append]
    rw [rep3_entry_head' hk, rep3_cons_ne_v (by decide) _,
      rep3_cons_ne_v (by decide) _, rep3_fmtV v (i + 2) rest hv]
  | .cons k v (.cons k2 v2 r2), i, rest, h => by
    rw [fmtEntries, mid1Entries]
    obtain ⟨hk, hv, hrest⟩ := goodD_parts h
    cases hfe : fmtEntries (.cons k2 v2 r2) i with
    | nil => exact absurd hfe (by rw [fmtEntries]; simp)
    | cons e es =>
      cases hme : mid1Entries (.cons k2 v2 r2) i with
      | nil => exact absurd hme (by rw [mid1Entries]; simp)
      | cons e2 es2 =>
        rw [joinComma_pair, joinComma_pair]
        simp only [List.append_assoc, List.cons_append, List.nil_append]
        rw [rep3_entry_head' hk, rep3_cons_ne_v (by decide) _,
          rep3_cons_ne_v (by decide) _,
          rep3_fmtV v (i + 2) (',' :: ' ' :: (joinComma (e :: es) ++ rest)) hv,
          rep3_cons_ne_v (by decide) _, rep3_cons_ne_v (by decide) _,
          ← hfe, ← hme, rep3_fmtEntriesJ (.cons k2 v2 r2) i rest hrest]

theorem rep3_fmtEntriesL : ∀ (xs : VimDict) (i ind : Nat) (rest : List Char),
    goodD xs = true →
    rep3 (joinNl ((fmtEntries xs i).map
        (fun it => List.replicate ind ' ' ++ it ++ [','])) ++ rest) =
      joinNl ((mid1Entries xs i).map
        (fun it => List.replicate ind ' ' ++ it ++ [','])) ++ rep3 rest
  | .nil, _, _, rest, _ => by
    simp [fmtEntries, mid1Entries, joinNl]
  | .cons k v .nil, i, ind, rest, h => by
    rw [fmtEntries, fmtEntries, mid1Entries, mid1Entries, List.map_cons,
      List.map_nil, List.map_cons, List.map_nil, joinNl_one, joinNl_one]
    obtain ⟨hk, hv, _⟩ := goodD_parts h
    simp only [List.append_assoc, List.cons_append, List.singleton_append,
          List.nil_append]
    rw [rep3_spaces, rep3_entry_head' hk, rep3_cons_ne_v (by decide) _,
      rep3_cons_ne_v (by decide) _, rep3_fmtV v (i + 2) (',' :: rest) hv,
      rep3_cons_ne_v (by decide) _]
  | .cons k v (.cons k2 v2 r2), i, ind, rest, h => by
    rw [fmtEntries, mid1Entries, List.map_cons, List.map_cons]
    obtain ⟨hk, hv, hrest⟩ := goodD_parts h
    cases hmap : (fmtEntries (.cons k2 v2 r2) i).map
        (fun it => List.replicate ind ' ' ++ it ++ [',']) with
    | nil => exact absurd hmap (by rw [fmtEntries]; simp)
    | cons m ms =>
      cases hmap2 : (mid1Entries (.cons k2 v2 r2) i).map
          (fun it => List.replicate ind ' ' ++ it ++ [',']) with
      | nil => exact absurd hmap2 (by rw [mid1Entries]; simp)
      | cons m2 ms2 =>
        rw [joinNl_pair, joinNl_pair]
        simp only [List.append_assoc, List.cons_append, List.singleton_append,
          List.nil_append]
        rw [rep3_spaces, rep3_entry_head' hk, rep3_cons_ne_v (by decide) _,
          rep3_cons_ne_v (by decide) _,
          rep3_fmtV v (i + 2)
            (',' :: '\n' :: (joinNl (m :: ms) ++ rest)) hv,
          rep3_cons_ne_v (by decide) _, rep3_cons_ne_v (by decide) _,
          ← hmap, ← hmap2,
          rep3_fmtEntriesL (.cons k2 v2 r2) i ind rest hrest]

end

/-! ## Phase-3 transport: the string-relexing scan -/

theorem relexGo_top_nil (out : List Char) : relexGo .top out [] = out := rfl

theorem relexGo_top_sq (out r : List Char) :
    relexGo .top out ('\'' :: r) = relexGo (.sq []) out r := by
  rw [relexGo, if_pos rfl]

theorem relexGo_top_dq (out r : List Char) :
    relexGo .top out ('"' :: r) = relexGo (.dq '"') (out ++ ['"']) r := by
  rw [relexGo, if_neg (by decide), if_pos rfl]

theorem relexGo_top_char {c : Char} (h1 : c ≠ '\'') (h2 : c ≠ '"')
    (out r : List Char) :
    relexGo .top out (c :: r) = relexGo .top (out ++ [c]) r := by
  rw [relexGo, if_neg h1, if_neg h2]

theorem relexGo_sq_quote (inner out r : List Char) :
    relexGo (.sq inner) out ('\'' :: r) = relexGo (.sqQuote inner) out r := by
  rw [relexGo, if_pos rfl]

theorem relexGo_sq_char {c : Char} (hc : c ≠ '\'') (inner out r : List Char) :
    relexGo (.sq inner) out (c :: r) = relexGo (.sq (inner ++ [c])) out r := by
  rw [relexGo, if_neg hc]

theorem relexGo_sqQuote_nil (inner out : List Char) :
    relexGo (.sqQuote inner) out [] = out ++ sqEmit inner := rfl

theorem relexGo_sqQuote_quote (inner out r : List Char) :
    relexGo (.sqQuote inner) out ('\'' :: r) = relexGo (.sq (inner ++ ['\''])) out r := by
  rw [relexGo, if_pos rfl]

theorem relexGo_sqQuote_dq (inner out r : List Char) :
    relexGo (.sqQuote inner) out ('"' :: r) =
      relexGo (.dq '"') (out ++ sqEmit inner ++ ['"']) r := by
  rw [relexGo, if_neg (by decide), if_pos rfl]

theorem relexGo_sqQuote_char {c : Char} (h1 : c ≠ '\'') (h2 : c ≠ '"')
    (inner out r : List Char) :
    relexGo (.sqQuote inner) out (c :: r) =
      relexGo .top (out ++ sqEmit inner ++ [c]) r := by
  rw [relexGo, if_neg h1, if_neg h2]

theorem relexGo_dq_close {prev : Char} (hp : prev ≠ '\\') (out r : List Char) :
    relexGo (.dq prev) out ('"' :: r) = relexGo .top (out ++ ['"']) r := by
  rw [relexGo, if_pos ⟨rfl, hp⟩]

theorem relexGo_dq_char {c prev : Char} (h : ¬ (c = '"' ∧ prev ≠ '\\'))
    (out r : List Char) :
    relexGo (.dq prev) out (c :: r) = relexGo (.dq c) (out ++ [c]) r := by
  rw [relexGo, if_neg h]

theorem relexGo_top_seg : ∀ (seg : List Char),
    (∀ c ∈ seg, c ≠ '\'' ∧ c ≠ '"') →
    ∀ (out rest : List Char),
      relexGo .top out (seg ++ rest) = relexGo .top (out ++ seg) rest
  | [], _, out, rest => by simp
  | c :: t, hseg, out, rest => by
    rw [List.cons_append,
      relexGo_top_char (hseg c (List.mem_cons_self c t)).1
        (hseg c (List.mem_cons_self c t)).2,
      relexGo_top_seg t (fun d hd => hseg d (List.mem_cons_of_mem c hd))]
    have : (out ++ [c]) ++ t = out ++ c :: t := by simp
    rw [this]

theorem relexGo_sq_esc : ∀ (s inner out rest : List Char),
    rest.head? ≠ some '\'' →
    relexGo (.sq inner) out (s.flatMap sqEscChar ++ ('\'' :: rest)) =
      relexGo .top (out ++ sqEmit (inner ++ s)) rest
  | [], inner, out, rest, hrest => by
    rw [List.flatMap_nil, List.nil_append, relexGo_sq_quote, List.append_nil]
    cases rest with
    | nil => rw [relexGo_sqQuote_nil, relexGo_top_nil]
    | cons c r =>
      have hc : c ≠ '\'' := by
        intro hcon
        rw [hcon] at hrest
        exact hrest rfl
      by_cases hq : c = '"'
      · subst hq
        rw [relexGo_sqQuote_dq, relexGo_top_dq]
      · rw [relexGo_sqQuote_char hc hq, relexGo_top_char hc hq]
  | c :: s', inner, out, rest, hrest => by
    rw [List.flatMap_cons]
    by_cases hc : c = '\''
    · subst hc
      have hfc : sqEscChar '\'' = ['\'', '\''] := rfl
      rw [hfc, List.append_assoc, List.cons_append, List.cons_append,
        List.nil_append, relexGo_sq_quote, relexGo_sqQuote_quote,
        relexGo_sq_esc s' (inner ++ ['\'']) out rest hrest]
      have : (inner ++ ['\'']) ++ s' = inner ++ '\'' :: s' := by simp
      rw [this]
    · have hfc : sqEscChar c = [c] := by rw [sqEscChar, if_neg hc]
      rw [hfc, List.append_assoc, List.singleton_append, relexGo_sq_char hc,
        relexGo_sq_esc s' (inner ++ [c]) out rest hrest]
      have : (inner ++ [c]) ++ s' = inner ++ c :: s' := by simp
      rw [this]

theorem getLastD_transfer {pre flat : List Char} {prev c' : Char}
    (hpre : pre.getLast? = some c')
    (h : ((pre ++ flat).getLast?.getD prev) ≠ '\\') :
    flat.getLast?.getD c' ≠ '\\' := by
  cases hf : flat.getLast? with
  | none =>
    have hfe : flat = [] := List.getLast?_eq_none_iff.mp hf
    subst hfe
    rw [List.append_nil, hpre] at h
    simpa using h
  | some d =>
    have hne : flat ≠ [] := by
      intro hcon
      rw [hcon] at hf
      simp at hf
    rw [List.getLast?_append_of_ne_nil _ hne, hf] at h
    simpa using h

theorem relexGo_dq_esc : ∀ (s : List Char) (prev : Char) (out rest : List Char),
    (s.flatMap dqEscChar).getLast?.getD prev ≠ '\\' →
    relexGo (.dq prev) out (s.flatMap dqEscChar ++ ('"' :: rest)) =
      relexGo .top ((out ++ s.flatMap dqEscChar) ++ ['"']) rest
  | [], prev, out, rest, hlast => by
    rw [List.flatMap_nil, List.nil_append, List.append_nil]
    have hp : prev ≠ '\\' := by simpa using hlast
    rw [relexGo_dq_close hp]
  | c :: s', prev, out, rest, hlast => by
    rw [List.flatMap_cons] at hlast ⊢
    by_cases h1 : c = '\\'
    · subst h1
      have hfc : dqEscChar '\\' = ['\\', '\\'] := rfl
      rw [hfc] at hlast ⊢
      rw [List.append_assoc, List.cons_append, List.cons_append, List.nil_append,
        relexGo_dq_char (fun hcon => absurd hcon.1 (by decide)),
        relexGo_dq_char (fun hcon => absurd hcon.1 (by decide)),
        relexGo_dq_esc s' '\\' ((out ++ ['\\']) ++ ['\\']) rest
          (getLastD_transfer (by rfl) hlast)]
      have : ((out ++ ['\\']) ++ ['\\']) ++ s'.flatMap dqEscChar =
          out ++ ('\\' :: '\\' :: s'.flatMap dqEscChar) := by simp
      rw [this]
      simp [List.append_assoc]

    · by_cases h2 : c = '"'
      · subst h2
        have hfc : dqEscChar '"' = ['\\', '"'] := rfl
        rw [hfc] at hlast ⊢
        rw [List.append_assoc, List.cons_append, List.cons_append, List.nil_append,
          relexGo_dq_char (fun hcon => absurd hcon.1 (by decide)),
          relexGo_dq_char (fun hcon => hcon.2 rfl),
          relexGo_dq_esc s' '"' ((out ++ ['\\']) ++ ['"']) rest
            (getLastD_transfer (by rfl) hlast)]
        have : ((out ++ ['\\']) ++ ['"']) ++ s'.flatMap dqEscChar =
            out ++ ('\\' :: '"' :: s'.flatMap dqEscChar) := by simp
        rw [this]
        simp [List.append_assoc]

      · by_cases h3 : c = '\n'
        · subst h3
          have hfc : dqEscChar '\n' = ['\\', 'n'] := rfl
          rw [hfc] at hlast ⊢
          rw [List.append_assoc, List.cons_append, List.cons_append, List.nil_append,
            relexGo_dq_char (fun hcon => absurd hcon.1 (by decide)),
            relexGo_dq_char (fun hcon => absurd hcon.1 (by decide)),
            relexGo_dq_esc s' 'n' ((out ++ ['\\']) ++ ['n']) rest
              (getLastD_transfer (by rfl) hlast)]
          have : ((out ++ ['\\']) ++ ['n']) ++ s'.flatMap dqEscChar =
              out ++ ('\\' :: 'n' :: s'.flatMap dqEscChar) := by simp
          rw [this]
          simp [List.append_assoc]

        · have hfc : dqEscChar c = [c] := by
            rw [dqEscChar, if_neg h1, if_neg h2, if_neg h3]
          rw [hfc] at hlast ⊢
          rw [List.append_assoc, List.singleton_append,
            relexGo_dq_char (fun hcon => absurd hcon.1 h2),
            relexGo_dq_esc s' c (out ++ [c]) rest
              (getLastD_transfer (by rfl) hlast)]
          have : (out ++ [c]) ++ s'.flatMap dqEscChar =
              out ++ (c :: s'.flatMap dqEscChar) := by simp
          rw [this]
          simp [List.append_assoc]


theorem escPy_eq_flatMap (s : List Char) :
    pyReplace ['"'] ['\\', '"'] (pyReplace ['\\'] ['\\', '\\'] s) =
      s.flatMap pyEscChar := by
  induction s with
  | nil => rfl
  | cons c t ih =>
    unfold pyReplace at *
    by_cases h1 : c = '\\'
    · subst h1
      simp [replaceSk, List.isPrefixOf, pyEscChar, ih]
    · have h1' : ('\\' == c) = false := by
        simp [beq_iff_eq]
        exact fun h => h1 h.symm
      by_cases h2 : c = '"'
      · subst h2
        simp [replaceSk, List.isPrefixOf, pyEscChar, h1', ih]
      · have h2' : ('"' == c) = false := by
          simp [beq_iff_eq]
          exact fun h => h2 h.symm
        simp [replaceSk, List.isPrefixOf, pyEscChar, h1, h2, h1', h2', ih]

theorem sqEmit_eq (inner : List Char) :
    sqEmit inner = '"' :: (inner.flatMap pyEscChar ++ ['"']) := by
  rw [sqEmit, escPy_eq_flatMap]

theorem flatMap_sqEscChar_id {k : List Char} (h : ∀ c ∈ k, c ≠ '\'') :
    k.flatMap sqEscChar = k := by
  induction k with
  | nil => rfl
  | cons c t ih =>
    rw [List.flatMap_cons, sqEscChar, if_neg (h c (List.mem_cons_self c t)),
      ih (fun d hd => h d (List.mem_cons_of_mem c hd))]
    rfl

theorem flatMap_pyEscChar_id {k : List Char} (h : ∀ c ∈ k, c ≠ '\\' ∧ c ≠ '"') :
    k.flatMap pyEscChar = k := by
  induction k with
  | nil => rfl
  | cons c t ih =>
    rw [List.flatMap_cons, pyEscChar, if_neg (h c (List.mem_cons_self c t)).1,
      if_neg (h c (List.mem_cons_self c t)).2,
      ih (fun d hd => h d (List.mem_cons_of_mem c hd))]
    rfl

theorem dqEsc_lastD (s : List Char) (q : Char) (hq : q ≠ '\\')
    (hlast : s.getLast? ≠ some '\\') :
    (s.flatMap dqEscChar).getLast?.getD q ≠ '\\' := by
  induction s using List.reverseRecOn with
  | nil => simpa using hq
  | append_singleton ys a _ =>
    have ha : a ≠ '\\' := by
      intro hcon
      rw [hcon] at hlast
      exact hlast (List.getLast?_concat ys)
    rw [List.flatMap_append]
    have hsingle : ([a] : List Char).flatMap dqEscChar = dqEscChar a := by simp
    rw [hsingle]
    by_cases h2 : a = '"'
    · subst h2
      rw [show dqEscChar '"' = ['\\', '"'] from rfl,
        List.getLast?_append_of_ne_nil _ (by simp)]
      simp
    · by_cases h3 : a = '\n'
      · subst h3
        rw [show dqEscChar '\n' = ['\\', 'n'] from rfl,
          List.getLast?_append_of_ne_nil _ (by simp)]
        simp
      · rw [show dqEscChar a = [a] from by rw [dqEscChar, if_neg ha, if_neg h2, if_neg h3],
          List.getLast?_append_of_ne_nil _ (by simp)]
        simpa using ha

theorem relexGo_top_spaces (n : Nat) (out rest : List Char) :
    relexGo .top out (List.replicate n ' ' ++ rest) =
      relexGo .top (out ++ List.replicate n ' ') rest :=
  relexGo_top_seg _
    (fun c hc => by rw [List.eq_of_mem_replicate hc]; exact ⟨by decide, by decide⟩)
    out rest

theorem head?_ne_quote {c : Char} (h : c ≠ '\'') (x : List Char) :
    (c :: x).head? ≠ some '\'' := by
  intro hcon
  rw [List.head?_cons, Option.some_inj] at hcon
  exact h hcon

theorem relexGo_key (k : List Char) (hk : keyOkB k = true) (out rest : List Char)
    (hrest : rest.head? ≠ some '\'') :
    relexGo .top out ('\'' :: (k ++ '\'' :: rest)) =
      relexGo .top (out ++ '"' :: (k ++ ['"'])) rest := by
  obtain ⟨_, hall⟩ := keyOk_parts hk
  have hq : ∀ c ∈ k, c ≠ '\'' := fun c hc => (keyChar_facts (hall c hc)).2.1
  rw [relexGo_top_sq]
  have hflat : k.flatMap sqEscChar = k := flatMap_sqEscChar_id hq
  nth_rewrite 1 [← hflat]
  rw [relexGo_sq_esc k [] out rest hrest, List.nil_append, sqEmit_eq,
    flatMap_pyEscChar_id
      (fun c hc => ⟨(keyChar_facts (hall c hc)).2.2.1,
        (keyChar_facts (hall c hc)).2.2.2.1⟩)]

mutual

theorem relex_midV : ∀ (v : VimValue) (i : Nat) (out rest : List Char),
    goodV v = true → rest.head? ≠ some '\'' →
    relexGo .top out (mid1V v i ++ rest) = relexGo .top (out ++ pySerV v i) rest
  | .null, _, out, rest, _, _ => by
    rw [mid1V, pySerV]
    exact relexGo_top_seg _ (by decide) out rest
  | .bool b, _, out, rest, _, _ => by
    cases b
    · rw [mid1V, pySerV, if_neg (by decide : ¬ ((false : Bool) = true))]
      exact relexGo_top_seg _ (by decide) out rest
    · rw [mid1V, pySerV, if_pos (by decide : (true : Bool) = true)]
      exact relexGo_top_seg _ (by decide) out rest
  | .int n, _, out, rest, _, _ => by
    rw [mid1V, pySerV]
    refine relexGo_top_seg _ ?_ out rest
    intro c hc
    rcases intToChars_mem hc with hd | hd
    · constructor
      · intro hcon; subst hcon; exact absurd hd (by decide)
      · intro hcon; subst hcon; exact absurd hd (by decide)
    · subst hd
      exact ⟨by decide, by decide⟩
  | .float f, _, out, rest, h, _ => by
    rw [goodV] at h
    obtain ⟨hall, _, _⟩ := floatOk_parts h
    rw [mid1V, pySerV]
    refine relexGo_top_seg _ ?_ out rest
    intro c hc
    have hn := List.all_eq_true.mp hall c hc
    exact ⟨(numChar_facts hn).2.2.2.1, (numChar_facts hn).2.2.2.2.1⟩
  | .str s, i, out, rest, h, hrest => by
    rw [goodV] at h
    obtain ⟨_, _, _, _, _, hbs⟩ := strOk_parts h
    rw [mid1V, pySerV]
    by_cases hmem : ('\n') ∈ s
    · rw [if_pos hmem, if_pos hmem, escape_vim_double_quoted_eq_flatMap]
      simp only [List.cons_append, List.append_assoc, List.singleton_append,
        List.nil_append]
      rw [relexGo_top_dq,
        relexGo_dq_esc s '"' (out ++ ['"']) rest
          (dqEsc_lastD s '"' (by decide) (hbs hmem))]
      simp [List.append_assoc]
    · rw [if_neg hmem, if_neg hmem, escape_vim_single_quoted_eq_flatMap]
      simp only [List.cons_append, List.append_assoc, List.singleton_append,
        List.nil_append]
      rw [relexGo_top_sq, relexGo_sq_esc s [] out rest hrest, List.nil_append,
        sqEmit_eq]
  | .list .nil, _, out, rest, _, _ => by
    rw [mid1V, pySerV]
    exact relexGo_top_seg _ (by decide) out rest
  | .list (.cons v r), i, out, rest, h, hrest => by
    have hg : goodL (.cons v r) = true := by rwa [goodV] at h
    simp only [mid1V, pySerV]
    by_cases hs : listSimple (.cons v r) = true
    · rw [if_pos hs, if_pos hs]
      simp only [List.cons_append, List.append_assoc, List.singleton_append,
        List.nil_append]
      rw [relexGo_top_char (by decide) (by decide),
        relex_midItemsJ (.cons v r) i (out ++ ['[']) (']' :: rest) hg
          (head?_ne_quote (by decide) rest),
        relexGo_top_char (by decide) (by decide)]
      simp [List.append_assoc]
    · rw [if_neg hs, if_neg hs]
      simp only [List.cons_append, List.append_assoc, List.singleton_append,
        List.nil_append]
      rw [relexGo_top_char (by decide) (by decide),
        relexGo_top_char (by decide) (by decide),
        relex_midItemsL (.cons v r) i (i + 2) ((out ++ ['[']) ++ ['\n'])
          ('\n' :: (List.replicate i ' ' ++ ']' :: rest)) hg
          (head?_ne_quote (by decide) _),
        relexGo_top_char (by decide) (by decide),
        relexGo_top_spaces,
        relexGo_top_char (by decide) (by decide)]
      simp [List.append_assoc]
  | .dict .nil, _, out, rest, _, _ => by
    rw [mid1V, pySerV]
    exact relexGo_top_seg _ (by decide) out rest
  | .dict (.cons k v r), i, out, rest, h, hrest => by
    have hg : goodD (.cons k v r) = true :=
      ((Bool.and_eq_true _ _) ▸ (by rwa [goodV] at h :
        (distinctB (keysOf (.cons k v r)) && goodD (.cons k v r)) = true)).2
    simp only [mid1V, pySerV]
    by_cases hs : (decide (sumLens (fmtEntries (.cons k v r) i) < 60) &&
        (fmtEntries (.cons k v r) i).all (fun it => !(it.elem '\n'))) = true
    · rw [if_pos hs, if_pos hs]
      simp only [List.cons_append, List.append_assoc, List.singleton_append,
        List.nil_append]
      rw [relexGo_top_char (by decide) (by decide),
        relex_midEntriesJ (.cons k v r) i (out ++ ['{']) ('}' :: rest) hg
          (head?_ne_quote (by decide) rest),
        relexGo_top_char (by decide) (by decide)]
      simp [List.append_assoc]
    · rw [if_neg hs, if_neg hs]
      simp only [List.cons_append, List.append_assoc, List.singleton_append,
        List.nil_append]
      rw [relexGo_top_char (by decide) (by decide),
        relexGo_top_char (by decide) (by decide),
        relex_midEntriesL (.cons k v r) i (i + 2) ((out ++ ['{']) ++ ['\n'])
          ('\n' :: (List.replicate i ' ' ++ '}' :: rest)) hg
          (head?_ne_quote (by decide) _),
        relexGo_top_char (by decide) (by decide),
        relexGo_top_spaces,
        relexGo_top_char (by decide) (by decide)]
      simp [List.append_assoc]

theorem relex_midItemsJ : ∀ (xs : VimList) (i : Nat) (out rest : List Char),
    goodL xs = true → rest.head? ≠ some '\'' →
    relexGo .top out (joinComma (mid1Items xs i) ++ rest) =
      relexGo .top (out ++ joinComma (pySerItems xs i)) rest
  | .nil, _, out, rest, _, _ => by
    simp [mid1Items, pySerItems, joinComma]
  | .cons v .nil, i, out, rest, h, hrest => by
    rw [mid1Items, mid1Items, pySerItems, pySerItems, joinComma_one, joinComma_one]
    exact relex_midV v (i + 2) out rest (goodL_parts h).1 hrest
  | .cons v (.cons v2 r2), i, out, rest, h, hrest => by
    rw [mid1Items, pySerItems]
    cases hmi : mid1Items (.cons v2 r2) i with
    | nil => exact absurd hmi (by rw [mid1Items]; simp)
    | cons m ms =>
      cases hpi : pySerItems (.cons v2 r2) i with
      | nil => exact absurd hpi (by rw [pySerItems]; simp)
      | cons p ps =>
        rw [joinComma_pair, joinComma_pair]
        simp only [List.append_assoc, List.cons_append, List.nil_append]
        rw [relex_midV v (i + 2) out (',' :: ' ' :: (joinComma (m :: ms) ++ rest))
            (goodL_parts h).1 (head?_ne_quote (by decide) _),
          relexGo_top_char (by decide) (by decide),
          relexGo_top_char (by decide) (by decide),
          ← hmi, ← hpi,
          relex_midItemsJ (.cons v2 r2) i
            (((out ++ pySerV v (i + 2)) ++ [',']) ++ [' ']) rest
            (goodL_parts h).2 hrest]
        simp [List.append_assoc]

theorem relex_midItemsL : ∀ (xs : VimList) (i ind : Nat) (out rest : List Char),
    goodL xs = true → rest.head? ≠ some '\'' →
    relexGo .top out (joinNl ((mid1Items xs i).map
        (fun it => List.replicate ind ' ' ++ (it ++ [',']))) ++ rest) =
      relexGo .top (out ++ joinNl ((pySerItems xs i).map
        (fun it => List.replicate ind ' ' ++ (it ++ [','])))) rest
  | .nil, _, _, out, rest, _, _ => by
    simp [mid1Items, pySerItems, joinNl]
  | .cons v .nil, i, ind, out, rest, h, hrest => by
    rw [mid1Items, mid1Items, pySerItems, pySerItems, List.map_cons, List.map_nil,
      List.map_cons, List.map_nil, joinNl_one, joinNl_one]
    simp only [List.append_assoc, List.cons_append, List.singleton_append,
      List.nil_append]
    rw [relexGo_top_spaces,
      relex_midV v (i + 2) (out ++ List.replicate ind ' ') (',' :: rest)
        (goodL_parts h).1 (head?_ne_quote (by decide) _),
      relexGo_top_char (by decide) (by decide)]
    simp [List.append_assoc]
  | .cons v (.cons v2 r2), i, ind, out, rest, h, hrest => by
    rw [mid1Items, pySerItems, List.map_cons, List.map_cons]
    cases hmi : (mid1Items (.cons v2 r2) i).map
        (fun it => List.replicate ind ' ' ++ (it ++ [','])) with
    | nil => exact absurd hmi (by rw [mid1Items]; simp)
    | cons m ms =>
      cases hpi : (pySerItems (.cons v2 r2) i).map
          (fun it => List.replicate ind ' ' ++ (it ++ [','])) with
      | nil => exact absurd hpi (by rw [pySerItems]; simp)
      | cons p ps =>
        rw [joinNl_pair, joinNl_pair]
        simp only [List.append_assoc, List.cons_append, List.singleton_append,
          List.nil_append]
        rw [relexGo_top_spaces,
          relex_midV v (i + 2) (out ++ List.replicate ind ' ')
            (',' :: '\n' :: (joinNl (m :: ms) ++ rest))
            (goodL_parts h).1 (head?_ne_quote (by decide) _),
          relexGo_top_char (by decide) (by decide),
          relexGo_top_char (by decide) (by decide),
          ← hmi, ← hpi,
          relex_midItemsL (.cons v2 r2) i ind
            ((((out ++ List.replicate ind ' ') ++ pySerV v (i + 2)) ++ [',']) ++ ['\n'])
            rest (goodL_parts h).2 hrest]
        simp [List.append_assoc]

theorem relex_midEntriesJ : ∀ (xs : VimDict) (i : Nat) (out rest : List Char),
    goodD xs = true → rest.head? ≠ some '\'' →
    relexGo .top out (joinComma (mid1Entries xs i) ++ rest) =
      relexGo .top (out ++ joinComma (pySerEntries xs i)) rest
  | .nil, _, out, rest, _, _ => by
    simp [mid1Entries, pySerEntries, joinComma]
  | .cons k v .nil, i, out, rest, h, hrest => by
    rw [mid1Entries, mid1Entries, pySerEntries, pySerEntries, joinComma_one,
      joinComma_one]
    obtain ⟨hk, hv, _⟩ := goodD_parts h
    simp only [List.append_assoc, List.cons_append, List.nil_append]
    rw [relexGo_key k hk out _ (head?_ne_quote (by decide) _),
      relexGo_top_char (by decide) (by decide),
      relexGo_top_char (by decide) (by decide),
      relex_midV v (i + 2) _ rest hv hrest]
    simp [List.append_assoc]
  | .cons k v (.cons k2 v2 r2), i, out, rest, h, hrest => by
    rw [mid1Entries, pySerEntries]
    obtain ⟨hk, hv, hrest2⟩ := goodD_parts h
    cases hme : mid1Entries (.cons k2 v2 r2) i with
    | nil => exact absurd hme (by rw [mid1Entries]; simp)
    | cons m ms =>
      cases hpe : pySerEntries (.cons k2 v2 r2) i with
      | nil => exact absurd hpe (by rw [pySerEntries]; simp)
      | cons p ps =>
        rw [joinComma_pair, joinComma_pair]
        simp only [List.append_assoc, List.cons_append, List.nil_append]
        rw [relexGo_key k hk out _ (head?_ne_quote (by decide) _),
          relexGo_top_char (by decide) (by decide),
          relexGo_top_char (by decide) (by decide),
          relex_midV v (i + 2) _ (',' :: ' ' :: (joinComma (m :: ms) ++ rest))
            hv (head?_ne_quote (by decide) _),
          relexGo_top_char (by decide) (by decide),
          relexGo_top_char (by decide) (by decide),
          ← hme, ← hpe,
          relex_midEntriesJ (.cons k2 v2 r2) i _ rest hrest2 hrest]
        simp [List.append_assoc]

theorem relex_midEntriesL : ∀ (xs : VimDict) (i ind : Nat) (out rest : List Char),
    goodD xs = true → rest.head? ≠ some '\'' →
    relexGo .top out (joinNl ((mid1Entries xs i).map
        (fun it => List.replicate ind ' ' ++ (it ++ [',']))) ++ rest) =
      relexGo .top (out ++ joinNl ((pySerEntries xs i).map
        (fun it => List.replicate ind ' ' ++ (it ++ [','])))) rest
  | .nil, _, _, out, rest, _, _ => by
    simp [mid1Entries, pySerEntries, joinNl]
  | .cons k v .nil, i, ind, out, rest, h, hrest => by
    rw [mid1Entries, mid1Entries, pySerEntries, pySerEntries, List.map_cons,
      List.map_nil, List.map_cons, List.map_nil, joinNl_one, joinNl_one]
    obtain ⟨hk, hv, _⟩ := goodD_parts h
    simp only [List.append_assoc, List.cons_append, List.singleton_append,
      List.nil_append]
    rw [relexGo_top_spaces,
      relexGo_key k hk _ _ (head?_ne_quote (by decide) _),
      relexGo_top_char (by decide) (by decide),
      relexGo_top_char (by decide) (by decide),
      relex_midV v (i + 2) _ (',' :: rest) hv (head?_ne_quote (by decide) _),
      relexGo_top_char (by decide) (by decide)]
    simp [List.append_assoc]
  | .cons k v (.cons k2 v2 r2), i, ind, out, rest, h, hrest => by
    rw [mid1Entries, pySerEntries, List.map_cons, List.map_cons]
    obtain ⟨hk, hv, hrest2⟩ := goodD_parts h
    cases hme : (mid1Entries (.cons k2 v2 r2) i).map
        (fun it => List.replicate ind ' ' ++ (it ++ [','])) with
    | nil => exact absurd hme (by rw [mid1Entries]; simp)
    | cons m ms =>
      cases hpe : (pySerEntries (.cons k2 v2 r2) i).map
          (fun it => List.replicate ind ' ' ++ (it ++ [','])) with
      | nil => exact absurd hpe (by rw [pySerEntries]; simp)
      | cons p ps =>
        rw [joinNl_pair, joinNl_pair]
        simp only [List.append_assoc, List.cons_append, List.singleton_append,
          List.nil_append]
        rw [relexGo_top_spaces,
          relexGo_key k hk _ _ (head?_ne_quote (by decide) _),
          relexGo_top_char (by decide) (by decide),
          relexGo_top_char (by decide) (by decide),
          relex_midV v (i + 2) _ (',' :: '\n' :: (joinNl (m :: ms) ++ rest))
            hv (head?_ne_quote (by decide) _),
          relexGo_top_char (by decide) (by decide),
          relexGo_top_char (by decide) (by decide),
          ← hme, ← hpe,
          relex_midEntriesL (.cons k2 v2 r2) i ind _ rest hrest2 hrest]
        simp [List.append_assoc]

end

/-- Phase 3 on the whole phase-2 output. -/
theorem relex_mid1 (v : VimValue) (h : goodV v = true) :
    relex (mid1V v 0) = pySerV v 0 := by
  rw [relex]
  have h0 := relex_midV v 0 [] [] h (by simp)
  rw [List.append_nil] at h0
  rw [h0, List.nil_append, relexGo_top_nil]

/-! ## Phase-1 transport: serializer output has no continuation lines -/

theorem noContAux_nl (b : Bool) (x : List Char) :
    noContAux b ('\n' :: x) = noContAux true x := by
  rw [noContAux, if_pos rfl]

theorem noContAux_false_seg : ∀ (seg : List Char), '\n' ∉ seg →
    ∀ (x : List Char), noContAux false (seg ++ x) = noContAux false x
  | [], _, x => rfl
  | c :: t, h, x => by
    have hcn : c ≠ '\n' :=
      fun hcon => h (by rw [hcon]; exact List.mem_cons_self '\n' t)
    rw [List.cons_append, noContAux, if_neg hcn, if_neg (by simp),
      if_neg (by simp), noContAux_false_seg t (fun hm => h (List.mem_cons_of_mem c hm)) x]

theorem noContAux_char {c : Char} (h1 : c ≠ '\n') (h2 : isPyWs c = false)
    (h3 : c ≠ '\\') (b : Bool) (x : List Char) :
    noContAux b (c :: x) = noContAux false x := by
  rw [noContAux, if_neg h1, if_neg (by simp [h2]), if_neg (by simp [h3])]

theorem noContAux_seg (seg : List Char) (hnl : '\n' ∉ seg)
    (hhead : ∀ c, seg.head? = some c → isPyWs c = false ∧ c ≠ '\\')
    (hne : seg ≠ []) (b : Bool) (x : List Char) :
    noContAux b (seg ++ x) = noContAux false x := by
  cases seg with
  | nil => exact absurd rfl hne
  | cons c t =>
    have hfacts := hhead c rfl
    have hcn : c ≠ '\n' :=
      fun hcon => hnl (by rw [hcon]; exact List.mem_cons_self '\n' t)
    rw [List.cons_append, noContAux, if_neg hcn, if_neg (by simp [hfacts.1]),
      if_neg (by simp [hfacts.2]),
      noContAux_false_seg t (fun hm => hnl (List.mem_cons_of_mem c hm)) x]

theorem noContAux_spaces (b : Bool) (n : Nat) (x : List Char) :
    noContAux b (List.replicate n ' ' ++ x) = noContAux b x := by
  induction n with
  | zero => rfl
  | succ m ih =>
    rw [List.replicate_succ, List.cons_append]
    cases b
    · rw [noContAux, if_neg (by decide), if_neg (by simp), if_neg (by simp)]
      exact ih
    · rw [noContAux, if_neg (by decide), if_pos (by decide)]
      exact ih

theorem mem_of_head? {l : List Char} {c : Char} (h : l.head? = some c) : c ∈ l := by
  cases l with
  | nil => simp at h
  | cons d t =>
    rw [List.head?_cons, Option.some_inj] at h
    exact h ▸ List.mem_cons_self d t

theorem digit_or_dash_facts {c : Char} (h : digitB c = true ∨ c = '-') :
    isPyWs c = false ∧ c ≠ '\\' ∧ c ≠ '\n' := by
  rcases h with hd | hd
  · refine ⟨?_, ?_, ?_⟩
    · by_contra h'
      rw [Bool.not_eq_false] at h'
      rcases isPyWs_elim h' with rfl | rfl | rfl | rfl | rfl | rfl <;>
        exact absurd hd (by decide)
    · intro hc; subst hc; exact absurd hd (by decide)
    · intro hc; subst hc; exact absurd hd (by decide)
  · subst hd
    exact ⟨by decide, by decide, by decide⟩

mutual

theorem noCont_fmtV : ∀ (v : VimValue) (i : Nat) (b : Bool) (rest : List Char),
    goodV v = true → noContAux false rest = true →
    noContAux b (format_vim_value v i ++ rest) = true
  | .null, _, b, rest, _, hrest => by
    rw [format_vim_value, noContAux_seg _ (by decide) (by decide) (by decide)]
    exact hrest
  | .bool bv, _, b, rest, _, hrest => by
    cases bv
    · rw [format_vim_value, if_neg (by decide : ¬ ((false : Bool) = true)),
        noContAux_seg _ (by decide) (by decide) (by decide)]
      exact hrest
    · rw [format_vim_value, if_pos (by decide : (true : Bool) = true),
        noContAux_seg _ (by decide) (by decide) (by decide)]
      exact hrest
  | .int n, _, b, rest, _, hrest => by
    rw [format_vim_value]
    rw [noContAux_seg _ ?hnl ?hhead (intToChars_ne_nil n)]
    · exact hrest
    case hnl =>
      intro hm
      have := digit_or_dash_facts (intToChars_mem hm)
      exact this.2.2 rfl
    case hhead =>
      intro c hc
      have := digit_or_dash_facts (intToChars_mem (mem_of_head? hc))
      exact ⟨this.1, this.2.1⟩
  | .float f, _, b, rest, h, hrest => by
    rw [goodV] at h
    obtain ⟨hall, _, hne⟩ := floatOk_parts h
    rw [format_vim_value]
    rw [noContAux_seg _ ?hnl ?hhead ?hne2]
    · exact hrest
    case hnl =>
      intro hm
      exact absurd (List.all_eq_true.mp hall _ hm) (by decide)
    case hhead =>
      intro c hc
      have hn := List.all_eq_true.mp hall c (mem_of_head? hc)
      exact ⟨(numChar_facts hn).2.1, (numChar_facts hn).2.2.1⟩
    case hne2 =>
      intro hcon
      rw [hcon] at hne
      simp at hne
  | .str s, i, b, rest, h, hrest => by
    rw [goodV] at h
    rw [format_vim_value]
    by_cases hmem : ('\n') ∈ s
    · rw [if_pos hmem, escape_vim_double_quoted_eq_flatMap]
      rw [noContAux_seg _ ?hnl
        (fun c hc => by
          rw [List.head?_cons, Option.some_inj] at hc
          subst hc
          exact ⟨by decide, by decide⟩) (by simp)]
      · exact hrest
      case hnl =>
        intro hm
        rcases List.mem_cons.mp hm with hc | hc
        · exact absurd hc (by decide)
        · rcases List.mem_append.mp hc with hc2 | hc2
          · exact nl_not_mem_dqEsc s hc2
          · rw [List.mem_singleton] at hc2
            exact absurd hc2 (by decide)
    · rw [if_neg hmem, escape_vim_single_quoted_eq_flatMap]
      rw [noContAux_seg _ ?hnl
        (fun c hc => by
          rw [List.head?_cons, Option.some_inj] at hc
          subst hc
          exact ⟨by decide, by decide⟩) (by simp)]
      · exact hrest
      case hnl =>
        intro hm
        rcases List.mem_cons.mp hm with hc | hc
        · exact absurd hc (by decide)
        · rcases List.mem_append.mp hc with hc2 | hc2
          · exact nl_not_mem_sqEsc hmem hc2
          · rw [List.mem_singleton] at hc2
            exact absurd hc2 (by decide)
  | .list .nil, _, b, rest, _, hrest => by
    rw [format_vim_value, noContAux_seg _ (by decide) (by decide) (by decide)]
    exact hrest
  | .list (.cons v r), i, b, rest, h, hrest => by
    have hg : goodL (.cons v r) = true := by rwa [goodV] at h
    simp only [format_vim_value]
    by_cases hs : listSimple (.cons v r) = true
    · rw [if_pos hs]
      simp only [List.cons_append, List.append_assoc, List.singleton_append,
        List.nil_append]
      rw [noContAux_char (by decide) (by decide) (by decide)]
      refine noCont_fmtItemsJ (.cons v r) i (']' :: rest) hg ?_ false
      intro b'
      rw [noContAux_char (by decide) (by decide) (by decide)]
      exact hrest
    · rw [if_neg hs]
      simp only [List.cons_append, List.append_assoc, List.singleton_append,
        List.nil_append]
      rw [noContAux_char (by decide) (by decide) (by decide), noContAux_nl]
      refine noCont_fmtItemsL (.cons v r) i (i + 2)
        ('\n' :: (List.replicate i ' ' ++ ']' :: rest)) hg ?_ true
      intro b'
      rw [noContAux_nl, noContAux_spaces,
        noContAux_char (by decide) (by decide) (by decide)]
      exact hrest
  | .dict .nil, _, b, rest, _, hrest => by
    rw [format_vim_value, noContAux_seg _ (by decide) (by decide) (by decide)]
    exact hrest
  | .dict (.cons k v r), i, b, rest, h, hrest => by
    have hg : goodD (.cons k v r) = true :=
      ((Bool.and_eq_true _ _) ▸ (by rwa [goodV] at h :
        (distinctB (keysOf (.cons k v r)) && goodD (.cons k v r)) = true)).2
    simp only [format_vim_value]
    by_cases hs : (decide (sumLens (fmtEntries (.cons k v r) i) < 60) &&
        (fmtEntries (.cons k v r) i).all (fun it => !(it.elem '\n'))) = true
    · rw [if_pos hs]
      simp only [List.cons_append, List.append_assoc, List.singleton_append,
        List.nil_append]
      rw [noContAux_char (by decide) (by decide) (by decide)]
      refine noCont_fmtEntriesJ (.cons k v r) i ('}' :: rest) hg ?_ false
      intro b'
      rw [noContAux_char (by decide) (by decide) (by decide)]
      exact hrest
    · rw [if_neg hs]
      simp only [List.cons_append, List.append_assoc, List.singleton_append,
        List.nil_append]
      rw [noContAux_char (by decide) (by decide) (by decide), noContAux_nl]
      refine noCont_fmtEntriesL (.cons k v r) i (i + 2)
        ('\n' :: (List.replicate i ' ' ++ '}' :: rest)) hg ?_ true
      intro b'
      rw [noContAux_nl, noContAux_spaces,
        noContAux_char (by decide) (by decide) (by decide)]
      exact hrest
termination_by v _ _ _ _ _ => sizeOf v

theorem noCont_fmtItemsJ : ∀ (xs : VimList) (i : Nat) (rest : List Char),
    goodL xs = true → (∀ b', noContAux b' rest = true) → ∀ (b : Bool),
    noContAux b (joinComma (fmtItems xs i) ++ rest) = true
  | .nil, _, rest, _, hrest, b => by
    rw [fmtItems]
    have h1 : joinComma ([] : List (List Char)) = [] := rfl
    rw [h1, List.nil_append]
    exact hrest b
  | .cons v .nil, i, rest, h, hrest, b => by
    rw [fmtItems, fmtItems, joinComma_one]
    exact noCont_fmtV v (i + 2) b rest (goodL_parts h).1 (hrest false)
  | .cons v (.cons v2 r2), i, rest, h, hrest, b => by
    rw [fmtItems]
    cases hfi : fmtItems (.cons v2 r2) i with
    | nil => exact absurd hfi (by rw [fmtItems]; simp)
    | cons m ms =>
      rw [joinComma_pair]
      simp only [List.append_assoc, List.cons_append, List.nil_append]
      refine noCont_fmtV v (i + 2) b _ (goodL_parts h).1 ?_
      rw [noContAux_char (by decide) (by decide) (by decide)]
      have hsp : noContAux false (' ' :: (joinComma (m :: ms) ++ rest)) =
          noContAux false (joinComma (m :: ms) ++ rest) := by
        rw [noContAux, if_neg (by decide), if_neg (by simp), if_neg (by simp)]
      rw [hsp, ← hfi]
      exact noCont_fmtItemsJ (.cons v2 r2) i rest (goodL_parts h).2 hrest false
termination_by xs _ _ _ _ _ => sizeOf xs

theorem noCont_fmtItemsL : ∀ (xs : VimList) (i ind : Nat) (rest : List Char),
    goodL xs = true → (∀ b', noContAux b' rest = true) → ∀ (b : Bool),
    noContAux b (joinNl ((fmtItems xs i).map
      (fun it => List.replicate ind ' ' ++ (it ++ [',']))) ++ rest) = true
  | .nil, _, _, rest, _, hrest, b => by
    rw [fmtItems]
    simp only [List.map_nil]
    have h1 : joinNl ([] : List (List Char)) = [] := rfl
    rw [h1, List.nil_append]
    exact hrest b
  | .cons v .nil, i, ind, rest, h, hrest, b => by
    rw [fmtItems, fmtItems, List.map_cons, List.map_nil, joinNl_one]
    simp only [List.append_assoc, List.cons_append, List.singleton_append,
      List.nil_append]
    rw [noContAux_spaces]
    refine noCont_fmtV v (i + 2) b _ (goodL_parts h).1 ?_
    rw [noContAux_char (by decide) (by decide) (by decide)]
    exact hrest false
  | .cons v (.cons v2 r2), i, ind, rest, h, hrest, b => by
    rw [fmtItems, List.map_cons]
    cases hmi : (fmtItems (.cons v2 r2) i).map
        (fun it => List.replicate ind ' ' ++ (it ++ [','])) with
    | nil => exact absurd hmi (by rw [fmtItems]; simp)
    | cons m ms =>
      rw [joinNl_pair]
      simp only [List.append_assoc, List.cons_append, List.singleton_append,
        List.nil_append]
      rw [noContAux_spaces]
      refine noCont_fmtV v (i + 2) b _ (goodL_parts h).1 ?_
      rw [noContAux_char (by decide) (by decide) (by decide), noContAux_nl,
        ← hmi]
      exact noCont_fmtItemsL (.cons v2 r2) i ind rest (goodL_parts h).2 hrest true
termination_by xs _ _ _ _ _ _ => sizeOf xs

theorem noCont_fmtEntriesJ : ∀ (xs : VimDict) (i : Nat) (rest : List Char),
    goodD xs = true → (∀ b', noContAux b' rest = true) → ∀ (b : Bool),
    noContAux b (joinComma (fmtEntries xs i) ++ rest) = true
  | .nil, _, rest, _, hrest, b => by
    rw [fmtEntries]
    have h1 : joinComma ([] : List (List Char)) = [] := rfl
    rw [h1, List.nil_append]
    exact hrest b
  | .cons k v .nil, i, rest, h, hrest, b => by
    rw [fmtEntries, fmtEntries, joinComma_one]
    obtain ⟨hk, hv, _⟩ := goodD_parts h
    simp only [List.cons_append, List.append_assoc]
    exact noCont_entry k v i b rest hk hv (hrest false)
  | .cons k v (.cons k2 v2 r2), i, rest, h, hrest, b => by
    rw [fmtEntries]
    obtain ⟨hk, hv, hrest2⟩ := goodD_parts h
    cases hfe : fmtEntries (.cons k2 v2 r2) i with
    | nil => exact absurd hfe (by rw [fmtEntries]; simp)
    | cons m ms =>
      rw [joinComma_pair]
      simp only [List.append_assoc, List.cons_append, List.nil_append]
      refine noCont_entry k v i b _ hk hv ?_
      rw [noContAux_char (by decide) (by decide) (by decide)]
      have hsp : noContAux false (' ' :: (joinComma (m :: ms) ++ rest)) =
          noContAux false (joinComma (m :: ms) ++ rest) := by
        rw [noContAux, if_neg (by decide), if_neg (by simp), if_neg (by simp)]
      rw [hsp, ← hfe]
      exact noCont_fmtEntriesJ (.cons k2 v2 r2) i rest hrest2 hrest false
termination_by xs _ _ _ _ _ => sizeOf xs

theorem noCont_fmtEntriesL : ∀ (xs : VimDict) (i ind : Nat) (rest : List Char),
    goodD xs = true → (∀ b', noContAux b' rest = true) → ∀ (b : Bool),
    noContAux b (joinNl ((fmtEntries xs i).map
      (fun it => List.replicate ind ' ' ++ (it ++ [',']))) ++ rest) = true
  | .nil, _, _, rest, _, hrest, b => by
    rw [fmtEntries]
    simp only [List.map_nil]
    have h1 : joinNl ([] : List (List Char)) = [] := rfl
    rw [h1, List.nil_append]
    exact hrest b
  | .cons k v .nil, i, ind, rest, h, hrest, b => by
    rw [fmtEntries, fmtEntries, List.map_cons, List.map_nil, joinNl_one]
    obtain ⟨hk, hv, _⟩ := goodD_parts h
    simp only [List.append_assoc, List.cons_append, List.singleton_append,
      List.nil_append]
    rw [noContAux_spaces]
    refine noCont_entry k v i b _ hk hv ?_
    rw [noContAux_char (by decide) (by decide) (by decide)]
    exact hrest false
  | .cons k v (.cons k2 v2 r2), i, ind, rest, h, hrest, b => by
    rw [fmtEntries, List.map_cons]
    obtain ⟨hk, hv, hrest2⟩ := goodD_parts h
    cases hme : (fmtEntries (.cons k2 v2 r2) i).map
        (fun it => List.replicate ind ' ' ++ (it ++ [','])) with
    | nil => exact absurd hme (by rw [fmtEntries]; simp)
    | cons m ms =>
      rw [joinNl_pair]
      simp only [List.append_assoc, List.cons_append, List.singleton_append,
        List.nil_append]
      rw [noContAux_spaces]
      refine noCont_entry k v i b _ hk hv ?_
      rw [noContAux_char (by decide) (by decide) (by decide), noContAux_nl,
        ← hme]
      exact noCont_fmtEntriesL (.cons k2 v2 r2) i ind rest hrest2 hrest true
termination_by xs _ _ _ _ _ _ => sizeOf xs

theorem noCont_entry : ∀ (k : List Char) (v : VimValue) (i : Nat) (b : Bool)
    (tail : List Char), keyOkB k = true → goodV v = true →
    noContAux false tail = true →
    noContAux b ('\'' :: (k ++ '\'' :: ':' :: ' ' ::
      (format_vim_value v (i + 2) ++ tail))) = true
  | k, v, i, b, tail, hk, hv, htail => by
    obtain ⟨_, hall⟩ := keyOk_parts hk
    have hstep : ('\'' : Char) :: (k ++ '\'' :: ':' :: ' ' ::
        (format_vim_value v (i + 2) ++ tail)) =
        ('\'' : Char) :: (k ++ ('\'' :: ':' :: ' ' ::
          (format_vim_value v (i + 2) ++ tail))) := rfl
    rw [hstep, noContAux_char (by decide) (by decide) (by decide),
      noContAux_false_seg k
        (fun hm => absurd rfl (keyChar_facts (hall _ hm)).2.2.2.2.1),
      noContAux_char (by decide) (by decide) (by decide),
      noContAux_char (by decide) (by decide) (by decide)]
    have hsp : noContAux false (' ' :: (format_vim_value v (i + 2) ++ tail)) =
        noContAux false (format_vim_value v (i + 2) ++ tail) := by
      rw [noContAux, if_neg (by decide), if_neg (by simp), if_neg (by simp)]
    rw [hsp]
    exact noCont_fmtV v (i + 2) false tail hv htail

termination_by _ v _ _ _ _ _ _ => 1 + sizeOf v
end

/-- A line whose `lstrip()` does not start with a backslash. -/
def lineOkB (l : List Char) : Bool :=
  match pyLstrip l with
  | c :: _ => decide (c ≠ '\\')
  | [] => true

theorem noCont_linesOk : ∀ (s : List Char) (b : Bool), noContAux b s = true →
    ∀ l ls, splitNl s = l :: ls →
      ls.all lineOkB = true ∧ (b = true → lineOkB l = true)
  | [], b, _, l, ls, hsp => by
    rw [splitNl] at hsp
    injection hsp with h1 h2
    subst h1
    subst h2
    exact ⟨rfl, fun _ => rfl⟩
  | c :: r, b, h, l, ls, hsp => by
    rw [splitNl] at hsp
    by_cases hc : c = '\n'
    · rw [if_pos hc] at hsp
      subst hc
      rw [noContAux_nl] at h
      cases hsr : splitNl r with
      | nil => exact absurd hsr (splitNl_ne_nil r)
      | cons l' ls' =>
        rw [hsr] at hsp
        injection hsp with h1 h2
        subst h1
        subst h2
        obtain ⟨hall, hl⟩ := noCont_linesOk r true h l' ls' hsr
        refine ⟨?_, fun _ => rfl⟩
        rw [List.all_cons, hl rfl, hall]
        rfl
    · rw [if_neg hc] at hsp
      cases hsr : splitNl r with
      | nil => exact absurd hsr (splitNl_ne_nil r)
      | cons l' ls' =>
        rw [hsr] at hsp
        injection hsp with h1 h2
        subst h1
        subst h2
        by_cases hws : isPyWs c = true
        · have hstep : noContAux b (c :: r) = noContAux b r := by
            cases b
            · rw [noContAux, if_neg hc, if_neg (by simp), if_neg (by simp)]
            · rw [noContAux, if_neg hc, if_pos (by simp [hws])]
          rw [hstep] at h
          obtain ⟨hall, hl⟩ := noCont_linesOk r b h l' ls' hsr
          refine ⟨hall, ?_⟩
          intro hb
          have hlok := hl hb
          rw [lineOkB] at hlok ⊢
          rw [pyLstrip] at hlok ⊢
          rw [List.dropWhile_cons_of_pos hws]
          exact hlok
        · rw [Bool.not_eq_true] at hws
          have hbs : b = true → c ≠ '\\' := by
            intro hb hcon
            rw [hb] at h
            rw [noContAux, if_neg hc, if_neg (by simp [hws]),
              if_pos (by simp [hcon])] at h
            cases h
          have hstep : noContAux b (c :: r) = noContAux false r := by
            cases b
            · rw [noContAux, if_neg hc, if_neg (by simp), if_neg (by simp)]
            · rw [noContAux, if_neg hc, if_neg (by simp [hws]),
                if_neg (by simp [hbs rfl])]
          rw [hstep] at h
          obtain ⟨hall, _⟩ := noCont_linesOk r false h l' ls' hsr
          refine ⟨hall, ?_⟩
          intro hb
          rw [lineOkB, pyLstrip, List.dropWhile_cons_of_neg (by simp [hws])]
          simp [hbs hb]

theorem foldl_jcStep_id : ∀ (ls : List (List Char)) (acc : List (List Char)),
    ls.all lineOkB = true → ls.foldl jcStep acc = acc ++ ls
  | [], acc, _ => by simp
  | l :: ls, acc, h => by
    rw [List.all_cons, Bool.and_eq_true] at h
    have hstep : jcStep acc l = acc ++ [l] := by
      rw [jcStep]
      cases hp : pyLstrip l with
      | nil => rfl
      | cons c t =>
        have hlok := h.1
        rw [lineOkB, hp] at hlok
        dsimp only at hlok ⊢
        rw [if_neg (by simpa using hlok)]
    rw [List.foldl_cons, hstep, foldl_jcStep_id ls (acc ++ [l]) h.2]
    simp

theorem joinContinuations_id {s : List Char} (h : noContAux true s = true) :
    joinContinuations s = s := by
  rw [joinContinuations]
  cases hsp : splitNl s with
  | nil => exact absurd hsp (splitNl_ne_nil s)
  | cons l ls =>
    obtain ⟨hall, hl⟩ := noCont_linesOk s true h l ls hsp
    have hall2 : (l :: ls).all lineOkB = true := by
      rw [List.all_cons, hl rfl, hall]
      rfl
    rw [foldl_jcStep_id (l :: ls) [] hall2, List.nil_append, ← hsp, joinNl_splitNl]

/-- Phase 1 is the identity on serializer output. -/
theorem jc_format (v : VimValue) (h : goodV v = true) :
    joinContinuations (format_vim_value v 0) = format_vim_value v 0 := by
  refine joinContinuations_id ?_
  have h0 := noCont_fmtV v 0 true [] h rfl
  rwa [List.append_nil] at h0

/-! ## Phase-4 transport: the evaluator reads back `pySerV` -/

theorem skipWs_cons_of_neg {c : Char} (h : wsChar c = false) (x : List Char) :
    skipWs (c :: x) = c :: x := by
  rw [skipWs, List.dropWhile_cons_of_neg (by simp [h])]

theorem skipWs_nl (x : List Char) : skipWs ('\n' :: x) = skipWs x := by
  rw [skipWs, List.dropWhile_cons_of_pos (by decide)]
  rfl

theorem skipWs_space (x : List Char) : skipWs (' ' :: x) = skipWs x := by
  rw [skipWs, List.dropWhile_cons_of_pos (by decide)]
  rfl

theorem skipWs_replicate (n : Nat) (x : List Char) :
    skipWs (List.replicate n ' ' ++ x) = skipWs x := by
  induction n with
  | zero => rfl
  | succ m ih => rw [List.replicate_succ, List.cons_append, skipWs_space, ih]

theorem skipWs_of_head {s : List Char}
    (h : ∀ c, s.head? = some c → wsChar c = false) : skipWs s = s := by
  cases s with
  | nil => rfl
  | cons c x => exact skipWs_cons_of_neg (h c rfl) x

theorem needV_pos : ∀ (v : VimValue), 1 ≤ needV v
  | .null => le_refl 1
  | .bool _ => le_refl 1
  | .int _ => le_refl 1
  | .float _ => le_refl 1
  | .str _ => le_refl 1
  | .list .nil => le_refl 1
  | .list (.cons v r) => by rw [needV]; omega
  | .dict .nil => le_refl 1
  | .dict (.cons k v r) => by rw [needV]; omega

theorem floatOk_ne_nil {f : List Char} (h : floatOkB f = true) : f ≠ [] := by
  obtain ⟨_, ⟨d, hd, _⟩, _⟩ := floatOk_parts h
  intro hcon
  rw [hcon] at hd
  simp at hd

theorem pySerV_ne_nil : ∀ (v : VimValue) (i : Nat), goodV v = true →
    pySerV v i ≠ []
  | .null, _, _ => by rw [pySerV]; simp
  | .bool b, _, _ => by rw [pySerV]; cases b <;> simp
  | .int n, _, _ => by rw [pySerV]; exact intToChars_ne_nil n
  | .float f, _, h => by rw [pySerV]; exact floatOk_ne_nil (by rwa [goodV] at h)
  | .str s, _, _ => by
    rw [pySerV]
    split <;> simp
  | .list .nil, _, _ => by rw [pySerV]; simp
  | .list (.cons v r), i, _ => by
    rw [pySerV]
    split <;> simp
  | .dict .nil, _, _ => by rw [pySerV]; simp
  | .dict (.cons k v r), i, _ => by
    rw [pySerV]
    split <;> simp

theorem pySerV_head_facts : ∀ (v : VimValue) (i : Nat), goodV v = true →
    ∀ c, (pySerV v i).head? = some c →
      wsChar c = false ∧ c ≠ ']' ∧ c ≠ '}' ∧ c ≠ ',' ∧ c ≠ '\''
  | .null, _, _, c, hc => by
    rw [pySerV] at hc
    rw [List.head?_cons, Option.some_inj] at hc
    subst hc
    exact ⟨by decide, by decide, by decide, by decide, by decide⟩
  | .bool b, _, _, c, hc => by
    rw [pySerV] at hc
    cases b <;>
      simp only [if_true, if_false, Bool.false_eq_true] at hc <;>
      rw [List.head?_cons, Option.some_inj] at hc <;>
      subst hc <;>
      exact ⟨by decide, by decide, by decide, by decide, by decide⟩
  | .int n, _, _, c, hc => by
    rw [pySerV] at hc
    have hfacts := digit_or_dash_facts (intToChars_mem (mem_of_head? hc))
    rcases intToChars_mem (mem_of_head? hc) with hd | hd
    · refine ⟨?_, ?_, ?_, ?_, ?_⟩
      · by_contra h'
        rw [Bool.not_eq_false] at h'
        rcases wsChar_elim h' with rfl | rfl | rfl <;> exact absurd hd (by decide)
      · intro hcon; subst hcon; exact absurd hd (by decide)
      · intro hcon; subst hcon; exact absurd hd (by decide)
      · intro hcon; subst hcon; exact absurd hd (by decide)
      · intro hcon; subst hcon; exact absurd hd (by decide)
    · subst hd
      exact ⟨by decide, by decide, by decide, by decide, by decide⟩
  | .float f, _, h, c, hc => by
    rw [pySerV] at hc
    rw [goodV] at h
    obtain ⟨hall, _, _⟩ := floatOk_parts h
    have hn := List.all_eq_true.mp hall c (mem_of_head? hc)
    exact ⟨(numChar_facts hn).1, (numChar_facts hn).2.2.2.2.2.1,
      (numChar_facts hn).2.2.2.2.2.2.1, (numChar_facts hn).2.2.2.2.2.2.2.1,
      (numChar_facts hn).2.2.2.1⟩
  | .str s, _, _, c, hc => by
    rw [pySerV] at hc
    split at hc <;>
      rw [List.head?_cons, Option.some_inj] at hc <;>
      subst hc <;>
      exact ⟨by decide, by decide, by decide, by decide, by decide⟩
  | .list .nil, _, _, c, hc => by
    rw [pySerV] at hc
    rw [List.head?_cons, Option.some_inj] at hc
    subst hc
    exact ⟨by decide, by decide, by decide, by decide, by decide⟩
  | .list (.cons v r), i, _, c, hc => by
    rw [pySerV] at hc
    split at hc <;>
      rw [List.head?_cons, Option.some_inj] at hc <;>
      subst hc <;>
      exact ⟨by decide, by decide, by decide, by decide, by decide⟩
  | .dict .nil, _, _, c, hc => by
    rw [pySerV] at hc
    rw [List.head?_cons, Option.some_inj] at hc
    subst hc
    exact ⟨by decide, by decide, by decide, by decide, by decide⟩
  | .dict (.cons k v r), i, _, c, hc => by
    rw [pySerV] at hc
    split at hc <;>
      rw [List.head?_cons, Option.some_inj] at hc <;>
      subst hc <;>
      exact ⟨by decide, by decide, by decide, by decide, by decide⟩

theorem isPrefixOf_false_of_heads {p s : List Char} {c d : Char}
    (hp : p.head? = some c) (hs : s.head? = some d) (hne : c ≠ d) :
    p.isPrefixOf s = false := by
  cases p with
  | nil => simp at hp
  | cons c' t =>
    rw [List.head?_cons, Option.some_inj] at hp
    subst hp
    cases s with
    | nil => simp at hs
    | cons d' r =>
      rw [List.head?_cons, Option.some_inj] at hs
      subst hs
      rw [List.isPrefixOf]
      simp [hne]

theorem head?_append_some {a : List Char} {c : Char} (h : a.head? = some c)
    (b : List Char) : (a ++ b).head? = some c := by
  cases a with
  | nil => simp at h
  | cons d t => simpa using h

theorem pyStrScan_raw : ∀ (k : List Char),
    (∀ c ∈ k, c ≠ '"' ∧ c ≠ '\\' ∧ c ≠ '\n' ∧ c ≠ '\x0d') →
    ∀ (rest : List Char), pyStrScan (k ++ '"' :: rest) = some (k, rest)
  | [], _, rest => by
    rw [List.nil_append, pyStrScan.eq_def]
    dsimp only
    rw [if_pos rfl]
  | c :: t, h, rest => by
    obtain ⟨h1, h2, h3, h4⟩ := h c (List.mem_cons_self c t)
    rw [List.cons_append, pyStrScan.eq_def]
    dsimp only
    rw [if_neg h1, if_neg h2, if_neg h3, if_neg h4,
      pyStrScan_raw t (fun d hd => h d (List.mem_cons_of_mem c hd)) rest]

theorem pyStrScan_escPy : ∀ (s : List Char),
    (∀ c ∈ s, c ≠ '\n' ∧ c ≠ '\x0d') →
    ∀ (rest : List Char),
      pyStrScan (s.flatMap pyEscChar ++ '"' :: rest) = some (s, rest)
  | [], _, rest => by
    rw [List.flatMap_nil, List.nil_append, pyStrScan.eq_def]
    dsimp only
    rw [if_pos rfl]
  | c :: t, h, rest => by
    obtain ⟨h3, h4⟩ := h c (List.mem_cons_self c t)
    have hrec := pyStrScan_escPy t (fun d hd => h d (List.mem_cons_of_mem c hd)) rest
    rw [List.flatMap_cons]
    by_cases h1 : c = '\\'
    · subst h1
      rw [show pyEscChar '\\' = ['\\', '\\'] from rfl, List.append_assoc,
        List.cons_append, List.cons_append, List.nil_append, pyStrScan.eq_def]
      dsimp only
      rw [if_neg (by decide), if_pos rfl]
      rw [hrec]
      rfl
    · by_cases h2 : c = '"'
      · subst h2
        rw [show pyEscChar '"' = ['\\', '"'] from rfl, List.append_assoc,
          List.cons_append, List.cons_append, List.nil_append, pyStrScan.eq_def]
        dsimp only
        rw [if_neg (by decide), if_pos rfl]
        rw [hrec]
        rfl
      · rw [show pyEscChar c = [c] from by rw [pyEscChar, if_neg h1, if_neg h2],
          List.append_assoc, List.singleton_append, pyStrScan.eq_def]
        dsimp only
        rw [if_neg h2, if_neg h1, if_neg h3, if_neg h4]
        rw [hrec]

theorem pyStrScan_dqEsc : ∀ (s : List Char), (∀ c ∈ s, c ≠ '\x0d') →
    ∀ (rest : List Char),
      pyStrScan (s.flatMap dqEscChar ++ '"' :: rest) = some (s, rest)
  | [], _, rest => by
    rw [List.flatMap_nil, List.nil_append, pyStrScan.eq_def]
    dsimp only
    rw [if_pos rfl]
  | c :: t, h, rest => by
    have h4 := h c (List.mem_cons_self c t)
    have hrec := pyStrScan_dqEsc t (fun d hd => h d (List.mem_cons_of_mem c hd)) rest
    rw [List.flatMap_cons]
    by_cases h1 : c = '\\'
    · subst h1
      rw [show dqEscChar '\\' = ['\\', '\\'] from rfl, List.append_assoc,
        List.cons_append, List.cons_append, List.nil_append, pyStrScan.eq_def]
      dsimp only
      rw [if_neg (by decide), if_pos rfl]
      rw [hrec]
      rfl
    · by_cases h2 : c = '"'
      · subst h2
        rw [show dqEscChar '"' = ['\\', '"'] from rfl, List.append_assoc,
          List.cons_append, List.cons_append, List.nil_append, pyStrScan.eq_def]
        dsimp only
        rw [if_neg (by decide), if_pos rfl]
        rw [hrec]
        rfl
      · by_cases h3 : c = '\n'
        · subst h3
          rw [show dqEscChar '\n' = ['\\', 'n'] from rfl, List.append_assoc,
            List.cons_append, List.cons_append, List.nil_append, pyStrScan.eq_def]
          dsimp only
          rw [if_neg (by decide), if_pos rfl]
          rw [hrec]
          rfl
        · rw [show dqEscChar c = [c] from by
              rw [dqEscChar, if_neg h1, if_neg h2, if_neg h3],
            List.append_assoc, List.singleton_append, pyStrScan.eq_def]
          dsimp only
          rw [if_neg h2, if_neg h1, if_neg h3, if_neg h4]
          rw [hrec]

theorem takeWhile_append_of_all {p : Char → Bool} :
    ∀ {a : List Char}, (∀ c ∈ a, p c = true) →
    ∀ {b : List Char}, (∀ c, b.head? = some c → p c = false) →
    (a ++ b).takeWhile p = a ∧ (a ++ b).dropWhile p = b := by
  intro a
  induction a with
  | nil =>
    intro _ b hb
    rw [List.nil_append]
    cases b with
    | nil => exact ⟨rfl, rfl⟩
    | cons d r =>
      rw [List.takeWhile_cons_of_neg (by simp [hb d rfl]),
        List.dropWhile_cons_of_neg (by simp [hb d rfl])]
      exact ⟨rfl, rfl⟩
  | cons c t ih =>
    intro ha b hb
    rw [List.cons_append,
      List.takeWhile_cons_of_pos (by simp [ha c (List.mem_cons_self c t)]),
      List.dropWhile_cons_of_pos (by simp [ha c (List.mem_cons_self c t)])]
    obtain ⟨h1, h2⟩ := ih (fun d hd => ha d (List.mem_cons_of_mem c hd)) hb
    exact ⟨by rw [h1], h2⟩

theorem numParse_int (n : Int) {rest : List Char}
    (hrest : ∀ c, rest.head? = some c → numChar c = false) :
    numParse (intToChars n ++ rest) = some (.int n, rest) := by
  have hall : ∀ c ∈ intToChars n, numChar c = true := by
    intro c hc
    rcases intToChars_mem hc with hd | hd
    · rw [numChar]
      simp [hd]
    · subst hd
      decide
  obtain ⟨htake, hdrop⟩ := takeWhile_append_of_all hall hrest
  simp only [numParse]
  rw [htake, hdrop]
  rw [if_neg (by simp [intToChars_ne_nil n])]
  have hnodot : (intToChars n).any (fun c => c = '.' || c = 'e' || c = 'E') = false := by
    rw [List.any_eq_false]
    intro c hc
    rcases intToChars_mem hc with hd | hd
    · simp only [Bool.or_eq_true, decide_eq_true_eq]
      push_neg
      refine ⟨⟨?_, ?_⟩, ?_⟩ <;> intro hcon <;> subst hcon <;>
        exact absurd hd (by decide)
    · subst hd
      decide
  rw [hnodot]
  simp only [Bool.false_eq_true, if_false]
  rw [intOfDigits_intToChars]

theorem numParse_float {f : List Char} (hok : floatOkB f = true) {rest : List Char}
    (hrest : ∀ c, rest.head? = some c → numChar c = false) :
    numParse (f ++ rest) = some (.float f, rest) := by
  obtain ⟨hall, _, hany⟩ := floatOk_parts hok
  obtain ⟨htake, hdrop⟩ :=
    takeWhile_append_of_all (List.all_eq_true.mp hall) hrest
  simp only [numParse]
  rw [htake, hdrop]
  rw [if_neg (by simp [floatOk_ne_nil hok]), hany]
  simp only [if_true]
  rw [if_pos hok]

/-- The text of a multiline list body starting at the first item (the leading
newline and indentation already skipped): each item at `indent + 2`, a
trailing comma after every item, and the closing bracket on its own line at
`indent`, followed by `rest`. -/
def mlItems (i : Nat) (close : Char) (rest : List Char) : VimList → List Char
  | .nil => []
  | .cons v .nil =>
    pySerV v (i + 2) ++ ',' :: '\n' :: (List.replicate i ' ' ++ close :: rest)
  | .cons v (.cons v2 r2) =>
    pySerV v (i + 2) ++ ',' :: '\n' ::
      (List.replicate (i + 2) ' ' ++ mlItems i close rest (.cons v2 r2))

/-- The multiline dict body, by entries. -/
def mlEntries (i : Nat) (rest : List Char) : VimDict → List Char
  | .nil => []
  | .cons k v .nil =>
    '"' :: (k ++ '"' :: ':' :: ' ' :: (pySerV v (i + 2) ++ ',' :: '\n' ::
      (List.replicate i ' ' ++ '}' :: rest)))
  | .cons k v (.cons k2 v2 r2) =>
    '"' :: (k ++ '"' :: ':' :: ' ' :: (pySerV v (i + 2) ++ ',' :: '\n' ::
      (List.replicate (i + 2) ' ' ++ mlEntries i rest (.cons k2 v2 r2))))

theorem mlItems_eq : ∀ (xs : VimList) (i : Nat) (rest : List Char), xs ≠ .nil →
    joinNl ((pySerItems xs i).map
        (fun it => List.replicate (i + 2) ' ' ++ (it ++ [',']))) ++
      '\n' :: (List.replicate i ' ' ++ ']' :: rest) =
    List.replicate (i + 2) ' ' ++ mlItems i ']' rest xs
  | .nil, _, _, hne => absurd rfl hne
  | .cons v .nil, i, rest, _ => by
    rw [pySerItems, pySerItems, List.map_cons, List.map_nil, joinNl_one, mlItems]
    simp [List.append_assoc]
  | .cons v (.cons v2 r2), i, rest, _ => by
    rw [pySerItems, List.map_cons]
    cases hpi : (pySerItems (.cons v2 r2) i).map
        (fun it => List.replicate (i + 2) ' ' ++ (it ++ [','])) with
    | nil => exact absurd hpi (by rw [pySerItems]; simp)
    | cons m ms =>
      rw [joinNl_pair, mlItems, ← mlItems_eq (.cons v2 r2) i rest (by simp), hpi]
      simp [List.append_assoc]

theorem mlEntries_eq : ∀ (xs : VimDict) (i : Nat) (rest : List Char), xs ≠ .nil →
    joinNl ((pySerEntries xs i).map
        (fun it => List.replicate (i + 2) ' ' ++ (it ++ [',']))) ++
      '\n' :: (List.replicate i ' ' ++ '}' :: rest) =
    List.replicate (i + 2) ' ' ++ mlEntries i rest xs
  | .nil, _, _, hne => absurd rfl hne
  | .cons k v .nil, i, rest, _ => by
    rw [pySerEntries, pySerEntries, List.map_cons, List.map_nil, joinNl_one,
      mlEntries]
    simp [List.append_assoc]
  | .cons k v (.cons k2 v2 r2), i, rest, _ => by
    rw [pySerEntries, List.map_cons]
    cases hpe : (pySerEntries (.cons k2 v2 r2) i).map
        (fun it => List.replicate (i + 2) ' ' ++ (it ++ [','])) with
    | nil => exact absurd hpe (by rw [pySerEntries]; simp)
    | cons m ms =>
      rw [joinNl_pair, mlEntries, ← mlEntries_eq (.cons k2 v2 r2) i rest (by simp),
        hpe]
      simp [List.append_assoc]

theorem ne_true_of_eq_false {b : Bool} (h : b = false) : ¬ (b = true) := by
  simp [h]

theorem joinComma_head_cons {c0 : Char} {t0 : List Char} :
    ∀ (xs : List (List Char)),
    joinComma ((c0 :: t0) :: xs) = c0 :: (joinComma ((c0 :: t0) :: xs)).tail
  | [] => rfl
  | y :: ys => rfl

theorem pySerItemsJ_shape (v : VimValue) (r : VimList) (i : Nat)
    (hg : goodV v = true) :
    ∃ c0 t0, joinComma (pySerItems (.cons v r) i) = c0 :: t0 ∧
      wsChar c0 = false ∧ c0 ≠ ']' ∧ c0 ≠ '}' ∧ c0 ≠ ',' := by
  cases hps : pySerV v (i + 2) with
  | nil => exact absurd hps (pySerV_ne_nil v (i + 2) hg)
  | cons c0 t =>
    have hfacts := pySerV_head_facts v (i + 2) hg c0 (by rw [hps]; rfl)
    rw [pySerItems, hps]
    cases hr : pySerItems r i with
    | nil =>
      exact ⟨c0, t, joinComma_one _ , hfacts.1, hfacts.2.1, hfacts.2.2.1,
        hfacts.2.2.2.1⟩
    | cons y ys =>
      refine ⟨c0, t ++ ',' :: ' ' :: joinComma (y :: ys), ?_, hfacts.1,
        hfacts.2.1, hfacts.2.2.1, hfacts.2.2.2.1⟩
      rw [joinComma_pair]
      rfl

theorem pySerEntriesJ_shape (k : List Char) (v : VimValue) (r : VimDict)
    (i : Nat) :
    ∃ t0, joinComma (pySerEntries (.cons k v r) i) = '"' :: t0 := by
  rw [pySerEntries]
  cases hr : pySerEntries r i with
  | nil => exact ⟨_, joinComma_one _⟩
  | cons y ys =>
    rw [joinComma_pair]
    exact ⟨_, rfl⟩

theorem needL_nonneg (xs : VimList) : 0 ≤ needL xs := Nat.zero_le _

theorem needL_pos : ∀ (v : VimValue) (r : VimList), 1 ≤ needL (.cons v r) := by
  intro v r
  rw [needL]
  omega

theorem needD_pos : ∀ (k : List Char) (v : VimValue) (r : VimDict),
    1 ≤ needD (.cons k v r) := by
  intro k v r
  rw [needD]
  omega


theorem mlItems_shape (i : Nat) (close : Char) (rest : List Char) (v : VimValue)
    (r : VimList) (hg : goodV v = true) :
    ∃ c0 T, mlItems i close rest (.cons v r) = c0 :: T ∧ wsChar c0 = false ∧
      c0 ≠ ']' ∧ c0 ≠ '}' := by
  cases hps : pySerV v (i + 2) with
  | nil => exact absurd hps (pySerV_ne_nil v (i + 2) hg)
  | cons c0 t =>
    have hfacts := pySerV_head_facts v (i + 2) hg c0 (by rw [hps]; rfl)
    cases r with
    | nil =>
      rw [mlItems, hps]
      exact ⟨c0, _, List.cons_append c0 t _, hfacts.1, hfacts.2.1, hfacts.2.2.1⟩
    | cons v2 r2 =>
      rw [mlItems, hps]
      exact ⟨c0, _, List.cons_append c0 t _, hfacts.1, hfacts.2.1, hfacts.2.2.1⟩

/-- Unfolding `pyEvalValue` at a cons-headed input whose head rules out the
three keyword atoms: the keyword prefix tests fail and the evaluator drops
into the character dispatch. -/
theorem pyEvalValue_cons (fuel : Nat) (c : Char) (r : List Char)
    (hN : c ≠ 'N') (hT : c ≠ 'T') (hF : c ≠ 'F') :
    pyEvalValue (fuel + 1) (c :: r) =
      (if c = '"' then
        match pyStrScan r with
        | some (str, rest) => some (.str str, rest)
        | none => none
      else if c = '[' then
        match skipWs r with
        | [] => none
        | d :: r2 =>
          if d = ']' then some (.list .nil, r2)
          else
            match pyEvalList fuel (d :: r2) with
            | some (xs, rest) => some (.list xs, rest)
            | none => none
      else if c = '{' then
        match skipWs r with
        | [] => none
        | d :: r2 =>
          if d = '}' then some (.dict .nil, r2)
          else
            match pyEvalDict fuel (d :: r2) with
            | some (xs, rest) => some (.dict xs, rest)
            | none => none
      else numParse (c :: r)) := by
  have hpN : (("None").data).isPrefixOf (c :: r) = false :=
    isPrefixOf_false_of_heads rfl rfl (fun h => hN h.symm)
  have hpT : (("True").data).isPrefixOf (c :: r) = false :=
    isPrefixOf_false_of_heads rfl rfl (fun h => hT h.symm)
  have hpF : (("False").data).isPrefixOf (c :: r) = false :=
    isPrefixOf_false_of_heads rfl rfl (fun h => hF h.symm)
  rw [pyEvalValue.eq_def]
  dsimp only
  rw [if_neg (ne_true_of_eq_false hpN), if_neg (ne_true_of_eq_false hpT),
    if_neg (ne_true_of_eq_false hpF)]

theorem mlEntries_shape (i : Nat) (rest : List Char) (k : List Char)
    (v : VimValue) (r : VimDict) :
    ∃ T, mlEntries i rest (.cons k v r) = '"' :: T := by
  cases r with
  | nil => exact ⟨_, rfl⟩
  | cons k2 v2 r2 => exact ⟨_, rfl⟩

mutual

theorem pyEval_pySerV : ∀ (v : VimValue) (i : Nat) (fuel : Nat) (rest : List Char),
    goodV v = true → needV v ≤ fuel →
    (∀ c, rest.head? = some c → numChar c = false) →
    pyEvalValue fuel (pySerV v i ++ rest) = some (v, rest)
  | v, _, 0, _, _, hfuel, _ => by
    have := needV_pos v
    omega
  | .null, _, fuel + 1, rest, _, _, _ => by
    have hpre : ((("None").data).isPrefixOf ((("None").data) ++ rest)) = true :=
      List.isPrefixOf_iff_prefix.mpr ⟨rest, rfl⟩
    rw [pySerV, pyEvalValue.eq_def]
    dsimp only
    rw [if_pos hpre]
    rfl
  | .bool true, _, fuel + 1, rest, _, _, _ => by
    have hpN : ((("None").data).isPrefixOf ((("True").data) ++ rest)) = false :=
      isPrefixOf_false_of_heads rfl rfl (by decide)
    have hpre : ((("True").data).isPrefixOf ((("True").data) ++ rest)) = true :=
      List.isPrefixOf_iff_prefix.mpr ⟨rest, rfl⟩
    rw [pySerV, if_pos (by decide : (true : Bool) = true), pyEvalValue.eq_def]
    dsimp only
    rw [if_neg (ne_true_of_eq_false hpN), if_pos hpre]
    rfl
  | .bool false, _, fuel + 1, rest, _, _, _ => by
    have hpN : ((("None").data).isPrefixOf ((("False").data) ++ rest)) = false :=
      isPrefixOf_false_of_heads rfl rfl (by decide)
    have hpT : ((("True").data).isPrefixOf ((("False").data) ++ rest)) = false :=
      isPrefixOf_false_of_heads rfl rfl (by decide)
    have hpre : ((("False").data).isPrefixOf ((("False").data) ++ rest)) = true :=
      List.isPrefixOf_iff_prefix.mpr ⟨rest, rfl⟩
    rw [pySerV, if_neg (by decide : ¬ ((false : Bool) = true)), pyEvalValue.eq_def]
    dsimp only
    rw [if_neg (ne_true_of_eq_false hpN), if_neg (ne_true_of_eq_false hpT),
      if_pos hpre]
    rfl
  | .int n, _, fuel + 1, rest, _, _, hrest => by
    rw [pySerV]
    cases hcs : intToChars n with
    | nil => exact absurd hcs (intToChars_ne_nil n)
    | cons c t =>
      have hcd : digitB c = true ∨ c = '-' :=
        intToChars_mem (hcs ▸ List.mem_cons_self c t)
      have hfacts : c ≠ '"' ∧ c ≠ '[' ∧ c ≠ '{' ∧ c ≠ 'N' ∧ c ≠ 'T' ∧ c ≠ 'F' := by
        rcases hcd with hd | hd
        · refine ⟨?_, ?_, ?_, ?_, ?_, ?_⟩ <;> intro hcon <;> subst hcon <;>
            exact absurd hd (by decide)
        · subst hd
          exact ⟨by decide, by decide, by decide, by decide, by decide, by decide⟩
      rw [List.cons_append, pyEvalValue_cons fuel c (t ++ rest)
        hfacts.2.2.2.1 hfacts.2.2.2.2.1 hfacts.2.2.2.2.2]
      rw [if_neg hfacts.1, if_neg hfacts.2.1, if_neg hfacts.2.2.1,
        ← List.cons_append, ← hcs, numParse_int n hrest]
  | .float f, _, fuel + 1, rest, hg, _, hrest => by
    rw [goodV] at hg
    rw [pySerV]
    cases hcs : f with
    | nil => exact absurd hcs (floatOk_ne_nil hg)
    | cons c t =>
      rw [hcs] at hg
      obtain ⟨hall, _, _⟩ := floatOk_parts hg
      have hn : numChar c = true :=
        List.all_eq_true.mp hall c (List.mem_cons_self c t)
      have hfacts : c ≠ '"' ∧ c ≠ '[' ∧ c ≠ '{' ∧ c ≠ 'N' ∧ c ≠ 'T' ∧ c ≠ 'F' := by
        refine ⟨?_, ?_, ?_, ?_, ?_, ?_⟩ <;> intro hcon <;> subst hcon <;>
          exact absurd hn (by decide)
      rw [List.cons_append, pyEvalValue_cons fuel c (t ++ rest)
        hfacts.2.2.2.1 hfacts.2.2.2.2.1 hfacts.2.2.2.2.2]
      rw [if_neg hfacts.1, if_neg hfacts.2.1, if_neg hfacts.2.2.1,
        ← List.cons_append, numParse_float hg hrest]
  | .str s, _, fuel + 1, rest, hg, _, _ => by
    rw [goodV] at hg
    obtain ⟨_, _, _, hcr, _, _⟩ := strOk_parts hg
    rw [pySerV]
    by_cases hmem : ('\n') ∈ s
    · rw [if_pos hmem, escape_vim_double_quoted_eq_flatMap]
      have hshape : ('"' :: (s.flatMap dqEscChar ++ ['"'])) ++ rest =
          '"' :: (s.flatMap dqEscChar ++ '"' :: rest) := by simp
      rw [hshape, pyEvalValue_cons fuel '"' _ (by decide) (by decide) (by decide),
        if_pos rfl, pyStrScan_dqEsc s (fun c hc hcon => hcr (hcon ▸ hc)) rest]
    · rw [if_neg hmem]
      have hshape : ('"' :: (s.flatMap pyEscChar ++ ['"'])) ++ rest =
          '"' :: (s.flatMap pyEscChar ++ '"' :: rest) := by simp
      rw [hshape, pyEvalValue_cons fuel '"' _ (by decide) (by decide) (by decide),
        if_pos rfl, pyStrScan_escPy s
          (fun c hc => ⟨fun hcon => hmem (hcon ▸ hc), fun hcon => hcr (hcon ▸ hc)⟩)
          rest]
  | .list .nil, _, fuel + 1, rest, _, _, _ => by
    rw [pySerV]
    have hshape : (['[', ']'] : List Char) ++ rest = '[' :: ']' :: rest := rfl
    rw [hshape, pyEvalValue_cons fuel '[' (']' :: rest)
        (by decide) (by decide) (by decide),
      if_neg (by decide), if_pos rfl, skipWs_cons_of_neg (by decide)]
    dsimp only
    rw [if_pos rfl]
  | .list (.cons v r), i, fuel + 1, rest, hg, hfuel, _ => by
    have hgl : goodL (.cons v r) = true := by rwa [goodV] at hg
    rw [pySerV]
    by_cases hs : listSimple (.cons v r) = true
    · rw [if_pos hs]
      obtain ⟨c0, t0, hjc, hw0, hb0, _, _⟩ :=
        pySerItemsJ_shape v r i (goodL_parts hgl).1
      have hshape : ('[' :: (joinComma (pySerItems (.cons v r) i) ++ [']'])) ++ rest =
          '[' :: (joinComma (pySerItems (.cons v r) i) ++ ']' :: rest) := by simp
      rw [hshape, pyEvalValue_cons fuel '[' _ (by decide) (by decide) (by decide),
        if_neg (by decide), if_pos rfl, hjc, List.cons_append,
        skipWs_cons_of_neg hw0]
      dsimp only
      rw [if_neg hb0, ← List.cons_append, ← hjc,
        pyEval_listJ (.cons v r) i fuel rest hgl (by simp)
          (by rw [needV] at hfuel; omega)]
    · rw [if_neg hs]
      obtain ⟨c0, T, hml, hw0, hb0, _⟩ :=
        mlItems_shape i ']' rest v r (goodL_parts hgl).1
      have hshape : ('[' :: '\n' ::
          (joinNl ((pySerItems (.cons v r) i).map
            (fun it => List.replicate (i + 2) ' ' ++ it ++ [','])) ++
           '\n' :: (List.replicate i ' ' ++ [']']))) ++ rest =
          '[' :: '\n' ::
          (joinNl ((pySerItems (.cons v r) i).map
            (fun it => List.replicate (i + 2) ' ' ++ (it ++ [',']))) ++
           '\n' :: (List.replicate i ' ' ++ ']' :: rest)) := by
        simp [List.append_assoc]
      rw [hshape, mlItems_eq (.cons v r) i rest (by simp),
        pyEvalValue_cons fuel '[' _ (by decide) (by decide) (by decide),
        if_neg (by decide), if_pos rfl, skipWs_nl, skipWs_replicate, hml,
        skipWs_cons_of_neg hw0]
      dsimp only
      rw [if_neg hb0, ← hml,
        pyEval_listML (.cons v r) i fuel rest hgl (by simp)
          (by rw [needV] at hfuel; omega)]
  | .dict .nil, _, fuel + 1, rest, _, _, _ => by
    rw [pySerV]
    have hshape : (['{', '}'] : List Char) ++ rest = '{' :: '}' :: rest := rfl
    rw [hshape, pyEvalValue_cons fuel '{' ('}' :: rest)
        (by decide) (by decide) (by decide),
      if_neg (by decide), if_neg (by decide), if_pos rfl,
      skipWs_cons_of_neg (by decide)]
    dsimp only
    rw [if_pos rfl]
  | .dict (.cons k v r), i, fuel + 1, rest, hg, hfuel, _ => by
    have hgd : goodD (.cons k v r) = true :=
      ((Bool.and_eq_true _ _) ▸ (by rwa [goodV] at hg :
        (distinctB (keysOf (.cons k v r)) && goodD (.cons k v r)) = true)).2
    rw [pySerV]
    by_cases hs : (decide (sumLens (fmtEntries (.cons k v r) i) < 60) &&
        (fmtEntries (.cons k v r) i).all (fun it => !(it.elem '\n'))) = true
    · rw [if_pos hs]
      obtain ⟨t0, hjc⟩ := pySerEntriesJ_shape k v r i
      have hshape : ('{' :: (joinComma (pySerEntries (.cons k v r) i) ++ ['}'])) ++
          rest =
          '{' :: (joinComma (pySerEntries (.cons k v r) i) ++ '}' :: rest) := by
        simp
      rw [hshape, pyEvalValue_cons fuel '{' _ (by decide) (by decide) (by decide),
        if_neg (by decide), if_neg (by decide), if_pos rfl, hjc,
        List.cons_append, skipWs_cons_of_neg (by decide)]
      dsimp only
      rw [if_neg (by decide), ← List.cons_append, ← hjc,
        pyEval_dictJ (.cons k v r) i fuel rest hgd (by simp)
          (by rw [needV] at hfuel; omega)]
    · rw [if_neg hs]
      obtain ⟨T, hml⟩ := mlEntries_shape i rest k v r
      have hshape : ('{' :: '\n' ::
          (joinNl ((pySerEntries (.cons k v r) i).map
            (fun it => List.replicate (i + 2) ' ' ++ it ++ [','])) ++
           '\n' :: (List.replicate i ' ' ++ ['}']))) ++ rest =
          '{' :: '\n' ::
          (joinNl ((pySerEntries (.cons k v r) i).map
            (fun it => List.replicate (i + 2) ' ' ++ (it ++ [',']))) ++
           '\n' :: (List.replicate i ' ' ++ '}' :: rest)) := by
        simp [List.append_assoc]
      rw [hshape, mlEntries_eq (.cons k v r) i rest (by simp),
        pyEvalValue_cons fuel '{' _ (by decide) (by decide) (by decide),
        if_neg (by decide), if_neg (by decide), if_pos rfl, skipWs_nl,
        skipWs_replicate, hml, skipWs_cons_of_neg (by decide)]
      dsimp only
      rw [if_neg (by decide), ← hml,
        pyEval_dictML (.cons k v r) i fuel rest hgd (by simp)
          (by rw [needV] at hfuel; omega)]

theorem pyEval_listJ : ∀ (xs : VimList) (i : Nat) (fuel : Nat) (rest : List Char),
    goodL xs = true → xs ≠ .nil → needL xs ≤ fuel →
    pyEvalList fuel (joinComma (pySerItems xs i) ++ ']' :: rest) = some (xs, rest)
  | .nil, _, _, _, _, hne, _ => absurd rfl hne
  | .cons v r, _, 0, _, _, _, hfuel => by
    have := needL_pos v r
    omega
  | .cons v .nil, i, fuel + 1, rest, hg, _, hfuel => by
    rw [pySerItems, pySerItems, joinComma_one, pyEvalList.eq_def]
    dsimp only
    rw [pyEval_pySerV v (i + 2) fuel (']' :: rest) (goodL_parts hg).1
      (by rw [needL] at hfuel; omega)
      (fun c hc => by
        rw [List.head?_cons, Option.some_inj] at hc
        subst hc
        decide)]
    dsimp only
    rw [skipWs_cons_of_neg (by decide)]
    dsimp only
    rw [if_pos rfl]
  | .cons v (.cons v2 r2), i, fuel + 1, rest, hg, _, hfuel => by
    rw [pySerItems]
    cases hpi : pySerItems (.cons v2 r2) i with
    | nil => exact absurd hpi (by rw [pySerItems]; simp)
    | cons m ms =>
      rw [joinComma_pair]
      have hshape : ((pySerV v (i + 2) ++ ',' :: ' ' :: joinComma (m :: ms))) ++
          ']' :: rest =
          pySerV v (i + 2) ++ ',' :: ' ' :: (joinComma (m :: ms) ++ ']' :: rest) := by
        simp [List.append_assoc]
      rw [hshape, pyEvalList.eq_def]
      dsimp only
      rw [pyEval_pySerV v (i + 2) fuel
        (',' :: ' ' :: (joinComma (m :: ms) ++ ']' :: rest)) (goodL_parts hg).1
        (by rw [needL] at hfuel; omega)
        (fun c hc => by
          rw [List.head?_cons, Option.some_inj] at hc
          subst hc
          decide)]
      dsimp only
      rw [skipWs_cons_of_neg (by decide)]
      dsimp only
      rw [if_neg (by decide), if_pos rfl, skipWs_space, ← hpi]
      obtain ⟨c0, t0, hjc, hw0, hb0, _, _⟩ :=
        pySerItemsJ_shape v2 r2 i (goodL_parts (goodL_parts hg).2).1
      rw [hjc, List.cons_append, skipWs_cons_of_neg hw0]
      dsimp only
      rw [if_neg hb0, ← List.cons_append, ← hjc,
        pyEval_listJ (.cons v2 r2) i fuel rest (goodL_parts hg).2 (by simp)
          (by rw [needL] at hfuel; omega)]

theorem pyEval_listML : ∀ (xs : VimList) (i : Nat) (fuel : Nat) (rest : List Char),
    goodL xs = true → xs ≠ .nil → needL xs ≤ fuel →
    pyEvalList fuel (mlItems i ']' rest xs) = some (xs, rest)
  | .nil, _, _, _, _, hne, _ => absurd rfl hne
  | .cons v r, _, 0, _, _, _, hfuel => by
    have := needL_pos v r
    omega
  | .cons v .nil, i, fuel + 1, rest, hg, _, hfuel => by
    rw [mlItems, pyEvalList.eq_def]
    dsimp only
    rw [pyEval_pySerV v (i + 2) fuel
      (',' :: '\n' :: (List.replicate i ' ' ++ ']' :: rest)) (goodL_parts hg).1
      (by rw [needL] at hfuel; omega)
      (fun c hc => by
        rw [List.head?_cons, Option.some_inj] at hc
        subst hc
        decide)]
    dsimp only
    rw [skipWs_cons_of_neg (by decide)]
    dsimp only
    rw [if_neg (by decide), if_pos rfl, skipWs_nl, skipWs_replicate,
      skipWs_cons_of_neg (by decide)]
    dsimp only
    rw [if_pos rfl]
  | .cons v (.cons v2 r2), i, fuel + 1, rest, hg, _, hfuel => by
    rw [mlItems, pyEvalList.eq_def]
    dsimp only
    rw [pyEval_pySerV v (i + 2) fuel
      (',' :: '\n' :: (List.replicate (i + 2) ' ' ++
        mlItems i ']' rest (.cons v2 r2))) (goodL_parts hg).1
      (by rw [needL] at hfuel; omega)
      (fun c hc => by
        rw [List.head?_cons, Option.some_inj] at hc
        subst hc
        decide)]
    dsimp only
    rw [skipWs_cons_of_neg (by decide)]
    dsimp only
    rw [if_neg (by decide), if_pos rfl, skipWs_nl, skipWs_replicate]
    obtain ⟨c0, T, hml, hw0, hb0, _⟩ :=
      mlItems_shape i ']' rest v2 r2 (goodL_parts (goodL_parts hg).2).1
    rw [hml, skipWs_cons_of_neg hw0]
    dsimp only
    rw [if_neg hb0, ← hml,
      pyEval_listML (.cons v2 r2) i fuel rest (goodL_parts hg).2 (by simp)
        (by rw [needL] at hfuel; omega)]

theorem pyEval_dictJ : ∀ (xs : VimDict) (i : Nat) (fuel : Nat) (rest : List Char),
    goodD xs = true → xs ≠ .nil → needD xs ≤ fuel →
    pyEvalDict fuel (joinComma (pySerEntries xs i) ++ '}' :: rest) = some (xs, rest)
  | .nil, _, _, _, _, hne, _ => absurd rfl hne
  | .cons k v r, _, 0, _, _, _, hfuel => by
    have := needD_pos k v r
    omega
  | .cons k v .nil, i, fuel + 1, rest, hg, _, hfuel => by
    obtain ⟨hk, hv, _⟩ := goodD_parts hg
    obtain ⟨_, hall⟩ := keyOk_parts hk
    rw [pySerEntries, pySerEntries, joinComma_one]
    have hshape : ('"' :: (k ++ '"' :: ':' :: ' ' :: pySerV v (i + 2))) ++
        '}' :: rest =
        '"' :: (k ++ '"' :: (':' :: ' ' :: (pySerV v (i + 2) ++ '}' :: rest))) := by
      simp [List.append_assoc]
    rw [hshape, pyEvalDict.eq_def]
    dsimp only
    rw [if_pos rfl,
      pyStrScan_raw k (fun c hc =>
        ⟨(keyChar_facts (hall c hc)).2.2.2.1, (keyChar_facts (hall c hc)).2.2.1,
         (keyChar_facts (hall c hc)).2.2.2.2.1,
         (keyChar_facts (hall c hc)).2.2.2.2.2.1⟩)]
    dsimp only
    rw [skipWs_cons_of_neg (by decide)]
    dsimp only
    rw [if_pos rfl, skipWs_space]
    cases hps : pySerV v (i + 2) with
    | nil => exact absurd hps (pySerV_ne_nil v (i + 2) hv)
    | cons c0 t0 =>
      have hfacts := pySerV_head_facts v (i + 2) hv c0 (by rw [hps]; rfl)
      rw [List.cons_append, skipWs_cons_of_neg hfacts.1, ← List.cons_append,
        ← hps,
        pyEval_pySerV v (i + 2) fuel ('}' :: rest) hv
          (by rw [needD] at hfuel; omega)
          (fun c hc => by
            rw [List.head?_cons, Option.some_inj] at hc
            subst hc
            decide)]
      dsimp only
      rw [skipWs_cons_of_neg (by decide)]
      dsimp only
      rw [if_pos rfl]
  | .cons k v (.cons k2 v2 r2), i, fuel + 1, rest, hg, _, hfuel => by
    obtain ⟨hk, hv, hg2⟩ := goodD_parts hg
    obtain ⟨_, hall⟩ := keyOk_parts hk
    rw [pySerEntries]
    cases hpe : pySerEntries (.cons k2 v2 r2) i with
    | nil => exact absurd hpe (by rw [pySerEntries]; simp)
    | cons m ms =>
      rw [joinComma_pair]
      have hshape : (('"' :: (k ++ '"' :: ':' :: ' ' :: pySerV v (i + 2))) ++
          ',' :: ' ' :: joinComma (m :: ms)) ++ '}' :: rest =
          '"' :: (k ++ '"' :: (':' :: ' ' :: (pySerV v (i + 2) ++
            ',' :: ' ' :: (joinComma (m :: ms) ++ '}' :: rest)))) := by
        simp [List.append_assoc]
      rw [hshape, pyEvalDict.eq_def]
      dsimp only
      rw [if_pos rfl,
        pyStrScan_raw k (fun c hc =>
          ⟨(keyChar_facts (hall c hc)).2.2.2.1, (keyChar_facts (hall c hc)).2.2.1,
           (keyChar_facts (hall c hc)).2.2.2.2.1,
           (keyChar_facts (hall c hc)).2.2.2.2.2.1⟩)]
      dsimp only
      rw [skipWs_cons_of_neg (by decide)]
      dsimp only
      rw [if_pos rfl, skipWs_space]
      cases hps : pySerV v (i + 2) with
      | nil => exact absurd hps (pySerV_ne_nil v (i + 2) hv)
      | cons c0 t0 =>
        have hfacts := pySerV_head_facts v (i + 2) hv c0 (by rw [hps]; rfl)
        rw [List.cons_append, skipWs_cons_of_neg hfacts.1,
          ← List.cons_append, ← hps,
          pyEval_pySerV v (i + 2) fuel
            (',' :: ' ' :: (joinComma (m :: ms) ++ '}' :: rest)) hv
            (by rw [needD] at hfuel; omega)
            (fun c hc => by
              rw [List.head?_cons, Option.some_inj] at hc
              subst hc
              decide)]
        dsimp only
        rw [skipWs_cons_of_neg (by decide)]
        dsimp only
        rw [if_neg (by decide), if_pos rfl, skipWs_space, ← hpe]
        obtain ⟨t1, hjc⟩ := pySerEntriesJ_shape k2 v2 r2 i
        rw [hjc, List.cons_append, skipWs_cons_of_neg (by decide)]
        dsimp only
        rw [if_neg (by decide), ← List.cons_append, ← hjc,
          pyEval_dictJ (.cons k2 v2 r2) i fuel rest hg2 (by simp)
            (by rw [needD] at hfuel; omega)]

theorem pyEval_dictML : ∀ (xs : VimDict) (i : Nat) (fuel : Nat) (rest : List Char),
    goodD xs = true → xs ≠ .nil → needD xs ≤ fuel →
    pyEvalDict fuel (mlEntries i rest xs) = some (xs, rest)
  | .nil, _, _, _, _, hne, _ => absurd rfl hne
  | .cons k v r, _, 0, _, _, _, hfuel => by
    have := needD_pos k v r
    omega
  | .cons k v .nil, i, fuel + 1, rest, hg, _, hfuel => by
    obtain ⟨hk, hv, _⟩ := goodD_parts hg
    obtain ⟨_, hall⟩ := keyOk_parts hk
    rw [mlEntries, pyEvalDict.eq_def]
    dsimp only
    rw [if_pos rfl,
      pyStrScan_raw k (fun c hc =>
        ⟨(keyChar_facts (hall c hc)).2.2.2.1, (keyChar_facts (hall c hc)).2.2.1,
         (keyChar_facts (hall c hc)).2.2.2.2.1,
         (keyChar_facts (hall c hc)).2.2.2.2.2.1⟩)]
    dsimp only
    rw [skipWs_cons_of_neg (by decide)]
    dsimp only
    rw [if_pos rfl, skipWs_space]
    cases hps : pySerV v (i + 2) with
    | nil => exact absurd hps (pySerV_ne_nil v (i + 2) hv)
    | cons c0 t0 =>
      have hfacts := pySerV_head_facts v (i + 2) hv c0 (by rw [hps]; rfl)
      rw [List.cons_append, skipWs_cons_of_neg hfacts.1, ← List.cons_append,
        ← hps,
        pyEval_pySerV v (i + 2) fuel
          (',' :: '\n' :: (List.replicate i ' ' ++ '}' :: rest)) hv
          (by rw [needD] at hfuel; omega)
          (fun c hc => by
            rw [List.head?_cons, Option.some_inj] at hc
            subst hc
            decide)]
      dsimp only
      rw [skipWs_cons_of_neg (by decide)]
      dsimp only
      rw [if_neg (by decide), if_pos rfl, skipWs_nl, skipWs_replicate,
        skipWs_cons_of_neg (by decide)]
      dsimp only
      rw [if_pos rfl]
  | .cons k v (.cons k2 v2 r2), i, fuel + 1, rest, hg, _, hfuel => by
    obtain ⟨hk, hv, hg2⟩ := goodD_parts hg
    obtain ⟨_, hall⟩ := keyOk_parts hk
    rw [mlEntries, pyEvalDict.eq_def]
    dsimp only
    rw [if_pos rfl,
      pyStrScan_raw k (fun c hc =>
        ⟨(keyChar_facts (hall c hc)).2.2.2.1, (keyChar_facts (hall c hc)).2.2.1,
         (keyChar_facts (hall c hc)).2.2.2.2.1,
         (keyChar_facts (hall c hc)).2.2.2.2.2.1⟩)]
    dsimp only
    rw [skipWs_cons_of_neg (by decide)]
    dsimp only
    rw [if_pos rfl, skipWs_space]
    cases hps : pySerV v (i + 2) with
    | nil => exact absurd hps (pySerV_ne_nil v (i + 2) hv)
    | cons c0 t0 =>
      have hfacts := pySerV_head_facts v (i + 2) hv c0 (by rw [hps]; rfl)
      rw [List.cons_append, skipWs_cons_of_neg hfacts.1, ← List.cons_append,
        ← hps,
        pyEval_pySerV v (i + 2) fuel
          (',' :: '\n' :: (List.replicate (i + 2) ' ' ++
            mlEntries i rest (.cons k2 v2 r2))) hv
          (by rw [needD] at hfuel; omega)
          (fun c hc => by
            rw [List.head?_cons, Option.some_inj] at hc
            subst hc
            decide)]
      dsimp only
      rw [skipWs_cons_of_neg (by decide)]
      dsimp only
      rw [if_neg (by decide), if_pos rfl, skipWs_nl, skipWs_replicate]
      obtain ⟨T, hml⟩ := mlEntries_shape i rest k2 v2 r2
      rw [hml, skipWs_cons_of_neg (by decide)]
      dsimp only
      rw [if_neg (by decide), ← hml,
        pyEval_dictML (.cons k2 v2 r2) i fuel rest hg2 (by simp)
          (by rw [needD] at hfuel; omega)]

end

/-! ## The fuel budget covers the recursion depth

`pyEvalTop` hands the evaluator `2 * length + 2` units of fuel; the needs
`needV`/`needL`/`needD` are bounded by the serialized length, every item
paying at least one character beyond its payload. -/

theorem joinComma_length_ge : ∀ (xs : List (List Char)),
    sumLens xs + 2 * xs.length ≤ (joinComma xs).length + 2
  | [] => by decide
  | [x] => by
    rw [joinComma_one]
    simp only [sumLens, List.map_cons, List.map_nil, List.sum_cons, List.sum_nil,
      List.length_cons, List.length_nil]
    omega
  | x :: y :: ys => by
    have ih := joinComma_length_ge (y :: ys)
    rw [joinComma_pair]
    simp only [sumLens, List.map_cons, List.sum_cons, List.length_cons,
      List.length_append] at ih ⊢
    omega

theorem joinNl_length_ge : ∀ (xs : List (List Char)),
    sumLens xs ≤ (joinNl xs).length
  | [] => by decide
  | [x] => by
    rw [joinNl_one]
    simp only [sumLens, List.map_cons, List.map_nil, List.sum_cons, List.sum_nil]
    omega
  | x :: y :: ys => by
    have ih := joinNl_length_ge (y :: ys)
    rw [joinNl_pair]
    simp only [sumLens, List.map_cons, List.sum_cons, List.length_cons,
      List.length_append] at ih ⊢
    omega

theorem sumLens_map_pad_ge (i : Nat) : ∀ (items : List (List Char)),
    sumLens items + items.length ≤
      sumLens (items.map (fun it => List.replicate (i + 2) ' ' ++ it ++ [',']))
  | [] => by simp [sumLens]
  | x :: xs => by
    have ih := sumLens_map_pad_ge i xs
    simp only [sumLens, List.map_cons, List.sum_cons, List.length_cons,
      List.length_append, List.length_replicate, List.length_nil] at ih ⊢
    omega

mutual

theorem needV_le : ∀ (v : VimValue) (i : Nat), goodV v = true →
    needV v ≤ (pySerV v i).length
  | .null, _, _ => by
    rw [pySerV]
    decide
  | .bool b, _, _ => by
    cases b <;> rw [pySerV] <;> decide
  | .int n, _, _ => by
    rw [pySerV]
    show (1 : Nat) ≤ (intToChars n).length
    exact List.length_pos.mpr (intToChars_ne_nil n)
  | .float f, _, hg => by
    rw [goodV] at hg
    rw [pySerV]
    show (1 : Nat) ≤ f.length
    exact List.length_pos.mpr (floatOk_ne_nil hg)
  | .str s, _, _ => by
    rw [pySerV]
    by_cases hmem : ('\n') ∈ s
    · rw [if_pos hmem]
      show (1 : Nat) ≤ _
      rw [List.length_cons]
      omega
    · rw [if_neg hmem]
      show (1 : Nat) ≤ _
      rw [List.length_cons]
      omega
  | .list .nil, _, _ => by
    rw [pySerV]
    decide
  | .list (.cons v r), i, hg => by
    have hgl : goodL (.cons v r) = true := by rwa [goodV] at hg
    have hL := needL_le (.cons v r) i hgl
    have hn : 0 < (pySerItems (.cons v r) i).length := by
      rw [pySerItems]
      simp
    have hneed : needV (.list (.cons v r)) = 1 + needL (.cons v r) := rfl
    rw [pySerV, hneed]
    by_cases hs : listSimple (.cons v r) = true
    · rw [if_pos hs]
      have hjc := joinComma_length_ge (pySerItems (.cons v r) i)
      simp only [sumLens] at hL hjc ⊢
      simp only [List.length_cons, List.length_append, List.length_nil]
      omega
    · rw [if_neg hs]
      have hge := sumLens_map_pad_ge i (pySerItems (.cons v r) i)
      have hnl := joinNl_length_ge ((pySerItems (.cons v r) i).map
        (fun it => List.replicate (i + 2) ' ' ++ it ++ [',']))
      simp only [sumLens] at hL hge hnl ⊢
      simp only [List.length_cons, List.length_append, List.length_replicate,
        List.length_nil]
      omega
  | .dict .nil, _, _ => by
    rw [pySerV]
    decide
  | .dict (.cons k v r), i, hg => by
    have hgd : goodD (.cons k v r) = true :=
      ((Bool.and_eq_true _ _) ▸ (by rwa [goodV] at hg :
        (distinctB (keysOf (.cons k v r)) && goodD (.cons k v r)) = true)).2
    have hD := needD_le (.cons k v r) i hgd
    have hn : 0 < (pySerEntries (.cons k v r) i).length := by
      rw [pySerEntries]
      simp
    have hneed : needV (.dict (.cons k v r)) = 1 + needD (.cons k v r) := rfl
    rw [pySerV, hneed]
    by_cases hs : (decide (sumLens (fmtEntries (.cons k v r) i) < 60) &&
        (fmtEntries (.cons k v r) i).all (fun it => !(it.elem '\n'))) = true
    · rw [if_pos hs]
      have hjc := joinComma_length_ge (pySerEntries (.cons k v r) i)
      simp only [sumLens] at hD hjc ⊢
      simp only [List.length_cons, List.length_append, List.length_nil]
      omega
    · rw [if_neg hs]
      have hge := sumLens_map_pad_ge i (pySerEntries (.cons k v r) i)
      have hnl := joinNl_length_ge ((pySerEntries (.cons k v r) i).map
        (fun it => List.replicate (i + 2) ' ' ++ it ++ [',']))
      simp only [sumLens] at hD hge hnl ⊢
      simp only [List.length_cons, List.length_append, List.length_replicate,
        List.length_nil]
      omega

theorem needL_le : ∀ (xs : VimList) (i : Nat), goodL xs = true →
    needL xs ≤ sumLens (pySerItems xs i) + (pySerItems xs i).length
  | .nil, i, _ => by
    rw [pySerItems]
    decide
  | .cons v r, i, hg => by
    have hV := needV_le v (i + 2) (goodL_parts hg).1
    have ih := needL_le r i (goodL_parts hg).2
    rw [pySerItems, needL]
    simp only [sumLens, List.map_cons, List.sum_cons, List.length_cons] at ih ⊢
    omega

theorem needD_le : ∀ (xs : VimDict) (i : Nat), goodD xs = true →
    needD xs ≤ sumLens (pySerEntries xs i) + (pySerEntries xs i).length
  | .nil, i, _ => by
    rw [pySerEntries]
    decide
  | .cons k v r, i, hg => by
    obtain ⟨hk, hv, hg2⟩ := goodD_parts hg
    have hV := needV_le v (i + 2) hv
    have ih := needD_le r i hg2
    rw [pySerEntries, needD]
    simp only [sumLens, List.map_cons, List.sum_cons, List.length_cons,
      List.length_append] at ih ⊢
    omega

end

/-! ## Claim C1: the round trip -/

/--
Counterexample to C1 as stated: phase 2 of `parse_vim_dict` rewrites the
atom tokens `v:null`, `v:true`, `v:false` everywhere in the text, inside
string bodies included, so the string value `"v:null"` — which
`format_vim_value` emits verbatim as `'v:null'` — is parsed back as the
string `"None"`, not as itself.
-/
theorem c1_counterexample :
    parse_vim_dict (format_vim_value (.str (("v:null").data)) 0) =
      some (.str (("None").data)) ∧
    VimValue.str (("None").data) ≠ VimValue.str (("v:null").data) := by
  constructor
  · decide
  · decide

/--
C1 (amended).  For every value `v` within the round-trippable fragment
(`goodV`): strings avoid the three atom tokens `v:null`/`v:true`/`v:false`
as substrings, contain no carriage return or NUL, and — when rendered
double-quoted because they contain a newline — do not end in a backslash;
floats are canonical renderings (`floatOkB`); dict keys are nonempty
alphanumeric/underscore and pairwise distinct.  Then parsing the
serializer's output recovers the identical value:
`parse_vim_dict (format_vim_value v) = some v`.
-/
theorem c1_round_trip (v : VimValue) (hg : goodV v = true) :
    parse_vim_dict (format_vim_value v 0) = some v := by
  rw [parse_vim_dict, jc_format v hg]
  have h2 : rep3 (format_vim_value v 0) = mid1V v 0 := by
    have h := rep3_fmtV v 0 [] hg
    rwa [List.append_nil, rep3_nil, List.append_nil] at h
  rw [h2, relex_mid1 v hg, pyEvalTop]
  cases hps : pySerV v 0 with
  | nil => exact absurd hps (pySerV_ne_nil v 0 hg)
  | cons c0 t0 =>
    have hfacts := pySerV_head_facts v 0 hg c0 (by rw [hps]; rfl)
    have hlen : needV v ≤ 2 * (c0 :: t0).length + 2 := by
      have h := needV_le v 0 hg
      rw [hps] at h
      omega
    have hev := pyEval_pySerV v 0 (2 * (c0 :: t0).length + 2) [] hg hlen
      (fun c hc => by rw [List.head?_nil] at hc; exact absurd hc (by simp))
    rw [List.append_nil, hps] at hev
    rw [skipWs_cons_of_neg hfacts.1, hev]
    rfl

/--
Witness for C1's amended theorem at a concrete input: a two-entry dict
holding a list of an integer and a float, and a multi-line string; it lies
in the `goodV` fragment and round-trips to itself.
-/
theorem c1_round_trip_witness :
    goodV (VimValue.dict (.cons (("a").data)
        (.list (.cons (.int 1) (.cons (.float (("2.5").data)) .nil)))
        (.cons (("b").data) (.str (("line1\nline2").data)) .nil))) = true ∧
    parse_vim_dict (format_vim_value (VimValue.dict (.cons (("a").data)
        (.list (.cons (.int 1) (.cons (.float (("2.5").data)) .nil)))
        (.cons (("b").data) (.str (("line1\nline2").data)) .nil))) 0) =
      some (VimValue.dict (.cons (("a").data)
        (.list (.cons (.int 1) (.cons (.float (("2.5").data)) .nil)))
        (.cons (("b").data) (.str (("line1\nline2").data)) .nil))) :=
  ⟨by decide, c1_round_trip _ (by decide)⟩

end EscapeVim
